import Mathlib

/-!
# Verification of the cove threaded-conversation cursor engine

This file embeds the cursor/traversal engine of `src/ui/chat/tree/cursor.rs`
into Lean and proves properties of its movement operations.

The forest/store layer (`crate::store`: the `Tree` structural queries, the
`MsgStore` trait and the `Path` type) is not part of the provided sources;
those parts are modelled from the specification (§3 "Data Model",
§4.2 "Forest Abstraction").  Every function of `cursor.rs` is translated
directly from the Rust source, statement by statement; `&mut` borrows become
explicit state threading, `async fn ... -> Result<_, S::Error>` becomes a
result type that carries the final state of the mutable borrows even on
error (mirroring the fact that a `?` early-return leaves earlier in-place
mutations visible), and the two `while` loops become fuel recursion with
fuel bounded by the size of the tree, which bounds both loops in the source.
-/

set_option maxHeartbeats 1000000

namespace Cove

/-- Modelled from the spec: a materialized root tree (§3 "Tree"): an
in-memory snapshot of one root tree, a node id plus the ordered list of
child subtrees (children in insertion/arrival order). -/
inductive MTree : Type where
  | node (id : Nat) (children : List MTree)
deriving Repr

namespace MTree

/-- The id at the root of a (sub)tree. -/
def rootId : MTree → Nat
  | .node i _ => i

/-- The child subtrees of the root node. -/
def childTrees : MTree → List MTree
  | .node _ cs => cs

mutual
/-- All ids of a tree, in pre-order. -/
def ids : MTree → List Nat
  | .node i cs => i :: idsList cs
/-- All ids of a list of trees, in pre-order. -/
def idsList : List MTree → List Nat
  | [] => []
  | t :: ts => ids t ++ idsList ts
end

/-- The number of nodes of a tree. -/
def size (t : MTree) : Nat := t.ids.length

mutual
/-- The subtree rooted at a given id, if the id occurs in the tree. -/
def findNode : MTree → Nat → Option MTree
  | .node i cs, j => if i = j then some (.node i cs) else findNodeList cs j
/-- The subtree rooted at a given id within a list of trees. -/
def findNodeList : List MTree → Nat → Option MTree
  | [], _ => none
  | t :: ts, j =>
    match findNode t j with
    | some u => some u
    | none => findNodeList ts j
end

mutual
/-- Modelled from the spec: the parent-of query of the materialized `Tree`
(§3): the id of the node whose children list contains `j`; `none` when `j`
is the root of the tree or does not occur. -/
def parentOf : MTree → Nat → Option Nat
  | .node i cs, j =>
    if j ∈ cs.map rootId then some i else parentOfList cs j
/-- Parent lookup within a list of trees. -/
def parentOfList : List MTree → Nat → Option Nat
  | [], _ => none
  | t :: ts, j =>
    match parentOf t j with
    | some p => some p
    | none => parentOfList ts j
end

mutual
/-- Modelled from the spec: the chain of ids from the root of the tree down
to `j` (the store's `path` contract, §4.2), `none` if `j` does not occur. -/
def pathTo : MTree → Nat → Option (List Nat)
  | .node i cs, j =>
    if i = j then some [i] else (pathToList cs j).map (i :: ·)
/-- Path lookup within a list of trees. -/
def pathToList : List MTree → Nat → Option (List Nat)
  | [], _ => none
  | t :: ts, j =>
    match pathTo t j with
    | some p => some p
    | none => pathToList ts j
end

/-- Modelled from the spec: the children-of query of the materialized `Tree`
(§3): the ordered list of child ids of `j`, `none` when `j` does not occur
in the tree (mirrors `tree.children(id)` returning an `Option`). -/
def childrenIds (t : MTree) (j : Nat) : Option (List Nat) :=
  (t.findNode j).map (fun u => u.childTrees.map rootId)

end MTree

/-- The element directly after `j` in a list, if any. -/
def nextIn : List Nat → Nat → Option Nat
  | [], _ => none
  | a :: rest, j => if a = j then rest.head? else nextIn rest j

/-- The element directly before `j` in a list, if any. -/
def prevIn (l : List Nat) (j : Nat) : Option Nat :=
  nextIn l.reverse j

namespace MTree

/-- The list of ids among which `j` sits as a sibling: the children ids of
`j`'s parent, `none` when `j` is the root or absent. -/
def siblingList (t : MTree) (j : Nat) : Option (List Nat) :=
  (t.parentOf j).bind (fun p => t.childrenIds p)

/-- Modelled from the spec: the previous-sibling query of the materialized
`Tree` (§3); `none` for the root of the tree. -/
def prev_sibling (t : MTree) (j : Nat) : Option Nat :=
  (t.siblingList j).bind (fun l => prevIn l j)

/-- Modelled from the spec: the next-sibling query of the materialized
`Tree` (§3); `none` for the root of the tree. -/
def next_sibling (t : MTree) (j : Nat) : Option Nat :=
  (t.siblingList j).bind (fun l => nextIn l j)

end MTree

/-- Modelled from the spec: the `Path` returned by the store's `path(id)`
query; always non-empty, its first element is the id of the containing
root (§4.2: "the essential contract is returning the identifier of `id`'s
containing root"). -/
structure Path where
  first : Nat
  rest : List Nat
deriving Repr, DecidableEq

/-- Modelled from the spec: the `MsgStore` trait (§4.2 "Forest
Abstraction"), one suspending query per method, each returning a result or
a store error.  Message ids are `Nat`. -/
structure MsgStore (ε : Type) where
  path : Nat → Except ε Path
  tree : Nat → Except ε MTree
  prev_root_id : Nat → Except ε (Option Nat)
  next_root_id : Nat → Except ε (Option Nat)
  first_root_id : Except ε (Option Nat)
  last_root_id : Except ε (Option Nat)
  older_msg_id : Nat → Except ε (Option Nat)
  newer_msg_id : Nat → Except ε (Option Nat)
  newest_msg_id : Except ε (Option Nat)
  older_unseen_msg_id : Nat → Except ε (Option Nat)
  newer_unseen_msg_id : Nat → Except ε (Option Nat)
  newest_unseen_msg_id : Except ε (Option Nat)

/-- The `Cursor` enum of `cursor.rs` (lines 9–21), generic over the id
type. -/
inductive Cursor (I : Type) where
  | Bottom
  | Msg (id : I)
  | Editor (coming_from : Option I) (parent : Option I)
  | Pseudo (coming_from : Option I) (parent : Option I)
deriving Repr, DecidableEq

/-- Modelled from the spec: the `Correction` hints resolved against the
rendered geometry (§2 "View-Correction Policy", §6). -/
inductive Correction where
  | MakeCursorVisible
  | MoveCursorToVisibleArea
  | CenterCursor
deriving Repr, DecidableEq

/-- Modelled from the spec: the view state of `InnerTreeViewState` that the
cursor module reads and writes: the backing store, the cursor, the fold
set, the scroll offset and the pending correction (§3). -/
structure InnerTreeViewState (ε : Type) where
  store : MsgStore ε
  cursor : Cursor Nat
  folded : List Nat
  scroll : Int
  correction : Option Correction

/-- Result of a fallible operation that works through `&mut` borrows: both
outcomes carry the final state of the borrowed data, because a `?`
early-return in Rust leaves all in-place mutations made so far visible to
the caller. -/
inductive MvResult (ε σ α : Type) where
  | ok (value : α) (state : σ)
  | err (e : ε) (state : σ)
deriving Repr

/-- The state carried by a result, whether or not it is an error. -/
def MvResult.stateOf : MvResult ε σ α → σ
  | .ok _ s => s
  | .err _ s => s

/-- Whether the result is a success. -/
def MvResult.isOk : MvResult ε σ α → Bool
  | .ok _ _ => true
  | .err _ _ => false

namespace TreeView

/-- `find_parent` (cursor.rs 59–66): move `id` to its parent, reporting
whether it moved. -/
def find_parent (tree : MTree) (id : Nat) : Bool × Nat :=
  match tree.parentOf id with
  | some parent => (true, parent)
  | none => (false, id)

/-- `find_first_child` (cursor.rs 68–79): move `id` to its first child
unless `id` is folded, reporting whether it moved. -/
def find_first_child (folded : List Nat) (tree : MTree) (id : Nat) :
    Bool × Nat :=
  if id ∈ folded then (false, id)
  else
    match (tree.childrenIds id).bind List.head? with
    | some child => (true, child)
    | none => (false, id)

/-- `find_last_child` (cursor.rs 81–92): move `id` to its last child unless
`id` is folded, reporting whether it moved. -/
def find_last_child (folded : List Nat) (tree : MTree) (id : Nat) :
    Bool × Nat :=
  if id ∈ folded then (false, id)
  else
    match (tree.childrenIds id).bind List.getLast? with
    | some child => (true, child)
    | none => (false, id)

/-- `find_prev_sibling` (cursor.rs 97–119): move to the previous sibling,
crossing to the root of the previous root tree when at a root; `tree` and
`id` are `&mut` borrows, so every outcome carries their final values. -/
def find_prev_sibling (store : MsgStore ε) (tree : MTree) (id : Nat) :
    MvResult ε (MTree × Nat) Bool :=
  match tree.prev_sibling id with
  | some ps => .ok true (tree, ps)
  | none =>
    if (tree.parentOf id).isNone then
      match store.prev_root_id tree.rootId with
      | .error e => .err e (tree, id)
      | .ok none => .ok false (tree, id)
      | .ok (some prev_root) =>
        match store.tree prev_root with
        | .error e => .err e (tree, id)
        | .ok t => .ok true (t, prev_root)
    else .ok false (tree, id)

/-- `find_next_sibling` (cursor.rs 124–146): move to the next sibling,
crossing to the root of the next root tree when at a root. -/
def find_next_sibling (store : MsgStore ε) (tree : MTree) (id : Nat) :
    MvResult ε (MTree × Nat) Bool :=
  match tree.next_sibling id with
  | some ns => .ok true (tree, ns)
  | none =>
    if (tree.parentOf id).isNone then
      match store.next_root_id tree.rootId with
      | .error e => .err e (tree, id)
      | .ok none => .ok false (tree, id)
      | .ok (some next_root) =>
        match store.tree next_root with
        | .error e => .err e (tree, id)
        | .ok t => .ok true (t, next_root)
    else .ok false (tree, id)

/-- The `while Self::find_last_child(..) {}` loop (cursor.rs 158, 200, 216,
242), with explicit fuel; the loop in the source is bounded by the depth of
the finite tree, so callers pass the tree's size as fuel. -/
def last_child_loop (folded : List Nat) (tree : MTree) :
    Nat → Nat → Nat
  | 0, id => id
  | fuel + 1, id =>
    match find_last_child folded tree id with
    | (true, id1) => last_child_loop folded tree fuel id1
    | (false, _) => id

/-- `find_prev_msg` (cursor.rs 149–164): previous sibling followed by its
deepest last unfolded descendant, else parent. -/
def find_prev_msg (store : MsgStore ε) (folded : List Nat) (tree : MTree)
    (id : Nat) : MvResult ε (MTree × Nat) Bool :=
  match find_prev_sibling store tree id with
  | .err e st => .err e st
  | .ok true (tree1, id1) =>
    .ok true (tree1, last_child_loop folded tree1 tree1.size id1)
  | .ok false (tree1, id1) =>
    match find_parent tree1 id1 with
    | (moved, id2) => .ok moved (tree1, id2)

/-- The `while Self::find_parent(..)` loop of `find_next_msg`
(cursor.rs 184–189), with explicit fuel: walk the ancestors of `tmp`
looking for one with a next sibling; `id` is only written on success. -/
def next_msg_loop (store : MsgStore ε) :
    Nat → MTree → Nat → Nat → MvResult ε (MTree × Nat) Bool
  | 0, tree, id, _ => .ok false (tree, id)
  | fuel + 1, tree, id, tmp =>
    match find_parent tree tmp with
    | (false, _) => .ok false (tree, id)
    | (true, tmp1) =>
      match find_next_sibling store tree tmp1 with
      | .err e (tree1, _) => .err e (tree1, id)
      | .ok true (tree1, tmp2) => .ok true (tree1, tmp2)
      | .ok false (tree1, tmp2) => next_msg_loop store fuel tree1 id tmp2

/-- `find_next_msg` (cursor.rs 167–192): first unfolded child, else next
sibling, else the next sibling of the nearest ancestor that has one. -/
def find_next_msg (store : MsgStore ε) (folded : List Nat) (tree : MTree)
    (id : Nat) : MvResult ε (MTree × Nat) Bool :=
  match find_first_child folded tree id with
  | (true, id1) => .ok true (tree, id1)
  | (false, _) =>
    match find_next_sibling store tree id with
    | .err e st => .err e st
    | .ok true st => .ok true st
    | .ok false (tree1, id1) => next_msg_loop store tree1.size tree1 id1 id1

/-- `move_cursor_up` (cursor.rs 194–222). -/
def move_cursor_up (s : InnerTreeViewState ε) :
    MvResult ε (InnerTreeViewState ε) Unit :=
  match s.cursor with
  | .Bottom | .Pseudo _ none =>
    match s.store.last_root_id with
    | .error e => .err e s
    | .ok none =>
      .ok () { s with correction := some .MakeCursorVisible }
    | .ok (some last_root) =>
      match s.store.tree last_root with
      | .error e => .err e s
      | .ok tree =>
        let id := last_child_loop s.folded tree tree.size last_root
        .ok () { s with cursor := .Msg id,
                        correction := some .MakeCursorVisible }
  | .Msg msg =>
    match s.store.path msg with
    | .error e => .err e s
    | .ok p =>
      match s.store.tree p.first with
      | .error e => .err e s
      | .ok tree =>
        match find_prev_msg s.store s.folded tree msg with
        | .err e (_, id1) => .err e { s with cursor := .Msg id1 }
        | .ok _ (_, id1) =>
          .ok () { s with cursor := .Msg id1,
                          correction := some .MakeCursorVisible }
  | .Editor _ _ =>
    .ok () { s with correction := some .MakeCursorVisible }
  | .Pseudo _ (some parent) =>
    match s.store.tree parent with
    | .error e => .err e s
    | .ok tree =>
      let id := last_child_loop s.folded tree tree.size parent
      .ok () { s with cursor := .Msg id,
                      correction := some .MakeCursorVisible }

/-- `move_cursor_down` (cursor.rs 224–254). -/
def move_cursor_down (s : InnerTreeViewState ε) :
    MvResult ε (InnerTreeViewState ε) Unit :=
  match s.cursor with
  | .Msg msg =>
    match s.store.path msg with
    | .error e => .err e s
    | .ok p =>
      match s.store.tree p.first with
      | .error e => .err e s
      | .ok tree =>
        match find_next_msg s.store s.folded tree msg with
        | .err e (_, id1) => .err e { s with cursor := .Msg id1 }
        | .ok true (_, id1) =>
          .ok () { s with cursor := .Msg id1,
                          correction := some .MakeCursorVisible }
        | .ok false _ =>
          .ok () { s with cursor := .Bottom,
                          correction := some .MakeCursorVisible }
  | .Pseudo _ none =>
    .ok () { s with cursor := .Bottom,
                    correction := some .MakeCursorVisible }
  | .Pseudo _ (some parent) =>
    match s.store.tree parent with
    | .error e => .err e s
    | .ok tree =>
      let id := last_child_loop s.folded tree tree.size parent
      match find_next_msg s.store s.folded tree id with
      | .err e _ => .err e s
      | .ok true (_, id1) =>
        .ok () { s with cursor := .Msg id1,
                        correction := some .MakeCursorVisible }
      | .ok false _ =>
        .ok () { s with cursor := .Bottom,
                        correction := some .MakeCursorVisible }
  | .Bottom | .Editor _ _ =>
    .ok () { s with correction := some .MakeCursorVisible }

/-- `move_cursor_up_sibling` (cursor.rs 256–284). -/
def move_cursor_up_sibling (s : InnerTreeViewState ε) :
    MvResult ε (InnerTreeViewState ε) Unit :=
  match s.cursor with
  | .Bottom | .Pseudo _ none =>
    match s.store.last_root_id with
    | .error e => .err e s
    | .ok none =>
      .ok () { s with correction := some .MakeCursorVisible }
    | .ok (some last_root) =>
      .ok () { s with cursor := .Msg last_root,
                      correction := some .MakeCursorVisible }
  | .Msg msg =>
    match s.store.path msg with
    | .error e => .err e s
    | .ok p =>
      match s.store.tree p.first with
      | .error e => .err e s
      | .ok tree =>
        match find_prev_sibling s.store tree msg with
        | .err e (_, id1) => .err e { s with cursor := .Msg id1 }
        | .ok _ (_, id1) =>
          .ok () { s with cursor := .Msg id1,
                          correction := some .MakeCursorVisible }
  | .Editor _ _ =>
    .ok () { s with correction := some .MakeCursorVisible }
  | .Pseudo _ (some parent) =>
    match s.store.path parent with
    | .error e => .err e s
    | .ok p =>
      match s.store.tree p.first with
      | .error e => .err e s
      | .ok tree =>
        match tree.childrenIds parent with
        | some children =>
          match children.getLast? with
          | some last_child =>
            .ok () { s with cursor := .Msg last_child,
                            correction := some .MakeCursorVisible }
          | none =>
            .ok () { s with correction := some .MakeCursorVisible }
        | none =>
          .ok () { s with correction := some .MakeCursorVisible }

/-- `move_cursor_down_sibling` (cursor.rs 286–304). -/
def move_cursor_down_sibling (s : InnerTreeViewState ε) :
    MvResult ε (InnerTreeViewState ε) Unit :=
  match s.cursor with
  | .Msg msg =>
    match s.store.path msg with
    | .error e => .err e s
    | .ok p =>
      match s.store.tree p.first with
      | .error e => .err e s
      | .ok tree =>
        match find_next_sibling s.store tree msg with
        | .err e (_, id1) => .err e { s with cursor := .Msg id1 }
        | .ok moved (tree1, id1) =>
          if !moved && (tree1.parentOf msg).isNone then
            .ok () { s with cursor := .Bottom,
                            correction := some .MakeCursorVisible }
          else
            .ok () { s with cursor := .Msg id1,
                            correction := some .MakeCursorVisible }
  | .Pseudo _ none =>
    .ok () { s with cursor := .Bottom,
                    correction := some .MakeCursorVisible }
  | .Bottom | .Editor _ _ | .Pseudo _ (some _) =>
    .ok () { s with correction := some .MakeCursorVisible }

/-- `move_cursor_to_parent` (cursor.rs 306–322). -/
def move_cursor_to_parent (s : InnerTreeViewState ε) :
    MvResult ε (InnerTreeViewState ε) Unit :=
  match s.cursor with
  | .Pseudo _ (some parent) =>
    .ok () { s with cursor := .Msg parent,
                    correction := some .MakeCursorVisible }
  | .Msg id =>
    match s.store.tree id with
    | .error e => .err e s
    | .ok tree =>
      let (_, id1) := find_parent tree id
      .ok () { s with cursor := .Msg id1,
                      correction := some .MakeCursorVisible }
  | .Bottom | .Editor _ _ | .Pseudo _ none =>
    .ok () { s with correction := some .MakeCursorVisible }

/-- `move_cursor_to_root` (cursor.rs 324–341). -/
def move_cursor_to_root (s : InnerTreeViewState ε) :
    MvResult ε (InnerTreeViewState ε) Unit :=
  match s.cursor with
  | .Pseudo _ (some parent) =>
    match s.store.path parent with
    | .error e => .err e s
    | .ok p =>
      .ok () { s with cursor := .Msg p.first,
                      correction := some .MakeCursorVisible }
  | .Msg msg =>
    match s.store.path msg with
    | .error e => .err e s
    | .ok p =>
      .ok () { s with cursor := .Msg p.first,
                      correction := some .MakeCursorVisible }
  | .Bottom | .Editor _ _ | .Pseudo _ none =>
    .ok () { s with correction := some .MakeCursorVisible }

/-- `move_cursor_older` (cursor.rs 343–359). -/
def move_cursor_older (s : InnerTreeViewState ε) :
    MvResult ε (InnerTreeViewState ε) Unit :=
  match s.cursor with
  | .Msg id =>
    match s.store.older_msg_id id with
    | .error e => .err e s
    | .ok (some prev_id) =>
      .ok () { s with cursor := .Msg prev_id,
                      correction := some .MakeCursorVisible }
    | .ok none =>
      .ok () { s with correction := some .MakeCursorVisible }
  | .Bottom | .Pseudo _ _ =>
    match s.store.newest_msg_id with
    | .error e => .err e s
    | .ok (some id) =>
      .ok () { s with cursor := .Msg id,
                      correction := some .MakeCursorVisible }
    | .ok none =>
      .ok () { s with correction := some .MakeCursorVisible }
  | .Editor _ _ =>
    .ok () { s with correction := some .MakeCursorVisible }

/-- `move_cursor_newer` (cursor.rs 361–377). -/
def move_cursor_newer (s : InnerTreeViewState ε) :
    MvResult ε (InnerTreeViewState ε) Unit :=
  match s.cursor with
  | .Msg id =>
    match s.store.newer_msg_id id with
    | .error e => .err e s
    | .ok (some next_id) =>
      .ok () { s with cursor := .Msg next_id,
                      correction := some .MakeCursorVisible }
    | .ok none =>
      .ok () { s with cursor := .Bottom,
                      correction := some .MakeCursorVisible }
  | .Pseudo _ _ =>
    .ok () { s with cursor := .Bottom,
                    correction := some .MakeCursorVisible }
  | .Bottom | .Editor _ _ =>
    .ok () { s with correction := some .MakeCursorVisible }

/-- `move_cursor_older_unseen` (cursor.rs 379–395). -/
def move_cursor_older_unseen (s : InnerTreeViewState ε) :
    MvResult ε (InnerTreeViewState ε) Unit :=
  match s.cursor with
  | .Msg id =>
    match s.store.older_unseen_msg_id id with
    | .error e => .err e s
    | .ok (some prev_id) =>
      .ok () { s with cursor := .Msg prev_id,
                      correction := some .MakeCursorVisible }
    | .ok none =>
      .ok () { s with correction := some .MakeCursorVisible }
  | .Bottom | .Pseudo _ _ =>
    match s.store.newest_unseen_msg_id with
    | .error e => .err e s
    | .ok (some id) =>
      .ok () { s with cursor := .Msg id,
                      correction := some .MakeCursorVisible }
    | .ok none =>
      .ok () { s with correction := some .MakeCursorVisible }
  | .Editor _ _ =>
    .ok () { s with correction := some .MakeCursorVisible }

/-- `move_cursor_newer_unseen` (cursor.rs 397–413). -/
def move_cursor_newer_unseen (s : InnerTreeViewState ε) :
    MvResult ε (InnerTreeViewState ε) Unit :=
  match s.cursor with
  | .Msg id =>
    match s.store.newer_unseen_msg_id id with
    | .error e => .err e s
    | .ok (some next_id) =>
      .ok () { s with cursor := .Msg next_id,
                      correction := some .MakeCursorVisible }
    | .ok none =>
      .ok () { s with cursor := .Bottom,
                      correction := some .MakeCursorVisible }
  | .Pseudo _ _ =>
    .ok () { s with cursor := .Bottom,
                    correction := some .MakeCursorVisible }
  | .Bottom | .Editor _ _ =>
    .ok () { s with correction := some .MakeCursorVisible }

/-- `move_cursor_to_top` (cursor.rs 415–421): note that neither the cursor
nor the correction is written when the store has no first root. -/
def move_cursor_to_top (s : InnerTreeViewState ε) :
    MvResult ε (InnerTreeViewState ε) Unit :=
  match s.store.first_root_id with
  | .error e => .err e s
  | .ok (some first_root) =>
    .ok () { s with cursor := .Msg first_root,
                    correction := some .MakeCursorVisible }
  | .ok none => .ok () s

/-- `move_cursor_to_bottom` (cursor.rs 423–427): infallible. -/
def move_cursor_to_bottom (s : InnerTreeViewState ε) :
    InnerTreeViewState ε :=
  { s with cursor := .Bottom, correction := some .MakeCursorVisible }

/-- `scroll_up` (cursor.rs 429–432). -/
def scroll_up (s : InnerTreeViewState ε) (amount : Int) :
    InnerTreeViewState ε :=
  { s with scroll := s.scroll + amount,
           correction := some .MoveCursorToVisibleArea }

/-- `scroll_down` (cursor.rs 434–437). -/
def scroll_down (s : InnerTreeViewState ε) (amount : Int) :
    InnerTreeViewState ε :=
  { s with scroll := s.scroll - amount,
           correction := some .MoveCursorToVisibleArea }

/-- `center_cursor` (cursor.rs 439–441). -/
def center_cursor (s : InnerTreeViewState ε) : InnerTreeViewState ε :=
  { s with correction := some .CenterCursor }

/-- `parent_for_normal_reply` (cursor.rs 445–472); reads `&self` only. -/
def parent_for_normal_reply (s : InnerTreeViewState ε) :
    Except ε (Option (Option Nat)) :=
  match s.cursor with
  | .Bottom => .ok (some none)
  | .Msg id =>
    match s.store.path id with
    | .error e => .error e
    | .ok p =>
      match s.store.tree p.first with
      | .error e => .error e
      | .ok tree =>
        if (tree.next_sibling id).isSome then
          .ok (some (some id))
        else
          match tree.parentOf id with
          | some parent => .ok (some (some parent))
          | none => .ok (some (some id))
  | .Editor _ _ | .Pseudo _ _ => .ok none

/-- `parent_for_alternate_reply` (cursor.rs 476–497); reads `&self`
only. -/
def parent_for_alternate_reply (s : InnerTreeViewState ε) :
    Except ε (Option (Option Nat)) :=
  match s.cursor with
  | .Bottom => .ok (some none)
  | .Msg id =>
    match s.store.path id with
    | .error e => .error e
    | .ok p =>
      match s.store.tree p.first with
      | .error e => .error e
      | .ok tree =>
        if (tree.next_sibling id).isNone then
          .ok (some (some id))
        else
          match tree.parentOf id with
          | some parent => .ok (some (some parent))
          | none => .ok (some (some id))
  | .Editor _ _ | .Pseudo _ _ => .ok none

end TreeView

/-- Modelled from the spec: a concrete forest (§3): the ordered root
sequence of root trees, the chronological order of all messages (oldest
first), and the subset of message ids not yet seen. -/
structure Forest where
  trees : List MTree
  timeline : List Nat
  unseen : List Nat

namespace Forest

/-- The root sequence, as ids. -/
def rootIds (f : Forest) : List Nat := f.trees.map MTree.rootId

/-- All message ids of the forest, tree by tree in pre-order. -/
def msgIds (f : Forest) : List Nat := MTree.idsList f.trees

/-- The root tree containing a given id, if any. -/
def findTree (f : Forest) (i : Nat) : Option MTree :=
  f.trees.find? (fun t => t.ids.contains i)

/-- The chronological subsequence of unseen messages. -/
def unseenTimeline (f : Forest) : List Nat :=
  f.timeline.filter (fun i => f.unseen.contains i)

/-- Forest well-formedness: every message id occurs exactly once in the
whole forest (the single-parent forest invariant of §3). -/
def WF (f : Forest) : Prop := f.msgIds.Nodup

instance : DecidablePred WF := fun f => by
  unfold WF; infer_instance

/-- Modelled from the spec: the store backed by a concrete forest, every
query answered per §4.2, unknown ids failing with a not-found error. -/
def storeOf (f : Forest) : MsgStore Unit where
  path i :=
    match f.findTree i with
    | some t =>
      match t.pathTo i with
      | some (r :: rest) => .ok ⟨r, rest⟩
      | _ => .error ()
    | none => .error ()
  tree i :=
    match f.findTree i with
    | some t => .ok t
    | none => .error ()
  prev_root_id r := .ok (prevIn f.rootIds r)
  next_root_id r := .ok (nextIn f.rootIds r)
  first_root_id := .ok f.rootIds.head?
  last_root_id := .ok f.rootIds.getLast?
  older_msg_id i := .ok (prevIn f.timeline i)
  newer_msg_id i := .ok (nextIn f.timeline i)
  newest_msg_id := .ok f.timeline.getLast?
  older_unseen_msg_id i := .ok (prevIn f.unseenTimeline i)
  newer_unseen_msg_id i := .ok (nextIn f.unseenTimeline i)
  newest_unseen_msg_id := .ok f.unseenTimeline.getLast?

end Forest

/-- A store on which every query fails, exercising the error paths. -/
def failStore : MsgStore Unit where
  path _ := .error ()
  tree _ := .error ()
  prev_root_id _ := .error ()
  next_root_id _ := .error ()
  first_root_id := .error ()
  last_root_id := .error ()
  older_msg_id _ := .error ()
  newer_msg_id _ := .error ()
  newest_msg_id := .error ()
  older_unseen_msg_id _ := .error ()
  newer_unseen_msg_id _ := .error ()
  newest_unseen_msg_id := .error ()

/-- A view state over a given store with no pending correction and scroll
offset zero. -/
def mkState (store : MsgStore ε) (cursor : Cursor Nat)
    (folded : List Nat) : InnerTreeViewState ε :=
  ⟨store, cursor, folded, 0, none⟩

/-- Whether a cursor is an `Editor` variant. -/
def Cursor.isEditor : Cursor I → Bool
  | .Editor _ _ => true
  | _ => false

namespace MTree

mutual
/-- The deepest last unfolded descendant of a subtree: follow last
children, stopping at a folded node or a leaf.  This is the value the
`while find_last_child` loops of `cursor.rs` compute. -/
def descLast (folded : List Nat) : MTree → Nat
  | .node i cs => if i ∈ folded then i else descLastAux folded i cs
/-- Helper of `descLast`: descend into the last tree of the list, or stay
at `i` when there is none. -/
def descLastAux (folded : List Nat) (i : Nat) : List MTree → Nat
  | [] => i
  | [c] => descLast folded c
  | _ :: c :: cs => descLastAux folded i (c :: cs)
end

/-- The strict ancestors of `j` in a tree: parent first, root last. -/
def ancChain (t : MTree) (j : Nat) : List Nat :=
  ((t.pathTo j).getD []).dropLast.reverse

/-- The depth of `j` in a tree (roots at depth 0): the number of strict
ancestors. -/
def depthIn (t : MTree) (j : Nat) : Nat := (t.ancChain j).length

end MTree

namespace Forest

/-- The depth of a message in the forest, if it exists. -/
def depthOf (f : Forest) (j : Nat) : Option Nat :=
  (f.findTree j).map (fun t => t.depthIn j)

/-- The depth of a cursor position (roots at depth 0): `Bottom` and
top-level virtual cursors sit at the root level, and a virtual cursor
under a parent sits one level below it, like the placeholder leaf it
renders as. -/
def cursorDepth (f : Forest) : Cursor Nat → Option Nat
  | .Bottom => some 0
  | .Msg c => f.depthOf c
  | .Editor _ (some p) => (f.depthOf p).map (· + 1)
  | .Pseudo _ (some p) => (f.depthOf p).map (· + 1)
  | .Editor _ none => some 0
  | .Pseudo _ none => some 0

/-- `d` lies strictly inside the subtree of `x`: it is a member of `x`'s
subtree other than `x` itself. -/
def strictDesc (f : Forest) (x d : Nat) : Prop :=
  ∃ t u, f.findTree x = some t ∧ t.findNode x = some u ∧
    d ∈ u.ids ∧ d ≠ x

/-- The within-tree successor used by the forest pre-order: the next
sibling of `a` in its tree, or — when `a` is the root — the next root of
the root sequence. -/
def nextSibId (f : Forest) (t : MTree) (a : Nat) : Option Nat :=
  match t.next_sibling a with
  | some n => some n
  | none => if a = t.rootId then nextIn f.rootIds a else none

/-- The within-tree predecessor used by the forest pre-order: the previous
sibling of `a` in its tree, or — when `a` is the root — the previous root
of the root sequence. -/
def prevSibId (f : Forest) (t : MTree) (a : Nat) : Option Nat :=
  match t.prev_sibling a with
  | some n => some n
  | none => if a = t.rootId then prevIn f.rootIds a else none

/-- The first unfolded child of `c` in its tree: its first child, unless
`c` is folded or childless. -/
def firstChildV (folded : List Nat) (t : MTree) (c : Nat) : Option Nat :=
  if c ∈ folded then none else (t.childrenIds c).bind List.head?

/-- The pre-order successor of a visible message `c` over the folded
forest, exactly as the specification words it: the first unfolded child
of `c` if one exists, else the next sibling of `c`, else the next sibling
of the nearest unfolded ancestor — where a root with no next sibling
continues at the root of the next root tree — and `none` when no such
position exists anywhere. -/
def specSucc (f : Forest) (folded : List Nat) (t : MTree) (c : Nat) :
    Option Nat :=
  match firstChildV folded t c with
  | some d => some d
  | none =>
    (c :: (t.ancChain c).filter (fun a => ¬ a ∈ folded)).findSome?
      (fun a => f.nextSibId t a)

/-- Like `specSucc` but walking all ancestors, folded or not; for a
visible cursor the two agree. -/
def specSuccRaw (f : Forest) (folded : List Nat) (t : MTree) (c : Nat) :
    Option Nat :=
  match firstChildV folded t c with
  | some d => some d
  | none => (c :: t.ancChain c).findSome? (fun a => f.nextSibId t a)

/-- Visibility of `c` under the fold set: no strict ancestor of `c` is
folded (folding hides only descendants). -/
def visible (folded : List Nat) (t : MTree) (c : Nat) : Prop :=
  ∀ a ∈ t.ancChain c, a ∉ folded

end Forest

namespace TreeView

/-- A cursor stands on a non-(strict-)descendant of `x`: message cursors
must not sit on a strict descendant, virtual cursors must not hang under
one, and `Bottom`, parentless virtual cursors and editors are never on a
message at all. -/
def cursorSafe (f : Forest) (x : Nat) : Cursor Nat → Prop
  | .Msg d => ¬ f.strictDesc x d
  | .Pseudo _ (some p) => ¬ f.strictDesc x p
  | _ => True

/-- Iterated `move_cursor_down`, stopping at the first store error. -/
def iterate_down : Nat → InnerTreeViewState ε →
    MvResult ε (InnerTreeViewState ε) Unit
  | 0, s => .ok () s
  | n + 1, s =>
    match move_cursor_down s with
    | .ok _ s1 => iterate_down n s1
    | .err e s1 => .err e s1

end TreeView

namespace TreeView

/-- `find_prev_sibling` leaves its borrows untouched when it fails with a
store error. -/
theorem find_prev_sibling_err {store : MsgStore ε} {tree : MTree}
    {id : Nat} {e : ε} {st : MTree × Nat}
    (h : find_prev_sibling store tree id = .err e st) :
    st = (tree, id) := by
  unfold find_prev_sibling at h
  split at h
  · exact absurd h (by simp)
  · split at h
    · split at h
      · exact (MvResult.err.injEq .. ▸ h).2.symm
      · exact absurd h (by simp)
      · split at h
        · exact (MvResult.err.injEq .. ▸ h).2.symm
        · exact absurd h (by simp)
    · exact absurd h (by simp)

/-- `find_next_sibling` leaves its borrows untouched when it fails with a
store error. -/
theorem find_next_sibling_err {store : MsgStore ε} {tree : MTree}
    {id : Nat} {e : ε} {st : MTree × Nat}
    (h : find_next_sibling store tree id = .err e st) :
    st = (tree, id) := by
  unfold find_next_sibling at h
  split at h
  · exact absurd h (by simp)
  · split at h
    · split at h
      · exact (MvResult.err.injEq .. ▸ h).2.symm
      · exact absurd h (by simp)
      · split at h
        · exact (MvResult.err.injEq .. ▸ h).2.symm
        · exact absurd h (by simp)
    · exact absurd h (by simp)

/-- `find_next_sibling` leaves its borrows untouched when it reports that
it did not move. -/
theorem find_next_sibling_ok_false {store : MsgStore ε} {tree : MTree}
    {id : Nat} {st : MTree × Nat}
    (h : find_next_sibling store tree id = .ok false st) :
    st = (tree, id) := by
  unfold find_next_sibling at h
  split at h
  · exact absurd h (by simp)
  · split at h
    · split at h
      · exact absurd h (by simp)
      · exact (MvResult.ok.injEq .. ▸ h).2.symm
      · split at h
        · exact absurd h (by simp)
        · exact absurd h (by simp [MvResult.ok.injEq])
    · exact (MvResult.ok.injEq .. ▸ h).2.symm

/-- `find_prev_msg` leaves its borrows untouched when it fails with a store
error. -/
theorem find_prev_msg_err {store : MsgStore ε} {folded : List Nat}
    {tree : MTree} {id : Nat} {e : ε} {st : MTree × Nat}
    (h : find_prev_msg store folded tree id = .err e st) :
    st = (tree, id) := by
  unfold find_prev_msg at h
  split at h
  case _ heq => cases (MvResult.err.injEq .. ▸ h).2
                exact find_prev_sibling_err heq
  · exact absurd h (by simp)
  · split at h; exact absurd h (by simp)

/-- The ancestor-walk loop of `find_next_msg` never touches `id` when it
fails with a store error, and it leaves the tree untouched as well. -/
theorem next_msg_loop_err {store : MsgStore ε} {fuel : Nat} {tree : MTree}
    {id tmp : Nat} {e : ε} {st : MTree × Nat}
    (h : next_msg_loop store fuel tree id tmp = .err e st) :
    st = (tree, id) := by
  induction fuel generalizing tree tmp with
  | zero => exact absurd h (by simp [next_msg_loop])
  | succ fuel ih =>
    unfold next_msg_loop at h
    split at h
    · exact absurd h (by simp)
    · split at h
      case _ heq =>
        obtain ⟨h1, h2⟩ := MvResult.err.injEq .. ▸ h
        obtain ⟨ht, _⟩ := Prod.mk.injEq .. ▸ find_next_sibling_err heq
        simp [← h2, ht]
      · exact absurd h (by simp)
      case _ heq =>
        obtain ⟨ht, _⟩ := Prod.mk.injEq .. ▸ find_next_sibling_ok_false heq
        rw [ih h, ht]

/-- `find_next_msg` leaves its borrows untouched when it fails with a store
error. -/
theorem find_next_msg_err {store : MsgStore ε} {folded : List Nat}
    {tree : MTree} {id : Nat} {e : ε} {st : MTree × Nat}
    (h : find_next_msg store folded tree id = .err e st) :
    st = (tree, id) := by
  unfold find_next_msg at h
  split at h
  · exact absurd h (by simp)
  · split at h
    case _ heq => cases (MvResult.err.injEq .. ▸ h).2
                  exact find_next_sibling_err heq
    · exact absurd h (by simp)
    case _ heq =>
      obtain ⟨ht, hi⟩ := Prod.mk.injEq .. ▸ find_next_sibling_ok_false heq
      rw [next_msg_loop_err h, ht, hi]

/-- A store error inside `move_cursor_up` leaves the whole view state as it
was. -/
theorem move_cursor_up_err {s s' : InnerTreeViewState ε} {e : ε}
    (h : move_cursor_up s = .err e s') : s' = s := by
  obtain ⟨store, cursor, folded, scroll, correction⟩ := s
  rcases cursor with _ | msg | ⟨cf, pa⟩ | ⟨cf, pa⟩ <;>
    [skip; skip; rcases pa with _ | p; rcases pa with _ | p] <;>
    simp only [move_cursor_up] at h <;>
    repeat' split at h
  all_goals cases h
  all_goals try rfl
  all_goals
    (rename_i heq
     obtain ⟨-, hid⟩ := Prod.mk.injEq .. ▸ find_prev_msg_err heq
     rw [hid])

/-- A store error inside `move_cursor_down` leaves the whole view state as
it was. -/
theorem move_cursor_down_err {s s' : InnerTreeViewState ε} {e : ε}
    (h : move_cursor_down s = .err e s') : s' = s := by
  obtain ⟨store, cursor, folded, scroll, correction⟩ := s
  rcases cursor with _ | msg | ⟨cf, pa⟩ | ⟨cf, pa⟩ <;>
    [skip; skip; rcases pa with _ | p; rcases pa with _ | p] <;>
    simp only [move_cursor_down] at h <;>
    repeat' split at h
  all_goals cases h
  all_goals try rfl
  all_goals
    (rename_i heq
     obtain ⟨-, hid⟩ := Prod.mk.injEq .. ▸ find_next_msg_err heq
     rw [hid])

/-- A store error inside `move_cursor_up_sibling` leaves the whole view
state as it was. -/
theorem move_cursor_up_sibling_err {s s' : InnerTreeViewState ε} {e : ε}
    (h : move_cursor_up_sibling s = .err e s') : s' = s := by
  obtain ⟨store, cursor, folded, scroll, correction⟩ := s
  rcases cursor with _ | msg | ⟨cf, pa⟩ | ⟨cf, pa⟩ <;>
    [skip; skip; rcases pa with _ | p; rcases pa with _ | p] <;>
    simp only [move_cursor_up_sibling] at h <;>
    repeat' split at h
  all_goals cases h
  all_goals try rfl
  all_goals
    (rename_i heq
     obtain ⟨-, hid⟩ := Prod.mk.injEq .. ▸ find_prev_sibling_err heq
     rw [hid])

/-- A store error inside `move_cursor_down_sibling` leaves the whole view
state as it was. -/
theorem move_cursor_down_sibling_err {s s' : InnerTreeViewState ε} {e : ε}
    (h : move_cursor_down_sibling s = .err e s') : s' = s := by
  obtain ⟨store, cursor, folded, scroll, correction⟩ := s
  rcases cursor with _ | msg | ⟨cf, pa⟩ | ⟨cf, pa⟩ <;>
    [skip; skip; rcases pa with _ | p; rcases pa with _ | p] <;>
    simp only [move_cursor_down_sibling] at h <;>
    repeat' split at h
  all_goals cases h
  all_goals try rfl
  all_goals
    (rename_i heq
     obtain ⟨-, hid⟩ := Prod.mk.injEq .. ▸ find_next_sibling_err heq
     rw [hid])

/-- A store error inside `move_cursor_to_parent` leaves the whole view
state as it was. -/
theorem move_cursor_to_parent_err {s s' : InnerTreeViewState ε} {e : ε}
    (h : move_cursor_to_parent s = .err e s') : s' = s := by
  obtain ⟨store, cursor, folded, scroll, correction⟩ := s
  rcases cursor with _ | msg | ⟨cf, pa⟩ | ⟨cf, pa⟩ <;>
    [skip; skip; rcases pa with _ | p; rcases pa with _ | p] <;>
    simp only [move_cursor_to_parent] at h <;>
    repeat' split at h
  all_goals cases h
  all_goals rfl

/-- A store error inside `move_cursor_to_root` leaves the whole view state
as it was. -/
theorem move_cursor_to_root_err {s s' : InnerTreeViewState ε} {e : ε}
    (h : move_cursor_to_root s = .err e s') : s' = s := by
  obtain ⟨store, cursor, folded, scroll, correction⟩ := s
  rcases cursor with _ | msg | ⟨cf, pa⟩ | ⟨cf, pa⟩ <;>
    [skip; skip; rcases pa with _ | p; rcases pa with _ | p] <;>
    simp only [move_cursor_to_root] at h <;>
    repeat' split at h
  all_goals cases h
  all_goals rfl

/-- A store error inside `move_cursor_older` leaves the whole view state as
it was. -/
theorem move_cursor_older_err {s s' : InnerTreeViewState ε} {e : ε}
    (h : move_cursor_older s = .err e s') : s' = s := by
  obtain ⟨store, cursor, folded, scroll, correction⟩ := s
  rcases cursor with _ | msg | ⟨cf, pa⟩ | ⟨cf, pa⟩ <;>
    simp only [move_cursor_older] at h <;>
    repeat' split at h
  all_goals cases h
  all_goals rfl

/-- A store error inside `move_cursor_newer` leaves the whole view state as
it was. -/
theorem move_cursor_newer_err {s s' : InnerTreeViewState ε} {e : ε}
    (h : move_cursor_newer s = .err e s') : s' = s := by
  obtain ⟨store, cursor, folded, scroll, correction⟩ := s
  rcases cursor with _ | msg | ⟨cf, pa⟩ | ⟨cf, pa⟩ <;>
    simp only [move_cursor_newer] at h <;>
    repeat' split at h
  all_goals cases h
  all_goals rfl

/-- A store error inside `move_cursor_older_unseen` leaves the whole view
state as it was. -/
theorem move_cursor_older_unseen_err {s s' : InnerTreeViewState ε} {e : ε}
    (h : move_cursor_older_unseen s = .err e s') : s' = s := by
  obtain ⟨store, cursor, folded, scroll, correction⟩ := s
  rcases cursor with _ | msg | ⟨cf, pa⟩ | ⟨cf, pa⟩ <;>
    simp only [move_cursor_older_unseen] at h <;>
    repeat' split at h
  all_goals cases h
  all_goals rfl

/-- A store error inside `move_cursor_newer_unseen` leaves the whole view
state as it was. -/
theorem move_cursor_newer_unseen_err {s s' : InnerTreeViewState ε} {e : ε}
    (h : move_cursor_newer_unseen s = .err e s') : s' = s := by
  obtain ⟨store, cursor, folded, scroll, correction⟩ := s
  rcases cursor with _ | msg | ⟨cf, pa⟩ | ⟨cf, pa⟩ <;>
    simp only [move_cursor_newer_unseen] at h <;>
    repeat' split at h
  all_goals cases h
  all_goals rfl

/-- A store error inside `move_cursor_to_top` leaves the whole view state
as it was. -/
theorem move_cursor_to_top_err {s s' : InnerTreeViewState ε} {e : ε}
    (h : move_cursor_to_top s = .err e s') : s' = s := by
  unfold move_cursor_to_top at h
  repeat' split at h
  all_goals cases h
  all_goals rfl

/-- On success, `move_cursor_up` always sets the MakeCursorVisible
correction. -/
theorem move_cursor_up_ok_correction {s s' : InnerTreeViewState ε}
    {v : Unit} (h : move_cursor_up s = .ok v s') :
    s'.correction = some .MakeCursorVisible := by
  obtain ⟨store, cursor, folded, scroll, correction⟩ := s
  rcases cursor with _ | msg | ⟨cf, pa⟩ | ⟨cf, pa⟩ <;>
    [skip; skip; rcases pa with _ | p; rcases pa with _ | p] <;>
    simp only [move_cursor_up] at h <;>
    repeat' split at h
  all_goals cases h
  all_goals rfl

/-- On success, `move_cursor_down` always sets the MakeCursorVisible
correction. -/
theorem move_cursor_down_ok_correction {s s' : InnerTreeViewState ε}
    {v : Unit} (h : move_cursor_down s = .ok v s') :
    s'.correction = some .MakeCursorVisible := by
  obtain ⟨store, cursor, folded, scroll, correction⟩ := s
  rcases cursor with _ | msg | ⟨cf, pa⟩ | ⟨cf, pa⟩ <;>
    [skip; skip; rcases pa with _ | p; rcases pa with _ | p] <;>
    simp only [move_cursor_down] at h <;>
    repeat' split at h
  all_goals cases h
  all_goals rfl

/-- On success, `move_cursor_up_sibling` always sets the MakeCursorVisible
correction. -/
theorem move_cursor_up_sibling_ok_correction {s s' : InnerTreeViewState ε}
    {v : Unit} (h : move_cursor_up_sibling s = .ok v s') :
    s'.correction = some .MakeCursorVisible := by
  obtain ⟨store, cursor, folded, scroll, correction⟩ := s
  rcases cursor with _ | msg | ⟨cf, pa⟩ | ⟨cf, pa⟩ <;>
    [skip; skip; rcases pa with _ | p; rcases pa with _ | p] <;>
    simp only [move_cursor_up_sibling] at h <;>
    repeat' split at h
  all_goals cases h
  all_goals rfl

/-- On success, `move_cursor_down_sibling` always sets the
MakeCursorVisible correction. -/
theorem move_cursor_down_sibling_ok_correction
    {s s' : InnerTreeViewState ε} {v : Unit}
    (h : move_cursor_down_sibling s = .ok v s') :
    s'.correction = some .MakeCursorVisible := by
  obtain ⟨store, cursor, folded, scroll, correction⟩ := s
  rcases cursor with _ | msg | ⟨cf, pa⟩ | ⟨cf, pa⟩ <;>
    [skip; skip; rcases pa with _ | p; rcases pa with _ | p] <;>
    simp only [move_cursor_down_sibling] at h <;>
    repeat' split at h
  all_goals cases h
  all_goals rfl

/-- On success, `move_cursor_to_parent` always sets the MakeCursorVisible
correction. -/
theorem move_cursor_to_parent_ok_correction {s s' : InnerTreeViewState ε}
    {v : Unit} (h : move_cursor_to_parent s = .ok v s') :
    s'.correction = some .MakeCursorVisible := by
  obtain ⟨store, cursor, folded, scroll, correction⟩ := s
  rcases cursor with _ | msg | ⟨cf, pa⟩ | ⟨cf, pa⟩ <;>
    [skip; skip; rcases pa with _ | p; rcases pa with _ | p] <;>
    simp only [move_cursor_to_parent] at h <;>
    repeat' split at h
  all_goals cases h
  all_goals rfl

/-- On success, `move_cursor_to_root` always sets the MakeCursorVisible
correction. -/
theorem move_cursor_to_root_ok_correction {s s' : InnerTreeViewState ε}
    {v : Unit} (h : move_cursor_to_root s = .ok v s') :
    s'.correction = some .MakeCursorVisible := by
  obtain ⟨store, cursor, folded, scroll, correction⟩ := s
  rcases cursor with _ | msg | ⟨cf, pa⟩ | ⟨cf, pa⟩ <;>
    [skip; skip; rcases pa with _ | p; rcases pa with _ | p] <;>
    simp only [move_cursor_to_root] at h <;>
    repeat' split at h
  all_goals cases h
  all_goals rfl

/-- On success, `move_cursor_older` always sets the MakeCursorVisible
correction. -/
theorem move_cursor_older_ok_correction {s s' : InnerTreeViewState ε}
    {v : Unit} (h : move_cursor_older s = .ok v s') :
    s'.correction = some .MakeCursorVisible := by
  obtain ⟨store, cursor, folded, scroll, correction⟩ := s
  rcases cursor with _ | msg | ⟨cf, pa⟩ | ⟨cf, pa⟩ <;>
    simp only [move_cursor_older] at h <;>
    repeat' split at h
  all_goals cases h
  all_goals rfl

/-- On success, `move_cursor_newer` always sets the MakeCursorVisible
correction. -/
theorem move_cursor_newer_ok_correction {s s' : InnerTreeViewState ε}
    {v : Unit} (h : move_cursor_newer s = .ok v s') :
    s'.correction = some .MakeCursorVisible := by
  obtain ⟨store, cursor, folded, scroll, correction⟩ := s
  rcases cursor with _ | msg | ⟨cf, pa⟩ | ⟨cf, pa⟩ <;>
    simp only [move_cursor_newer] at h <;>
    repeat' split at h
  all_goals cases h
  all_goals rfl

/-- On success, `move_cursor_older_unseen` always sets the
MakeCursorVisible correction. -/
theorem move_cursor_older_unseen_ok_correction
    {s s' : InnerTreeViewState ε} {v : Unit}
    (h : move_cursor_older_unseen s = .ok v s') :
    s'.correction = some .MakeCursorVisible := by
  obtain ⟨store, cursor, folded, scroll, correction⟩ := s
  rcases cursor with _ | msg | ⟨cf, pa⟩ | ⟨cf, pa⟩ <;>
    simp only [move_cursor_older_unseen] at h <;>
    repeat' split at h
  all_goals cases h
  all_goals rfl

/-- On success, `move_cursor_newer_unseen` always sets the
MakeCursorVisible correction. -/
theorem move_cursor_newer_unseen_ok_correction
    {s s' : InnerTreeViewState ε} {v : Unit}
    (h : move_cursor_newer_unseen s = .ok v s') :
    s'.correction = some .MakeCursorVisible := by
  obtain ⟨store, cursor, folded, scroll, correction⟩ := s
  rcases cursor with _ | msg | ⟨cf, pa⟩ | ⟨cf, pa⟩ <;>
    simp only [move_cursor_newer_unseen] at h <;>
    repeat' split at h
  all_goals cases h
  all_goals rfl

/-- C8: whenever a cursor-movement operation (`move_cursor_up`,
`move_cursor_down`, the sibling, parent, root, chronological and unseen
variants, or `move_cursor_to_top`) returns an error because an underlying
store query failed, the cursor, the fold set, the scroll offset and the
correction hint are all exactly as they were before the call — movement
errors never leave a partially-applied cursor mutation. -/
theorem c8_movement_error_leaves_state_unchanged
    (s : InnerTreeViewState ε) :
    (∀ e s', move_cursor_up s = .err e s' →
      s'.cursor = s.cursor ∧ s'.folded = s.folded ∧
      s'.scroll = s.scroll ∧ s'.correction = s.correction) ∧
    (∀ e s', move_cursor_down s = .err e s' →
      s'.cursor = s.cursor ∧ s'.folded = s.folded ∧
      s'.scroll = s.scroll ∧ s'.correction = s.correction) ∧
    (∀ e s', move_cursor_up_sibling s = .err e s' →
      s'.cursor = s.cursor ∧ s'.folded = s.folded ∧
      s'.scroll = s.scroll ∧ s'.correction = s.correction) ∧
    (∀ e s', move_cursor_down_sibling s = .err e s' →
      s'.cursor = s.cursor ∧ s'.folded = s.folded ∧
      s'.scroll = s.scroll ∧ s'.correction = s.correction) ∧
    (∀ e s', move_cursor_to_parent s = .err e s' →
      s'.cursor = s.cursor ∧ s'.folded = s.folded ∧
      s'.scroll = s.scroll ∧ s'.correction = s.correction) ∧
    (∀ e s', move_cursor_to_root s = .err e s' →
      s'.cursor = s.cursor ∧ s'.folded = s.folded ∧
      s'.scroll = s.scroll ∧ s'.correction = s.correction) ∧
    (∀ e s', move_cursor_older s = .err e s' →
      s'.cursor = s.cursor ∧ s'.folded = s.folded ∧
      s'.scroll = s.scroll ∧ s'.correction = s.correction) ∧
    (∀ e s', move_cursor_newer s = .err e s' →
      s'.cursor = s.cursor ∧ s'.folded = s.folded ∧
      s'.scroll = s.scroll ∧ s'.correction = s.correction) ∧
    (∀ e s', move_cursor_older_unseen s = .err e s' →
      s'.cursor = s.cursor ∧ s'.folded = s.folded ∧
      s'.scroll = s.scroll ∧ s'.correction = s.correction) ∧
    (∀ e s', move_cursor_newer_unseen s = .err e s' →
      s'.cursor = s.cursor ∧ s'.folded = s.folded ∧
      s'.scroll = s.scroll ∧ s'.correction = s.correction) ∧
    (∀ e s', move_cursor_to_top s = .err e s' →
      s'.cursor = s.cursor ∧ s'.folded = s.folded ∧
      s'.scroll = s.scroll ∧ s'.correction = s.correction) := by
  refine ⟨?_, ?_, ?_, ?_, ?_, ?_, ?_, ?_, ?_, ?_, ?_⟩ <;>
    intro e s' h
  · cases move_cursor_up_err h; exact ⟨rfl, rfl, rfl, rfl⟩
  · cases move_cursor_down_err h; exact ⟨rfl, rfl, rfl, rfl⟩
  · cases move_cursor_up_sibling_err h; exact ⟨rfl, rfl, rfl, rfl⟩
  · cases move_cursor_down_sibling_err h; exact ⟨rfl, rfl, rfl, rfl⟩
  · cases move_cursor_to_parent_err h; exact ⟨rfl, rfl, rfl, rfl⟩
  · cases move_cursor_to_root_err h; exact ⟨rfl, rfl, rfl, rfl⟩
  · cases move_cursor_older_err h; exact ⟨rfl, rfl, rfl, rfl⟩
  · cases move_cursor_newer_err h; exact ⟨rfl, rfl, rfl, rfl⟩
  · cases move_cursor_older_unseen_err h; exact ⟨rfl, rfl, rfl, rfl⟩
  · cases move_cursor_newer_unseen_err h; exact ⟨rfl, rfl, rfl, rfl⟩
  · cases move_cursor_to_top_err h; exact ⟨rfl, rfl, rfl, rfl⟩

/-- Witness for C8: on a store whose every query fails, `move_cursor_up`
from a message cursor errors out and the state is untouched. -/
theorem c8_movement_error_witness :
    (move_cursor_up (mkState failStore (.Msg 0) [])).stateOf.cursor
        = .Msg 0 ∧
    (move_cursor_up (mkState failStore (.Msg 0) [])).stateOf.correction
        = none := by
  have h := (c8_movement_error_leaves_state_unchanged
      (mkState failStore (.Msg 0) [])).1 ()
      ((move_cursor_up (mkState failStore (.Msg 0) [])).stateOf) rfl
  exact ⟨h.1.trans rfl, h.2.2.2.trans rfl⟩

/-- C9 (amended): every public movement operation that returns
successfully sets the correction hint — `MakeCursorVisible` for the cursor
movements, `MoveCursorToVisibleArea` for `scroll_up`/`scroll_down`,
`CenterCursor` for `center_cursor` — and each write overwrites whatever
correction was pending; the one exception is `move_cursor_to_top` on a
store with no first root, which returns successfully without touching the
correction. -/
theorem c9_every_success_sets_correction (s : InnerTreeViewState ε) :
    (∀ v s', move_cursor_up s = .ok v s' →
      s'.correction = some .MakeCursorVisible) ∧
    (∀ v s', move_cursor_down s = .ok v s' →
      s'.correction = some .MakeCursorVisible) ∧
    (∀ v s', move_cursor_up_sibling s = .ok v s' →
      s'.correction = some .MakeCursorVisible) ∧
    (∀ v s', move_cursor_down_sibling s = .ok v s' →
      s'.correction = some .MakeCursorVisible) ∧
    (∀ v s', move_cursor_to_parent s = .ok v s' →
      s'.correction = some .MakeCursorVisible) ∧
    (∀ v s', move_cursor_to_root s = .ok v s' →
      s'.correction = some .MakeCursorVisible) ∧
    (∀ v s', move_cursor_older s = .ok v s' →
      s'.correction = some .MakeCursorVisible) ∧
    (∀ v s', move_cursor_newer s = .ok v s' →
      s'.correction = some .MakeCursorVisible) ∧
    (∀ v s', move_cursor_older_unseen s = .ok v s' →
      s'.correction = some .MakeCursorVisible) ∧
    (∀ v s', move_cursor_newer_unseen s = .ok v s' →
      s'.correction = some .MakeCursorVisible) ∧
    (∀ v s' r, s.store.first_root_id = .ok (some r) →
      move_cursor_to_top s = .ok v s' →
      s'.correction = some .MakeCursorVisible) ∧
    (s.store.first_root_id = .ok none → move_cursor_to_top s = .ok () s) ∧
    ((move_cursor_to_bottom s).correction = some .MakeCursorVisible) ∧
    (∀ a, (scroll_up s a).correction = some .MoveCursorToVisibleArea) ∧
    (∀ a, (scroll_down s a).correction = some .MoveCursorToVisibleArea) ∧
    ((center_cursor s).correction = some .CenterCursor) := by
  refine ⟨fun v s' h => move_cursor_up_ok_correction h,
    fun v s' h => move_cursor_down_ok_correction h,
    fun v s' h => move_cursor_up_sibling_ok_correction h,
    fun v s' h => move_cursor_down_sibling_ok_correction h,
    fun v s' h => move_cursor_to_parent_ok_correction h,
    fun v s' h => move_cursor_to_root_ok_correction h,
    fun v s' h => move_cursor_older_ok_correction h,
    fun v s' h => move_cursor_newer_ok_correction h,
    fun v s' h => move_cursor_older_unseen_ok_correction h,
    fun v s' h => move_cursor_newer_unseen_ok_correction h,
    ?_, ?_, rfl, fun a => rfl, fun a => rfl, rfl⟩
  · intro v s' r hr h
    unfold move_cursor_to_top at h
    rw [hr] at h
    cases h
    rfl
  · intro hr
    unfold move_cursor_to_top
    rw [hr]

/-- C9 counterexample: on an empty store, `move_cursor_to_top` returns
successfully and sets no correction at all — so not every successful
movement operation sets the correction hint. -/
theorem c9_counterexample :
    move_cursor_to_top (mkState (Forest.storeOf ⟨[], [], []⟩) .Bottom [])
      = .ok () (mkState (Forest.storeOf ⟨[], [], []⟩) .Bottom []) ∧
    (mkState (Forest.storeOf ⟨[], [], []⟩) .Bottom []).correction
      = none := ⟨rfl, rfl⟩

/-- Witness for C9 at a concrete one-message forest: moving the cursor up
from Bottom succeeds and sets the MakeCursorVisible correction. -/
theorem c9_witness :
    ((move_cursor_up (mkState
        (Forest.storeOf ⟨[.node 1 []], [1], []⟩) .Bottom [])).stateOf).correction
      = some .MakeCursorVisible := by
  have h := (c9_every_success_sets_correction
      (mkState (Forest.storeOf ⟨[.node 1 []], [1], []⟩) .Bottom [])).1 ()
      ((move_cursor_up (mkState
        (Forest.storeOf ⟨[.node 1 []], [1], []⟩) .Bottom [])).stateOf) rfl
  exact h

/-- C10 (as stated): with an `Editor` cursor, every movement operation
other than `move_cursor_to_top` and `move_cursor_to_bottom` succeeds and
leaves the cursor (and everything except the correction hint) exactly
unchanged, for every store; only `move_cursor_to_top` (when a first root
exists) and `move_cursor_to_bottom` replace the editor cursor with a
non-editor cursor. -/
theorem c10_editor_cursor_stability (s : InnerTreeViewState ε)
    (cf pa : Option Nat) (hc : s.cursor = .Editor cf pa) :
    (move_cursor_up s
      = .ok () { s with correction := some .MakeCursorVisible }) ∧
    (move_cursor_down s
      = .ok () { s with correction := some .MakeCursorVisible }) ∧
    (move_cursor_up_sibling s
      = .ok () { s with correction := some .MakeCursorVisible }) ∧
    (move_cursor_down_sibling s
      = .ok () { s with correction := some .MakeCursorVisible }) ∧
    (move_cursor_to_parent s
      = .ok () { s with correction := some .MakeCursorVisible }) ∧
    (move_cursor_to_root s
      = .ok () { s with correction := some .MakeCursorVisible }) ∧
    (move_cursor_older s
      = .ok () { s with correction := some .MakeCursorVisible }) ∧
    (move_cursor_newer s
      = .ok () { s with correction := some .MakeCursorVisible }) ∧
    (move_cursor_older_unseen s
      = .ok () { s with correction := some .MakeCursorVisible }) ∧
    (move_cursor_newer_unseen s
      = .ok () { s with correction := some .MakeCursorVisible }) ∧
    (∀ r, s.store.first_root_id = .ok (some r) →
      move_cursor_to_top s
        = .ok () { s with cursor := .Msg r,
                          correction := some .MakeCursorVisible } ∧
      (Cursor.Msg r).isEditor = false) ∧
    ((move_cursor_to_bottom s).cursor = .Bottom ∧
      (Cursor.Bottom : Cursor Nat).isEditor = false) := by
  obtain ⟨store, cursor, folded, scroll, correction⟩ := s
  cases hc
  refine ⟨rfl, rfl, rfl, rfl, rfl, rfl, rfl, rfl, rfl, rfl, ?_,
    rfl, rfl⟩
  intro r hr
  unfold move_cursor_to_top
  rw [hr]
  exact ⟨rfl, rfl⟩

/-- Witness for C10 at a concrete store: from an editor cursor,
`move_cursor_up` and `move_cursor_older` leave the cursor unchanged while
`move_cursor_to_top` jumps to the first root. -/
theorem c10_witness :
    ((move_cursor_up (mkState (Forest.storeOf ⟨[.node 1 []], [1], []⟩)
        (.Editor none (some 1)) [])).stateOf).cursor
      = .Editor none (some 1) ∧
    ((move_cursor_to_top (mkState (Forest.storeOf ⟨[.node 1 []], [1], []⟩)
        (.Editor none (some 1)) [])).stateOf).cursor = .Msg 1 := by
  have h := c10_editor_cursor_stability
      (mkState (Forest.storeOf ⟨[.node 1 []], [1], []⟩)
        (.Editor none (some 1)) []) none (some 1) rfl
  refine ⟨?_, ?_⟩
  · rw [h.1]; try rfl
  · rw [(h.2.2.2.2.2.2.2.2.2.2.1 1 rfl).1]; try rfl

/-- C7: the reply-target heuristics.  From `Msg(c)` (with the store
queries succeeding on the materialized tree `t`), the normal heuristic
picks `c` itself when `c` has a next sibling, else `c`'s parent when it
has one, else `c`; the alternate heuristic makes the opposite choice in
the first two cases and the same choice for a parentless message.  From
`Bottom` both heuristics yield a top-level reply with no parent
(`some none`), and from `Editor`/`Pseudo` cursors there is no reply target
(`none`). -/
theorem c7_reply_target_heuristics (s : InnerTreeViewState ε) (c : Nat)
    (p : Path) (t : MTree) :
    (s.cursor = .Msg c → s.store.path c = .ok p →
      s.store.tree p.first = .ok t →
      parent_for_normal_reply s = .ok (some (some
        (if (t.next_sibling c).isSome then c
         else (t.parentOf c).getD c))) ∧
      parent_for_alternate_reply s = .ok (some (some
        (if (t.next_sibling c).isSome then (t.parentOf c).getD c
         else c)))) ∧
    (s.cursor = .Bottom →
      parent_for_normal_reply s = .ok (some none) ∧
      parent_for_alternate_reply s = .ok (some none)) ∧
    (∀ cf pa, s.cursor = .Editor cf pa ∨ s.cursor = .Pseudo cf pa →
      parent_for_normal_reply s = .ok none ∧
      parent_for_alternate_reply s = .ok none) := by
  refine ⟨fun hc hp ht => ?_, fun hc => ?_, fun cf pa hcp => ?_⟩
  · simp only [parent_for_normal_reply, parent_for_alternate_reply,
      hc, hp, ht]
    constructor
    · cases hns : t.next_sibling c with
      | some n => simp [hns]
      | none =>
        cases hpar : t.parentOf c with
        | some q => simp [hns, hpar]
        | none => simp [hns, hpar]
    · cases hns : t.next_sibling c with
      | some n =>
        cases hpar : t.parentOf c with
        | some q => simp [hns, hpar]
        | none => simp [hns, hpar]
      | none => simp [hns]
  · simp only [parent_for_normal_reply, parent_for_alternate_reply, hc]
    exact ⟨trivial, trivial⟩
  · rcases hcp with hc | hc <;>
      simp only [parent_for_normal_reply, parent_for_alternate_reply, hc] <;>
      exact ⟨trivial, trivial⟩

/-- Witness for C7 on the forest with root 1 and children `[2, 3]`:
replying normally at message 2 (which has next sibling 3) targets 2, the
alternate reply targets the parent 1; at the root 1 both target 1; from
Bottom both produce a parentless reply; from a pseudo cursor there is no
target. -/
theorem c7_witness :
    parent_for_normal_reply
      (mkState (Forest.storeOf ⟨[.node 1 [.node 2 [], .node 3 []]],
        [1, 2, 3], []⟩) (.Msg 2) []) = .ok (some (some 2)) ∧
    parent_for_alternate_reply
      (mkState (Forest.storeOf ⟨[.node 1 [.node 2 [], .node 3 []]],
        [1, 2, 3], []⟩) (.Msg 2) []) = .ok (some (some 1)) := by
  have h := (c7_reply_target_heuristics
      (mkState (Forest.storeOf ⟨[.node 1 [.node 2 [], .node 3 []]],
        [1, 2, 3], []⟩) (.Msg 2) []) 2 ⟨1, [2]⟩
      (.node 1 [.node 2 [], .node 3 []])).1 rfl rfl rfl
  exact ⟨h.1.trans (by rfl), h.2.trans (by rfl)⟩

mutual
theorem pathTo_shape (t : MTree) (j : Nat) (h : j ∈ t.ids) :
    ∃ rest, t.pathTo j = some (t.rootId :: rest) := by
  cases t with
  | node i cs =>
    by_cases hij : i = j
    · exact ⟨[], by simp [MTree.pathTo, hij, MTree.rootId]⟩
    · have hj : j ∈ MTree.idsList cs := by
        have h' := h
        simp only [MTree.ids, List.mem_cons] at h'
        rcases h' with h' | h'
        · exact absurd h'.symm hij
        · exact h'
      obtain ⟨p, hp⟩ := pathToList_some cs j hj
      exact ⟨p, by simp [MTree.pathTo, hij, hp, MTree.rootId]⟩

theorem pathToList_some (ts : List MTree) (j : Nat)
    (h : j ∈ MTree.idsList ts) : ∃ p, MTree.pathToList ts j = some p := by
  cases ts with
  | nil => simp [MTree.idsList] at h
  | cons t ts =>
    simp only [MTree.idsList, List.mem_append] at h
    cases hpt : t.pathTo j with
    | some p => exact ⟨p, by simp [MTree.pathToList, hpt]⟩
    | none =>
      rcases h with h | h
      · obtain ⟨rest, hsh⟩ := pathTo_shape t j h
        rw [hpt] at hsh
        exact absurd hsh (by simp)
      · obtain ⟨p, hp⟩ := pathToList_some ts j h
        exact ⟨p, by simp [MTree.pathToList, hpt, hp]⟩
end

/-- A `findTree` hit gives membership in that tree and in the root
sequence. -/
theorem findTree_mem {f : Forest} {c : Nat} {t : MTree}
    (h : f.findTree c = some t) : c ∈ t.ids ∧ t ∈ f.trees := by
  unfold Forest.findTree at h
  have h1 := List.find?_some h
  have h2 := List.mem_of_find?_eq_some h
  exact ⟨by simpa using h1, h2⟩

/-- Evaluating the concrete store's `tree` query at a hit. -/
theorem storeOf_tree {f : Forest} {c : Nat} {t : MTree}
    (h : f.findTree c = some t) : (f.storeOf).tree c = .ok t := by
  simp [Forest.storeOf, h]

/-- Evaluating the concrete store's `path` query at a hit: the `first`
component of the returned path is the root id of the containing tree. -/
theorem storeOf_path {f : Forest} {c : Nat} {t : MTree}
    (h : f.findTree c = some t) :
    ∃ rest, (f.storeOf).path c = .ok ⟨t.rootId, rest⟩ := by
  obtain ⟨rest, hp⟩ := pathTo_shape t c (findTree_mem h).1
  exact ⟨rest, by simp [Forest.storeOf, h, hp]⟩

/-- C5 (amended): a `Bottom` or `Pseudo` cursor moving "older" resolves to
the globally newest message when the store is non-empty, while an `Editor`
cursor is left unchanged; moving "newer" past the newest message resolves
to `Bottom` from a `Msg` cursor with no newer message and from any
`Pseudo` cursor, while an `Editor` cursor is again left unchanged. -/
theorem c5_chronological_edges (s : InnerTreeViewState ε) (c m : Nat)
    (cf pa : Option Nat) :
    ((s.cursor = .Bottom ∨ s.cursor = .Pseudo cf pa) →
      s.store.newest_msg_id = .ok (some m) →
      move_cursor_older s
        = .ok () { s with cursor := .Msg m,
                          correction := some .MakeCursorVisible }) ∧
    (s.cursor = .Msg c → s.store.newer_msg_id c = .ok none →
      move_cursor_newer s
        = .ok () { s with cursor := .Bottom,
                          correction := some .MakeCursorVisible }) ∧
    (s.cursor = .Pseudo cf pa →
      move_cursor_newer s
        = .ok () { s with cursor := .Bottom,
                          correction := some .MakeCursorVisible }) ∧
    (s.cursor = .Editor cf pa →
      move_cursor_older s
        = .ok () { s with correction := some .MakeCursorVisible } ∧
      move_cursor_newer s
        = .ok () { s with correction := some .MakeCursorVisible }) := by
  refine ⟨fun hc hq => ?_, fun hc hq => ?_, fun hc => ?_, fun hc => ?_⟩
  · rcases hc with hc | hc <;> simp only [move_cursor_older, hc, hq]
  · simp only [move_cursor_newer, hc, hq]
  · simp only [move_cursor_newer, hc]
  · exact ⟨by simp only [move_cursor_older, hc],
      by simp only [move_cursor_newer, hc]⟩

/-- C5 counterexample: with a non-empty store and an `Editor` cursor,
`move_cursor_older` does not resolve to the newest message — the cursor
stays an editor. -/
theorem c5_counterexample :
    (Forest.storeOf ⟨[.node 1 []], [1], []⟩).newest_msg_id
      = .ok (some 1) ∧
    ((move_cursor_older (mkState (Forest.storeOf ⟨[.node 1 []], [1], []⟩)
        (.Editor none none) [])).stateOf).cursor = .Editor none none ∧
    (Cursor.Editor none none : Cursor Nat) ≠ .Msg 1 :=
  ⟨rfl, rfl, by decide⟩

/-- Witness for C5: from `Bottom` over a two-message timeline,
`move_cursor_older` lands on the newest message 2, and from `Msg 2`
(no newer message) `move_cursor_newer` degrades to `Bottom`. -/
theorem c5_witness :
    ((move_cursor_older (mkState
        (Forest.storeOf ⟨[.node 1 [], .node 2 []], [1, 2], []⟩)
        .Bottom [])).stateOf).cursor = .Msg 2 ∧
    ((move_cursor_newer (mkState
        (Forest.storeOf ⟨[.node 1 [], .node 2 []], [1, 2], []⟩)
        (.Msg 2) [])).stateOf).cursor = .Bottom := by
  have h1 := (c5_chronological_edges (mkState
      (Forest.storeOf ⟨[.node 1 [], .node 2 []], [1, 2], []⟩)
      .Bottom []) 0 2 none none).1 (Or.inl rfl) rfl
  have h2 := (c5_chronological_edges (mkState
      (Forest.storeOf ⟨[.node 1 [], .node 2 []], [1, 2], []⟩)
      (.Msg 2) []) 2 0 none none).2.1 rfl rfl
  exact ⟨by rw [h1]; rfl, by rw [h2]; rfl⟩

/-- C4 (amended): a `Pseudo` cursor with known parent `p` resolves with
`move_cursor_to_parent` directly to `Msg(p)` — with no store access at
all — and with `move_cursor_to_root` to the root of `p`'s containing
tree; an `Editor` cursor is left unchanged by both operations; a `Msg(c)`
cursor moves to its immediate parent (a no-op when `c` is a root) or to
the root of `c`'s containing tree. -/
theorem c4_parent_and_root_moves :
    (∀ (s : InnerTreeViewState ε) (cf : Option Nat) (p : Nat),
      s.cursor = .Pseudo cf (some p) →
      move_cursor_to_parent s
        = .ok () { s with cursor := .Msg p,
                          correction := some .MakeCursorVisible }) ∧
    (∀ (f : Forest) (fo : List Nat) (sc : Int) (co : Option Correction)
        (cf : Option Nat) (p : Nat) (t : MTree),
      f.findTree p = some t →
      move_cursor_to_root ⟨f.storeOf, .Pseudo cf (some p), fo, sc, co⟩
        = .ok () ⟨f.storeOf, .Msg t.rootId, fo, sc,
            some .MakeCursorVisible⟩) ∧
    (∀ (f : Forest) (fo : List Nat) (sc : Int) (co : Option Correction)
        (c : Nat) (t : MTree),
      f.findTree c = some t →
      move_cursor_to_parent ⟨f.storeOf, .Msg c, fo, sc, co⟩
        = .ok () ⟨f.storeOf, .Msg ((t.parentOf c).getD c), fo, sc,
            some .MakeCursorVisible⟩) ∧
    (∀ (f : Forest) (fo : List Nat) (sc : Int) (co : Option Correction)
        (c : Nat) (t : MTree),
      f.findTree c = some t →
      move_cursor_to_root ⟨f.storeOf, .Msg c, fo, sc, co⟩
        = .ok () ⟨f.storeOf, .Msg t.rootId, fo, sc,
            some .MakeCursorVisible⟩) ∧
    (∀ (s : InnerTreeViewState ε) (cf pa : Option Nat),
      s.cursor = .Editor cf pa →
      move_cursor_to_parent s
        = .ok () { s with correction := some .MakeCursorVisible } ∧
      move_cursor_to_root s
        = .ok () { s with correction := some .MakeCursorVisible }) := by
  refine ⟨fun s cf p hc => ?_, fun f fo sc co cf p t ht => ?_,
    fun f fo sc co c t ht => ?_, fun f fo sc co c t ht => ?_,
    fun s cf pa hc => ?_⟩
  · simp only [move_cursor_to_parent, hc]
  · obtain ⟨rest, hp⟩ := storeOf_path ht
    simp only [move_cursor_to_root, hp]
  · have htr := storeOf_tree ht
    simp only [move_cursor_to_parent, htr, find_parent]
    cases hpar : t.parentOf c <;> simp [hpar]
  · obtain ⟨rest, hp⟩ := storeOf_path ht
    simp only [move_cursor_to_root, hp]
  · exact ⟨by simp only [move_cursor_to_parent, hc],
      by simp only [move_cursor_to_root, hc]⟩

/-- C4 counterexample: an `Editor` cursor with a known parent is left
unchanged by `move_cursor_to_parent`, not resolved to its parent. -/
theorem c4_counterexample :
    ((move_cursor_to_parent (mkState
        (Forest.storeOf ⟨[.node 1 []], [1], []⟩)
        (.Editor none (some 1)) [])).stateOf).cursor
      = .Editor none (some 1) ∧
    (Cursor.Editor none (some 1) : Cursor Nat) ≠ .Msg 1 :=
  ⟨rfl, by decide⟩

/-- Witness for C4 on the forest `1 → [2 → [4], 3]`: a pseudo cursor under
parent 4 resolves to `Msg 4` and its root resolves to `Msg 1`; the
message cursor at 4 moves to its parent 2 and to its root 1. -/
theorem c4_witness :
    ((move_cursor_to_parent (mkState
        (Forest.storeOf ⟨[.node 1 [.node 2 [.node 4 []], .node 3 []]],
          [1, 2, 4, 3], []⟩) (.Pseudo none (some 4)) [])).stateOf).cursor
      = .Msg 4 ∧
    ((move_cursor_to_root (mkState
        (Forest.storeOf ⟨[.node 1 [.node 2 [.node 4 []], .node 3 []]],
          [1, 2, 4, 3], []⟩) (.Pseudo none (some 4)) [])).stateOf).cursor
      = .Msg 1 ∧
    ((move_cursor_to_parent (mkState
        (Forest.storeOf ⟨[.node 1 [.node 2 [.node 4 []], .node 3 []]],
          [1, 2, 4, 3], []⟩) (.Msg 4) [])).stateOf).cursor = .Msg 2 ∧
    ((move_cursor_to_root (mkState
        (Forest.storeOf ⟨[.node 1 [.node 2 [.node 4 []], .node 3 []]],
          [1, 2, 4, 3], []⟩) (.Msg 4) [])).stateOf).cursor = .Msg 1 := by
  have h1 := (c4_parent_and_root_moves (ε := Unit)).1 (mkState
      (Forest.storeOf ⟨[.node 1 [.node 2 [.node 4 []], .node 3 []]],
        [1, 2, 4, 3], []⟩) (.Pseudo none (some 4)) []) none 4 rfl
  have h2 := (c4_parent_and_root_moves (ε := Unit)).2.1
      ⟨[.node 1 [.node 2 [.node 4 []], .node 3 []]], [1, 2, 4, 3], []⟩
      [] 0 none none 4 (.node 1 [.node 2 [.node 4 []], .node 3 []]) rfl
  have h3 := (c4_parent_and_root_moves (ε := Unit)).2.2.1
      ⟨[.node 1 [.node 2 [.node 4 []], .node 3 []]], [1, 2, 4, 3], []⟩
      [] 0 none 4 (.node 1 [.node 2 [.node 4 []], .node 3 []]) rfl
  have h4 := (c4_parent_and_root_moves (ε := Unit)).2.2.2.1
      ⟨[.node 1 [.node 2 [.node 4 []], .node 3 []]], [1, 2, 4, 3], []⟩
      [] 0 none 4 (.node 1 [.node 2 [.node 4 []], .node 3 []]) rfl
  exact ⟨by rw [h1]; rfl, by simp only [mkState]; rw [h2]; rfl,
    by simp only [mkState]; rw [h3]; rfl,
    by simp only [mkState]; rw [h4]; rfl⟩

/-- Membership from a `nextIn` hit. -/
theorem nextIn_mem {l : List Nat} {j n : Nat} (h : nextIn l j = some n) :
    j ∈ l ∧ n ∈ l := by
  induction l with
  | nil => simp [nextIn] at h
  | cons a rest ih =>
    by_cases haj : a = j
    · subst haj
      simp only [nextIn, if_pos rfl] at h
      cases rest with
      | nil => simp at h
      | cons b rest' =>
        simp only [List.head?] at h
        cases h
        exact ⟨List.mem_cons_self .., List.mem_cons_of_mem _
          (List.mem_cons_self ..)⟩
    · simp only [nextIn, if_neg haj] at h
      obtain ⟨h1, h2⟩ := ih h
      exact ⟨List.mem_cons_of_mem _ h1, List.mem_cons_of_mem _ h2⟩

/-- A successor found in the left part survives appending. -/
theorem nextIn_append_left {l1 : List Nat} (l2 : List Nat) {j x : Nat}
    (h : nextIn l1 j = some x) :
    nextIn (l1 ++ l2) j = some x := by
  induction l1 with
  | nil => simp [nextIn] at h
  | cons a rest ih =>
    by_cases haj : a = j
    · subst haj
      simp only [nextIn, if_pos rfl] at h ⊢
      cases rest with
      | nil => simp at h
      | cons b rest' => simpa using h
    · simp only [nextIn, if_neg haj] at h
      simpa only [List.cons_append, nextIn, if_neg haj] using ih h

/-- Searching for an element absent from the left part skips it. -/
theorem nextIn_append_skip {l1 l2 : List Nat} {j : Nat} (h : j ∉ l1) :
    nextIn (l1 ++ l2) j = nextIn l2 j := by
  induction l1 with
  | nil => simp
  | cons a rest ih =>
    have haj : a ≠ j := fun he => h (he ▸ List.mem_cons_self ..)
    simp only [List.cons_append, nextIn, if_neg haj]
    exact ih (fun hm => h (List.mem_cons_of_mem _ hm))

/-- In a duplicate-free list, the successor relation reverses. -/
theorem nextIn_reverse {l : List Nat} {j n : Nat} (hN : l.Nodup)
    (h : nextIn l j = some n) : nextIn l.reverse n = some j := by
  induction l with
  | nil => simp [nextIn] at h
  | cons a rest ih =>
    by_cases haj : a = j
    · subst haj
      simp only [nextIn, if_pos rfl] at h
      cases rest with
      | nil => simp at h
      | cons b rest' =>
        simp only [List.head?] at h
        cases h
        have hnb : n ∉ rest' := by
          have := hN.of_cons
          exact fun hm => (List.nodup_cons.mp this).1 hm
        rw [List.reverse_cons, List.reverse_cons, List.append_assoc,
          nextIn_append_skip (by simpa using hnb)]
        simp [nextIn]
    · simp only [nextIn, if_neg haj] at h
      rw [List.reverse_cons]
      exact nextIn_append_left [a] (ih hN.of_cons h)

/-- In a duplicate-free list, `nextIn` and `prevIn` are inverse. -/
theorem prevIn_of_nextIn {l : List Nat} {j n : Nat} (hN : l.Nodup)
    (h : nextIn l j = some n) : prevIn l n = some j :=
  nextIn_reverse hN h

/-- In a duplicate-free list, `prevIn` and `nextIn` are inverse. -/
theorem nextIn_of_prevIn {l : List Nat} {j p : Nat} (hN : l.Nodup)
    (h : prevIn l j = some p) : nextIn l p = some j := by
  have := nextIn_reverse (List.nodup_reverse.mpr hN) h
  simpa using this

/-- An element with no successor is the last element. -/
theorem getLast?_of_nextIn_none {l : List Nat} {j : Nat} (hj : j ∈ l)
    (h : nextIn l j = none) : l.getLast? = some j := by
  induction l with
  | nil => cases hj
  | cons a rest ih =>
    by_cases haj : a = j
    · subst haj
      simp only [nextIn, if_pos rfl] at h
      have : rest = [] := List.head?_eq_none_iff.mp h
      subst this
      rfl
    · simp only [nextIn, if_neg haj] at h
      have hjr : j ∈ rest := by
        rcases List.mem_cons.mp hj with he | hm
        · exact absurd he.symm haj
        · exact hm
      have := ih hjr h
      cases rest with
      | nil => cases hjr
      | cons b rest' => simpa [List.getLast?_cons_cons] using this

/-- An element with no predecessor is the head. -/
theorem head?_of_prevIn_none {l : List Nat} {j : Nat} (hj : j ∈ l)
    (h : prevIn l j = none) : l.head? = some j := by
  have := getLast?_of_nextIn_none (l := l.reverse) (by simpa using hj) h
  simpa using this

/-- In a duplicate-free list, the last element has no successor. -/
theorem nextIn_getLast {l : List Nat} {g : Nat} (hN : l.Nodup)
    (h : l.getLast? = some g) : nextIn l g = none := by
  induction l with
  | nil => simp at h
  | cons a rest ih =>
    cases rest with
    | nil =>
      simp at h
      subst h
      simp [nextIn]
    | cons b rest' =>
      rw [List.getLast?_cons_cons] at h
      have hg : g ∈ b :: rest' := by
        have := List.mem_of_getLast?_eq_some h
        exact this
      have hag : a ≠ g := fun he =>
        (List.nodup_cons.mp hN).1 (he ▸ hg)
      simp only [nextIn, if_neg hag]
      exact ih hN.of_cons h

/-- In a duplicate-free list, the head has no predecessor. -/
theorem prevIn_head {l : List Nat} {h0 : Nat} (hN : l.Nodup)
    (h : l.head? = some h0) : prevIn l h0 = none := by
  have : l.reverse.getLast? = some h0 := by simpa using h
  exact nextIn_getLast (List.nodup_reverse.mpr hN) this

/-- The root id occurs in the id list. -/
theorem rootId_mem (t : MTree) : t.rootId ∈ t.ids := by
  cases t with
  | node i cs => simp [MTree.rootId, MTree.ids]

mutual
/-- A path is non-empty and ends at its target, which occurs in the
tree. -/
theorem pathTo_mem {t : MTree} {j : Nat} {l : List Nat}
    (h : t.pathTo j = some l) :
    j ∈ t.ids ∧ l ≠ [] ∧ l.getLast? = some j := by
  cases t with
  | node i cs =>
    by_cases hij : i = j
    · rw [MTree.pathTo, if_pos hij] at h
      cases h
      exact ⟨by simp [MTree.ids, hij], by simp, by simp [hij]⟩
    · rw [MTree.pathTo, if_neg hij] at h
      cases hpl : MTree.pathToList cs j with
      | none => rw [hpl] at h; cases h
      | some p =>
        rw [hpl] at h
        cases h
        obtain ⟨hm, hne, hlast⟩ := pathToList_mem hpl
        refine ⟨by simp [MTree.ids, hm], by simp, ?_⟩
        cases p with
        | nil => exact absurd rfl hne
        | cons b p' => simpa [List.getLast?_cons_cons] using hlast

/-- List version of `pathTo_mem`. -/
theorem pathToList_mem {ts : List MTree} {j : Nat} {l : List Nat}
    (h : MTree.pathToList ts j = some l) :
    j ∈ MTree.idsList ts ∧ l ≠ [] ∧ l.getLast? = some j := by
  cases ts with
  | nil => cases h
  | cons t ts =>
    rw [MTree.pathToList] at h
    cases hpt : t.pathTo j with
    | some p =>
      rw [hpt] at h
      cases h
      obtain ⟨hm, hne, hlast⟩ := pathTo_mem hpt
      exact ⟨by simp [MTree.idsList, hm], hne, hlast⟩
    | none =>
      rw [hpt] at h
      obtain ⟨hm, hne, hlast⟩ := pathToList_mem h
      exact ⟨by simp [MTree.idsList, Or.inr hm], hne, hlast⟩
end

mutual
/-- A path is a sublist of the pre-order id list. -/
theorem pathTo_sublist {t : MTree} {j : Nat} {l : List Nat}
    (h : t.pathTo j = some l) : l.Sublist t.ids := by
  cases t with
  | node i cs =>
    by_cases hij : i = j
    · rw [MTree.pathTo, if_pos hij] at h
      cases h
      rw [MTree.ids]
      exact (List.nil_sublist _).cons₂ i
    · rw [MTree.pathTo, if_neg hij] at h
      cases hpl : MTree.pathToList cs j with
      | none => rw [hpl] at h; cases h
      | some p =>
        rw [hpl] at h
        cases h
        rw [MTree.ids]
        exact (pathToList_sublist hpl).cons₂ i

/-- List version of `pathTo_sublist`. -/
theorem pathToList_sublist {ts : List MTree} {j : Nat} {l : List Nat}
    (h : MTree.pathToList ts j = some l) :
    l.Sublist (MTree.idsList ts) := by
  cases ts with
  | nil => cases h
  | cons t ts =>
    rw [MTree.pathToList] at h
    cases hpt : t.pathTo j with
    | some p =>
      rw [hpt] at h
      cases h
      rw [MTree.idsList]
      exact (pathTo_sublist hpt).trans (List.sublist_append_left _ _)
    | none =>
      rw [hpt] at h
      rw [MTree.idsList]
      exact (pathToList_sublist h).trans (List.sublist_append_right _ _)
end

/-- Ids outside the tree have no path. -/
theorem pathTo_none {t : MTree} {j : Nat} (h : j ∉ t.ids) :
    t.pathTo j = none := by
  cases hp : t.pathTo j with
  | none => rfl
  | some l => exact absurd (pathTo_mem hp).1 h

/-- Looking up the root finds the whole tree. -/
theorem findNode_self (t : MTree) : t.findNode t.rootId = some t := by
  cases t with
  | node i cs => simp [MTree.findNode, MTree.rootId]

mutual
/-- A found subtree is rooted at the id that was looked up. -/
theorem findNode_rootId {t u : MTree} {j : Nat}
    (h : t.findNode j = some u) : u.rootId = j := by
  cases t with
  | node i cs =>
    by_cases hij : i = j
    · rw [MTree.findNode, if_pos hij] at h
      cases h
      exact hij
    · rw [MTree.findNode, if_neg hij] at h
      exact findNodeList_rootId h

/-- List version of `findNode_rootId`. -/
theorem findNodeList_rootId {ts : List MTree} {u : MTree} {j : Nat}
    (h : MTree.findNodeList ts j = some u) : u.rootId = j := by
  cases ts with
  | nil => cases h
  | cons t ts =>
    rw [MTree.findNodeList] at h
    cases hft : t.findNode j with
    | some w => rw [hft] at h; cases h; exact findNode_rootId hft
    | none => rw [hft] at h; exact findNodeList_rootId h
end

mutual
/-- Every id of the tree has a subtree. -/
theorem findNode_isSome {t : MTree} {j : Nat} (h : j ∈ t.ids) :
    (t.findNode j).isSome := by
  cases t with
  | node i cs =>
    by_cases hij : i = j
    · rw [MTree.findNode, if_pos hij]
      rfl
    · rw [MTree.findNode, if_neg hij]
      have hj : j ∈ MTree.idsList cs := by
        rw [MTree.ids] at h
        exact (List.mem_cons.mp h).resolve_left (fun he => hij he.symm)
      exact findNodeList_isSome hj

/-- List version of `findNode_isSome`. -/
theorem findNodeList_isSome {ts : List MTree} {j : Nat}
    (h : j ∈ MTree.idsList ts) : (MTree.findNodeList ts j).isSome := by
  cases ts with
  | nil => cases h
  | cons t ts =>
    rw [MTree.findNodeList]
    cases hft : t.findNode j with
    | some w => rfl
    | none =>
      rw [MTree.idsList, List.mem_append] at h
      rcases h with h | h
      · have := findNode_isSome h
        rw [hft] at this
        cases this
      · exact findNodeList_isSome h
end

mutual
/-- The ids of a found subtree form an infix of the ambient id list. -/
theorem findNode_infix_ids {t u : MTree} {j : Nat}
    (h : t.findNode j = some u) : u.ids.IsInfix t.ids := by
  cases t with
  | node i cs =>
    by_cases hij : i = j
    · rw [MTree.findNode, if_pos hij] at h
      cases h
      exact List.infix_refl _
    · rw [MTree.findNode, if_neg hij] at h
      rw [MTree.ids]
      exact List.infix_cons (findNodeList_infix_ids h)

/-- List version of `findNode_infix_ids`. -/
theorem findNodeList_infix_ids {ts : List MTree} {u : MTree} {j : Nat}
    (h : MTree.findNodeList ts j = some u) :
    u.ids.IsInfix (MTree.idsList ts) := by
  cases ts with
  | nil => cases h
  | cons t ts =>
    rw [MTree.findNodeList] at h
    cases hft : t.findNode j with
    | some w =>
      rw [hft] at h
      cases h
      rw [MTree.idsList]
      exact (findNode_infix_ids hft).trans
        ((List.prefix_append _ _).isInfix)
    | none =>
      rw [hft] at h
      rw [MTree.idsList]
      exact (findNodeList_infix_ids h).trans
        ((List.suffix_append _ _).isInfix)
end

/-- Ids outside the tree have no subtree. -/
theorem findNode_none {t : MTree} {j : Nat} (h : j ∉ t.ids) :
    t.findNode j = none := by
  cases hf : t.findNode j with
  | none => rfl
  | some u =>
    have h1 := findNode_rootId hf
    have h2 := (findNode_infix_ids hf).subset
    exact absurd (h2 (h1 ▸ rootId_mem u)) h

/-- A found subtree's ids sit inside the ambient ids; membership form. -/
theorem findNode_mem {t u : MTree} {j : Nat}
    (h : t.findNode j = some u) : j ∈ t.ids :=
  (findNode_infix_ids h).subset (findNode_rootId h ▸ rootId_mem u)

/-- Child roots occur among the flat ids. -/
theorem child_root_mem {ts : List MTree} {j : Nat}
    (h : j ∈ ts.map MTree.rootId) : j ∈ MTree.idsList ts := by
  induction ts with
  | nil => cases h
  | cons t ts ih =>
    rw [MTree.idsList, List.mem_append]
    rcases List.mem_cons.mp h with he | hm
    · exact Or.inl (he ▸ rootId_mem t)
    · exact Or.inr (ih hm)

/-- A member tree's ids form an infix of the flat id list. -/
theorem mem_infix_ids {ts : List MTree} {t : MTree} (h : t ∈ ts) :
    t.ids.IsInfix (MTree.idsList ts) := by
  induction ts with
  | nil => cases h
  | cons t0 ts ih =>
    rw [MTree.idsList]
    rcases List.mem_cons.mp h with he | hm
    · exact he ▸ (List.prefix_append _ _).isInfix
    · exact (ih hm).trans ((List.suffix_append _ _).isInfix)

/-- Nodup decomposition at a node. -/
theorem nodup_node {i : Nat} {cs : List MTree}
    (h : (MTree.node i cs).ids.Nodup) :
    i ∉ MTree.idsList cs ∧ (MTree.idsList cs).Nodup := by
  rw [MTree.ids] at h
  exact ⟨(List.nodup_cons.mp h).1, (List.nodup_cons.mp h).2⟩

/-- Nodup decomposition of a flat id list. -/
theorem nodup_idsList_cons {t : MTree} {ts : List MTree}
    (h : (MTree.idsList (t :: ts)).Nodup) :
    t.ids.Nodup ∧ (MTree.idsList ts).Nodup ∧
      ∀ x ∈ t.ids, x ∉ MTree.idsList ts := by
  rw [MTree.idsList] at h
  have h' := List.nodup_append.mp h
  exact ⟨h'.1, h'.2.1, h'.2.2⟩

/-- Nodup transfers to subtrees. -/
theorem nodup_findNode {t u : MTree} {j : Nat} (hN : t.ids.Nodup)
    (h : t.findNode j = some u) : u.ids.Nodup :=
  hN.sublist (findNode_infix_ids h).sublist

mutual
/-- Both ends of a parent edge occur in the tree. -/
theorem parentOf_mem {t : MTree} {j p : Nat}
    (h : t.parentOf j = some p) : p ∈ t.ids ∧ j ∈ t.ids := by
  cases t with
  | node i cs =>
    rw [MTree.parentOf] at h
    split at h
    · cases h
      exact ⟨by simp [MTree.ids], by
        rw [MTree.ids]
        exact List.mem_cons_of_mem _ (child_root_mem (by assumption))⟩
    · obtain ⟨h1, h2⟩ := parentOfList_mem h
      exact ⟨by rw [MTree.ids]; exact List.mem_cons_of_mem _ h1,
        by rw [MTree.ids]; exact List.mem_cons_of_mem _ h2⟩

/-- List version of `parentOf_mem`. -/
theorem parentOfList_mem {ts : List MTree} {j p : Nat}
    (h : MTree.parentOfList ts j = some p) :
    p ∈ MTree.idsList ts ∧ j ∈ MTree.idsList ts := by
  cases ts with
  | nil => cases h
  | cons t ts =>
    rw [MTree.parentOfList] at h
    cases hpt : t.parentOf j with
    | some q =>
      rw [hpt] at h
      cases h
      obtain ⟨h1, h2⟩ := parentOf_mem hpt
      rw [MTree.idsList]
      exact ⟨List.mem_append_left _ h1, List.mem_append_left _ h2⟩
    | none =>
      rw [hpt] at h
      obtain ⟨h1, h2⟩ := parentOfList_mem h
      rw [MTree.idsList]
      exact ⟨List.mem_append_right _ h1, List.mem_append_right _ h2⟩
end

/-- Absent ids have no parent. -/
theorem parentOf_of_not_mem {t : MTree} {j : Nat} (h : j ∉ t.ids) :
    t.parentOf j = none := by
  cases hp : t.parentOf j with
  | none => rfl
  | some p => exact absurd (parentOf_mem hp).2 h

/-- In a duplicate-free tree, the root has no parent. -/
theorem parentOf_root {t : MTree} (hN : t.ids.Nodup) :
    t.parentOf t.rootId = none := by
  cases t with
  | node i cs =>
    obtain ⟨hni, _⟩ := nodup_node hN
    rw [MTree.rootId, MTree.parentOf,
      if_neg (fun hm => hni (child_root_mem hm))]
    cases hp : MTree.parentOfList cs i with
    | none => rfl
    | some q => exact absurd (parentOfList_mem hp).2 hni

mutual
/-- In a duplicate-free tree, every non-root member has a parent. -/
theorem parentOf_isSome {t : MTree} {j : Nat} (hN : t.ids.Nodup)
    (hj : j ∈ t.ids) (hr : j ≠ t.rootId) : (t.parentOf j).isSome := by
  cases t with
  | node i cs =>
    obtain ⟨hni, hncs⟩ := nodup_node hN
    have hij : j ≠ i := by rwa [MTree.rootId] at hr
    have hjcs : j ∈ MTree.idsList cs := by
      rw [MTree.ids] at hj
      exact (List.mem_cons.mp hj).resolve_left hij
    rw [MTree.parentOf]
    by_cases hm : j ∈ cs.map MTree.rootId
    · rw [if_pos hm]; rfl
    · rw [if_neg hm]
      exact parentOfList_isSome hncs hjcs hm

/-- List version of `parentOf_isSome`. -/
theorem parentOfList_isSome {ts : List MTree} {j : Nat}
    (hN : (MTree.idsList ts).Nodup) (hj : j ∈ MTree.idsList ts)
    (hm : j ∉ ts.map MTree.rootId) :
    (MTree.parentOfList ts j).isSome := by
  cases ts with
  | nil => cases hj
  | cons t ts =>
    obtain ⟨hn1, hn2, hdisj⟩ := nodup_idsList_cons hN
    have hmr : j ≠ t.rootId :=
      fun he => hm (by simp [he])
    rw [MTree.parentOfList]
    rw [MTree.idsList, List.mem_append] at hj
    rcases hj with hj | hj
    · have := parentOf_isSome hn1 hj hmr
      cases hpt : t.parentOf j with
      | some q => rfl
      | none => rw [hpt] at this; cases this
    · cases hpt : t.parentOf j with
      | some q => rfl
      | none =>
        have hm' : j ∉ ts.map MTree.rootId := by
          intro hx
          exact hm (List.mem_cons_of_mem _ hx)
        exact parentOfList_isSome hn2 hj hm'
end

mutual
/-- A parent edge exhibits the parent's node and the child among its
children (duplicate-freeness localizes the lookup). -/
theorem parentOf_children {t : MTree} {j p : Nat} (hN : t.ids.Nodup)
    (h : t.parentOf j = some p) :
    ∃ u, t.findNode p = some u ∧ j ∈ u.childTrees.map MTree.rootId := by
  cases t with
  | node i cs =>
    obtain ⟨hni, hncs⟩ := nodup_node hN
    rw [MTree.parentOf] at h
    by_cases hm : j ∈ cs.map MTree.rootId
    · rw [if_pos hm] at h
      cases h
      exact ⟨MTree.node p cs, by simp [MTree.findNode],
        by simpa [MTree.childTrees] using hm⟩
    · rw [if_neg hm] at h
      obtain ⟨u, hu, hj⟩ := parentOfList_children hncs h
      have hp : p ∈ MTree.idsList cs := (parentOfList_mem h).1
      have hip : i ≠ p := fun he => hni (he ▸ hp)
      exact ⟨u, by rw [MTree.findNode, if_neg hip]; exact hu, hj⟩

/-- List version of `parentOf_children`. -/
theorem parentOfList_children {ts : List MTree} {j p : Nat}
    (hN : (MTree.idsList ts).Nodup)
    (h : MTree.parentOfList ts j = some p) :
    ∃ u, MTree.findNodeList ts p = some u ∧
      j ∈ u.childTrees.map MTree.rootId := by
  cases ts with
  | nil => cases h
  | cons t ts =>
    obtain ⟨hn1, hn2, hdisj⟩ := nodup_idsList_cons hN
    rw [MTree.parentOfList] at h
    cases hpt : t.parentOf j with
    | some q =>
      rw [hpt] at h
      cases h
      obtain ⟨u, hu, hj⟩ := parentOf_children hn1 hpt
      exact ⟨u, by rw [MTree.findNodeList, hu], hj⟩
    | none =>
      rw [hpt] at h
      obtain ⟨u, hu, hj⟩ := parentOfList_children hn2 h
      have hp : p ∈ MTree.idsList ts := (parentOfList_mem h).1
      have hpt' : t.findNode p = none := by
        apply findNode_none
        intro hx
        exact hdisj p hx hp
      exact ⟨u, by rw [MTree.findNodeList, hpt']; exact hu, hj⟩
end

mutual
/-- Conversely, a node among the children of a found subtree has that
subtree's root as parent. -/
theorem children_parentOf {t u : MTree} {j p : Nat} (hN : t.ids.Nodup)
    (hf : t.findNode p = some u) (hj : j ∈ u.childTrees.map MTree.rootId) :
    t.parentOf j = some p ∧ j ∈ t.ids ∧ j ≠ t.rootId := by
  cases t with
  | node i cs =>
    obtain ⟨hni, hncs⟩ := nodup_node hN
    rw [MTree.findNode] at hf
    split at hf
    · cases hf
      rename_i hip
      refine ⟨?_, ?_, ?_⟩
      · rw [MTree.parentOf, if_pos (by simpa [MTree.childTrees] using hj)]
        exact congrArg some hip
      · rw [MTree.ids]
        exact List.mem_cons_of_mem _
          (child_root_mem (by simpa [MTree.childTrees] using hj))
      · rw [MTree.rootId]
        exact fun he => hni (he ▸ child_root_mem
          (by simpa [MTree.childTrees] using hj))
    · obtain ⟨hpl, hjm, hjr⟩ := childrenList_parentOf hncs hf hj
      refine ⟨?_, ?_, ?_⟩
      · rw [MTree.parentOf, if_neg hjr]
        exact hpl
      · rw [MTree.ids]
        exact List.mem_cons_of_mem _ hjm
      · rw [MTree.rootId]
        exact fun he => hni (he ▸ hjm)

/-- List version of `children_parentOf`; also reports that `j` is not one
of the top-level roots of the list. -/
theorem childrenList_parentOf {ts : List MTree} {u : MTree} {j p : Nat}
    (hN : (MTree.idsList ts).Nodup)
    (hf : MTree.findNodeList ts p = some u)
    (hj : j ∈ u.childTrees.map MTree.rootId) :
    MTree.parentOfList ts j = some p ∧ j ∈ MTree.idsList ts ∧
      j ∉ ts.map MTree.rootId := by
  cases ts with
  | nil => cases hf
  | cons t ts =>
    obtain ⟨hn1, hn2, hdisj⟩ := nodup_idsList_cons hN
    rw [MTree.findNodeList] at hf
    cases hft : t.findNode p with
    | some w =>
      rw [hft] at hf
      cases hf
      obtain ⟨hpar, hjm, hjr⟩ := children_parentOf hn1 hft hj
      refine ⟨by rw [MTree.parentOfList, hpar], ?_, ?_⟩
      · rw [MTree.idsList]
        exact List.mem_append_left _ hjm
      · intro hx
        rcases List.mem_cons.mp hx with he | hm
        · exact hjr he
        · exact hdisj j hjm (child_root_mem hm)
    | none =>
      rw [hft] at hf
      obtain ⟨hpl, hjm, hjr⟩ := childrenList_parentOf hn2 hf hj
      have hjt : j ∉ t.ids := fun hx => hdisj j hx hjm
      refine ⟨?_, ?_, ?_⟩
      · rw [MTree.parentOfList, parentOf_of_not_mem hjt]
        exact hpl
      · rw [MTree.idsList]
        exact List.mem_append_right _ hjm
      · intro hx
        rcases List.mem_cons.mp hx with he | hm
        · exact hjt (he ▸ rootId_mem t)
        · exact hjr hm
end

mutual
/-- Lookups compose in a duplicate-free tree. -/
theorem findNode_trans {t u w : MTree} {j k : Nat} (hN : t.ids.Nodup)
    (h1 : t.findNode j = some u) (h2 : u.findNode k = some w) :
    t.findNode k = some w := by
  cases t with
  | node i cs =>
    obtain ⟨hni, hncs⟩ := nodup_node hN
    rw [MTree.findNode] at h1
    split at h1
    · cases h1
      exact h2
    · have hk : k ∈ u.ids := findNode_mem h2
      have hkcs : k ∈ MTree.idsList cs :=
        (findNodeList_infix_ids h1).subset hk
      have hik : i ≠ k := fun he => hni (he ▸ hkcs)
      rw [MTree.findNode, if_neg hik]
      exact findNodeList_trans hncs h1 h2

/-- List version of `findNode_trans`. -/
theorem findNodeList_trans {ts : List MTree} {u w : MTree} {j k : Nat}
    (hN : (MTree.idsList ts).Nodup)
    (h1 : MTree.findNodeList ts j = some u)
    (h2 : u.findNode k = some w) :
    MTree.findNodeList ts k = some w := by
  cases ts with
  | nil => cases h1
  | cons t ts =>
    obtain ⟨hn1, hn2, hdisj⟩ := nodup_idsList_cons hN
    rw [MTree.findNodeList] at h1
    cases hft : t.findNode j with
    | some v =>
      rw [hft] at h1
      cases h1
      rw [MTree.findNodeList, findNode_trans hn1 hft h2]
    | none =>
      rw [hft] at h1
      have hk : k ∈ u.ids := findNode_mem h2
      have hkts : k ∈ MTree.idsList ts :=
        (findNodeList_infix_ids h1).subset hk
      have hkt : k ∉ t.ids := fun hx => hdisj k hx hkts
      rw [MTree.findNodeList, findNode_none hkt]
      exact findNodeList_trans hn2 h1 h2
end

/-- The roots of a duplicate-free flat list are duplicate-free. -/
theorem rootIds_nodup {ts : List MTree}
    (hN : (MTree.idsList ts).Nodup) : (ts.map MTree.rootId).Nodup := by
  induction ts with
  | nil => exact List.nodup_nil
  | cons t ts ih =>
    obtain ⟨hn1, hn2, hdisj⟩ := nodup_idsList_cons hN
    rw [List.map_cons, List.nodup_cons]
    refine ⟨fun hx => ?_, ih hn2⟩
    exact hdisj t.rootId (rootId_mem t) (child_root_mem hx)

/-- A member tree of a duplicate-free flat list is duplicate-free. -/
theorem nodup_of_mem {ts : List MTree} {t : MTree}
    (hN : (MTree.idsList ts).Nodup) (h : t ∈ ts) : t.ids.Nodup :=
  hN.sublist (mem_infix_ids h).sublist

/-- Finding the root id of a member of a duplicate-free list returns that
member. -/
theorem findNodeList_of_mem {ts : List MTree} {t : MTree}
    (hN : (MTree.idsList ts).Nodup) (h : t ∈ ts) :
    MTree.findNodeList ts t.rootId = some t := by
  induction ts with
  | nil => cases h
  | cons t0 ts ih =>
    obtain ⟨hn1, hn2, hdisj⟩ := nodup_idsList_cons hN
    rcases List.mem_cons.mp h with he | hm
    · subst he
      rw [MTree.findNodeList, findNode_self]
    · have hrt : t.rootId ∈ MTree.idsList ts :=
        (mem_infix_ids hm).subset (rootId_mem t)
      have hnt : t.rootId ∉ t0.ids := fun hx => hdisj _ hx hrt
      rw [MTree.findNodeList, findNode_none hnt]
      exact ih hn2 hm

/-- A direct child subtree is found by its root id. -/
theorem findNode_child {u ct : MTree} (hN : u.ids.Nodup)
    (h : ct ∈ u.childTrees) : u.findNode ct.rootId = some ct := by
  cases u with
  | node i cs =>
    obtain ⟨hni, hncs⟩ := nodup_node hN
    rw [MTree.childTrees] at h
    have hrt : ct.rootId ∈ MTree.idsList cs :=
      (mem_infix_ids h).subset (rootId_mem ct)
    have hik : i ≠ ct.rootId := fun he => hni (he ▸ hrt)
    rw [MTree.findNode, if_neg hik]
    exact findNodeList_of_mem hncs h

/-- Looking up a top-level root in a list of trees yields the singleton
path. -/
theorem pathToList_root {ts : List MTree} {j : Nat}
    (hN : (MTree.idsList ts).Nodup) (h : j ∈ ts.map MTree.rootId) :
    MTree.pathToList ts j = some [j] := by
  induction ts with
  | nil => cases h
  | cons t ts ih =>
    obtain ⟨hn1, hn2, hdisj⟩ := nodup_idsList_cons hN
    rcases List.mem_cons.mp h with he | hm
    · subst he
      cases t with
      | node r cs' => simp [MTree.pathToList, MTree.pathTo, MTree.rootId]
    · have hj : j ∈ MTree.idsList ts := child_root_mem hm
      have hjt : j ∉ t.ids := fun hx => hdisj j hx hj
      rw [MTree.pathToList, pathTo_none hjt]
      exact ih hn2 hm

mutual
/-- The path to a child extends the path to its parent by one step. -/
theorem pathTo_parent {t : MTree} {j p : Nat} (hN : t.ids.Nodup)
    (h : t.parentOf j = some p) :
    t.pathTo j = (t.pathTo p).map (fun l => l ++ [j]) := by
  cases t with
  | node i cs =>
    obtain ⟨hni, hncs⟩ := nodup_node hN
    rw [MTree.parentOf] at h
    by_cases hm : j ∈ cs.map MTree.rootId
    · rw [if_pos hm] at h
      cases h
      have hij : p ≠ j := fun he =>
        hni (he ▸ child_root_mem hm)
      rw [MTree.pathTo, if_neg hij, pathToList_root hncs hm]
      rw [show (MTree.node p cs).pathTo p = some [p] by
        simp [MTree.pathTo]]
      rfl
    · rw [if_neg hm] at h
      obtain ⟨hpm, hjm⟩ := parentOfList_mem h
      have hij : i ≠ j := fun he => hni (he ▸ hjm)
      have hip : i ≠ p := fun he => hni (he ▸ hpm)
      rw [MTree.pathTo, if_neg hij]
      rw [show (MTree.node i cs).pathTo p
          = (MTree.pathToList cs p).map (i :: ·) by
        rw [MTree.pathTo, if_neg hip]]
      rw [pathToList_parent hncs h hm]
      cases MTree.pathToList cs p with
      | none => rfl
      | some lp => rfl

/-- List version of `pathTo_parent`. -/
theorem pathToList_parent {ts : List MTree} {j p : Nat}
    (hN : (MTree.idsList ts).Nodup)
    (h : MTree.parentOfList ts j = some p)
    (hm : j ∉ ts.map MTree.rootId) :
    MTree.pathToList ts j
      = (MTree.pathToList ts p).map (fun l => l ++ [j]) := by
  cases ts with
  | nil => cases h
  | cons t ts =>
    obtain ⟨hn1, hn2, hdisj⟩ := nodup_idsList_cons hN
    rw [MTree.parentOfList] at h
    cases hpt : t.parentOf j with
    | some q =>
      rw [hpt] at h
      cases h
      have heq := pathTo_parent hn1 hpt
      obtain ⟨rest, hp⟩ := pathTo_shape t p
        (by exact (parentOf_mem hpt).1)
      rw [MTree.pathToList, MTree.pathToList, heq, hp]
      rfl
    | none =>
      rw [hpt] at h
      obtain ⟨hpm, hjm⟩ := parentOfList_mem h
      have hjt : j ∉ t.ids := fun hx => hdisj j hx hjm
      have hpt' : p ∉ t.ids := fun hx => hdisj p hx hpm
      have hm' : j ∉ ts.map MTree.rootId := fun hx =>
        hm (List.mem_cons_of_mem _ hx)
      rw [MTree.pathToList, MTree.pathToList, pathTo_none hjt,
        pathTo_none hpt']
      exact pathToList_parent hn2 h hm'
end

/-- The ancestor chain of the root is empty. -/
theorem ancChain_root (t : MTree) : t.ancChain t.rootId = [] := by
  cases t with
  | node i cs =>
    rw [MTree.ancChain, MTree.rootId, MTree.pathTo]
    simp

/-- The ancestor chain of a child is its parent followed by the parent's
chain. -/
theorem ancChain_parent {t : MTree} {j p : Nat} (hN : t.ids.Nodup)
    (h : t.parentOf j = some p) :
    t.ancChain j = p :: t.ancChain p := by
  obtain ⟨rest, hp⟩ := pathTo_shape t p (parentOf_mem h).1
  have hj := pathTo_parent hN h
  rw [hp] at hj
  have hlast : (t.rootId :: rest).getLast? = some p := (pathTo_mem hp).2.2
  rw [MTree.ancChain, MTree.ancChain, hj, hp]
  show ((t.rootId :: rest) ++ [j]).dropLast.reverse
      = p :: (t.rootId :: rest).dropLast.reverse
  rw [List.dropLast_concat]
  obtain ⟨l', hl'⟩ : ∃ l', t.rootId :: rest = l' ++ [p] := by
    have hne : (t.rootId :: rest) ≠ [] := by simp
    refine ⟨(t.rootId :: rest).dropLast, ?_⟩
    have h1 := List.dropLast_append_getLast hne
    have h2 : (t.rootId :: rest).getLast hne = p := by
      rw [List.getLast?_eq_getLast _ hne] at hlast
      exact Option.some_inj.mp hlast
    rw [h2] at h1
    exact h1.symm
  rw [hl', List.reverse_append, List.dropLast_concat]
  rfl

/-- A member with no parent is the root (duplicate-free tree). -/
theorem eq_root_of_parentOf_none {t : MTree} {j : Nat}
    (hN : t.ids.Nodup) (hj : j ∈ t.ids) (h : t.parentOf j = none) :
    j = t.rootId := by
  by_contra hne
  have := parentOf_isSome hN hj hne
  rw [h] at this
  cases this

/-- Chain members live in the tree. -/
theorem ancChain_mem {t : MTree} {j a : Nat} (h : a ∈ t.ancChain j) :
    a ∈ t.ids := by
  rw [MTree.ancChain] at h
  cases hp : t.pathTo j with
  | none => rw [hp] at h; simp at h
  | some l =>
    rw [hp] at h
    simp only [Option.getD_some, List.mem_reverse] at h
    exact (pathTo_sublist hp).subset ((List.dropLast_sublist _).subset h)

/-- The chain is shorter than the tree. -/
theorem ancChain_length {t : MTree} {j : Nat} (hj : j ∈ t.ids) :
    (t.ancChain j).length < t.size := by
  obtain ⟨rest, hp⟩ := pathTo_shape t j hj
  have hsub := pathTo_sublist hp
  have hlen := hsub.length_le
  rw [MTree.ancChain, hp]
  simp only [Option.getD_some, List.length_reverse]
  rw [MTree.size]
  have : (t.rootId :: rest).dropLast.length < (t.rootId :: rest).length :=
    by simp
  omega

/-- For a non-root member, the chain ends at the root. -/
theorem ancChain_getLast {t : MTree} {c : Nat} (hc : c ∈ t.ids)
    (hne : c ≠ t.rootId) :
    ∃ ys, t.ancChain c = ys ++ [t.rootId] := by
  obtain ⟨rest, hp⟩ := pathTo_shape t c hc
  have hlast := (pathTo_mem hp).2.2
  cases rest with
  | nil =>
    rw [List.getLast?_singleton] at hlast
    cases hlast
    exact absurd rfl hne
  | cons b rest' =>
    refine ⟨(b :: rest').dropLast.reverse, ?_⟩
    rw [MTree.ancChain, hp]
    simp only [Option.getD_some]
    rw [List.dropLast_cons₂, List.reverse_cons]

/-- `find?` over trees locates the unique tree containing an id. -/
theorem findTreeList_of_mem {ts : List MTree} {t : MTree} {j : Nat}
    (hN : (MTree.idsList ts).Nodup) (ht : t ∈ ts) (hj : j ∈ t.ids) :
    ts.find? (fun u => u.ids.contains j) = some t := by
  induction ts with
  | nil => cases ht
  | cons t0 ts ih =>
    obtain ⟨hn1, hn2, hdisj⟩ := nodup_idsList_cons hN
    rcases List.mem_cons.mp ht with he | hm
    · subst he
      rw [List.find?_cons_of_pos]
      simpa using hj
    · have hjts : j ∈ MTree.idsList ts :=
        (mem_infix_ids hm).subset hj
      have hjt0 : j ∉ t0.ids := fun hx => hdisj j hx hjts
      rw [List.find?_cons_of_neg]
      · exact ih hn2 hm
      · simpa using hjt0

/-- In a well-formed forest, membership determines the containing tree. -/
theorem findTree_of_mem {f : Forest} {t : MTree} {j : Nat} (hWF : f.WF)
    (ht : t ∈ f.trees) (hj : j ∈ t.ids) : f.findTree j = some t :=
  findTreeList_of_mem hWF ht hj

/-- In a well-formed forest the root sequence has no duplicates. -/
theorem forest_rootIds_nodup {f : Forest} (hWF : f.WF) :
    f.rootIds.Nodup :=
  rootIds_nodup hWF

/-- Every tree found in a well-formed forest is duplicate-free. -/
theorem findTree_nodup {f : Forest} {t : MTree} {j : Nat} (hWF : f.WF)
    (h : f.findTree j = some t) : t.ids.Nodup :=
  nodup_of_mem hWF (findTree_mem h).2

/-- A member of the root sequence is found as the root of its own tree. -/
theorem findTree_of_root {f : Forest} {r : Nat} (hWF : f.WF)
    (hr : r ∈ f.rootIds) :
    ∃ t, f.findTree r = some t ∧ t.rootId = r ∧ t ∈ f.trees := by
  obtain ⟨t, ht, he⟩ := List.mem_map.mp hr
  exact ⟨t, he ▸ findTree_of_mem hWF ht (he ▸ rootId_mem t), he, ht⟩

/-- The root of a found tree is in the root sequence. -/
theorem findTree_root_mem {f : Forest} {t : MTree} {j : Nat}
    (h : f.findTree j = some t) : t.rootId ∈ f.rootIds :=
  List.mem_map_of_mem _ (findTree_mem h).2

/-- In a duplicate-free tree the root has no siblings. -/
theorem sibling_root {t : MTree} (hN : t.ids.Nodup) :
    t.next_sibling t.rootId = none ∧ t.prev_sibling t.rootId = none := by
  rw [MTree.next_sibling, MTree.prev_sibling, MTree.siblingList,
    parentOf_root hN]
  exact ⟨rfl, rfl⟩

/-- The sibling list of a non-root member. -/
theorem siblingList_eq {t : MTree} {c p : Nat} {up : MTree}
    (hpar : t.parentOf c = some p) (hfp : t.findNode p = some up) :
    t.siblingList c = some (up.childTrees.map MTree.rootId) := by
  rw [MTree.siblingList, hpar, Option.some_bind, MTree.childrenIds, hfp,
    Option.map_some']

/-- `find_first_child` computes `firstChildV`. -/
theorem find_first_child_eval (folded : List Nat) (t : MTree) (c : Nat) :
    find_first_child folded t c
      = match Forest.firstChildV folded t c with
        | some d => (true, d)
        | none => (false, c) := by
  rw [find_first_child, Forest.firstChildV]
  by_cases hm : c ∈ folded
  · rw [if_pos hm, if_pos hm]
  · rw [if_neg hm, if_neg hm]

/-- Membership from a `prevIn` hit. -/
theorem prevIn_mem {l : List Nat} {j p : Nat} (h : prevIn l j = some p) :
    j ∈ l ∧ p ∈ l := by
  have := nextIn_mem h
  exact ⟨by simpa using this.1, by simpa using this.2⟩

/-- `find_next_sibling` when a next sibling exists in the tree. -/
theorem find_next_sibling_of_sib {s : MsgStore ε} {t : MTree} {c n : Nat}
    (h : t.next_sibling c = some n) :
    find_next_sibling s t c = .ok true (t, n) := by
  rw [find_next_sibling, h]

/-- `find_prev_sibling` when a previous sibling exists in the tree. -/
theorem find_prev_sibling_of_sib {s : MsgStore ε} {t : MTree} {c n : Nat}
    (h : t.prev_sibling c = some n) :
    find_prev_sibling s t c = .ok true (t, n) := by
  rw [find_prev_sibling, h]

/-- `find_next_sibling` for a non-root member with no next sibling. -/
theorem find_next_sibling_of_mid {s : MsgStore ε} {t : MTree} {c : Nat}
    (hN : t.ids.Nodup) (hc : c ∈ t.ids) (hr : c ≠ t.rootId)
    (h : t.next_sibling c = none) :
    find_next_sibling s t c = .ok false (t, c) := by
  rw [find_next_sibling, h]
  have hs := parentOf_isSome hN hc hr
  cases hp : t.parentOf c with
  | none => rw [hp] at hs; cases hs
  | some p => simp [hp]

/-- `find_prev_sibling` for a non-root member with no previous sibling. -/
theorem find_prev_sibling_of_mid {s : MsgStore ε} {t : MTree} {c : Nat}
    (hN : t.ids.Nodup) (hc : c ∈ t.ids) (hr : c ≠ t.rootId)
    (h : t.prev_sibling c = none) :
    find_prev_sibling s t c = .ok false (t, c) := by
  rw [find_prev_sibling, h]
  have hs := parentOf_isSome hN hc hr
  cases hp : t.parentOf c with
  | none => rw [hp] at hs; cases hs
  | some p => simp [hp]

/-- `find_next_sibling` at the root with no next root tree. -/
theorem find_next_sibling_root_none {f : Forest} {t : MTree}
    (hN : t.ids.Nodup) (hnext : nextIn f.rootIds t.rootId = none) :
    find_next_sibling f.storeOf t t.rootId
      = .ok false (t, t.rootId) := by
  rw [find_next_sibling, (sibling_root hN).1, parentOf_root hN]
  simp [Forest.storeOf, hnext]

/-- `find_prev_sibling` at the root with no previous root tree. -/
theorem find_prev_sibling_root_none {f : Forest} {t : MTree}
    (hN : t.ids.Nodup) (hprev : prevIn f.rootIds t.rootId = none) :
    find_prev_sibling f.storeOf t t.rootId
      = .ok false (t, t.rootId) := by
  rw [find_prev_sibling, (sibling_root hN).2, parentOf_root hN]
  simp [Forest.storeOf, hprev]

/-- `find_next_sibling` at the root, crossing to the next root tree. -/
theorem find_next_sibling_root_some {f : Forest} {t t' : MTree} {r : Nat}
    (hN : t.ids.Nodup) (hnext : nextIn f.rootIds t.rootId = some r)
    (ht' : f.findTree r = some t') :
    find_next_sibling f.storeOf t t.rootId = .ok true (t', r) := by
  rw [find_next_sibling, (sibling_root hN).1, parentOf_root hN]
  simp [Forest.storeOf, hnext, ht']

/-- `find_prev_sibling` at the root, crossing to the previous root
tree. -/
theorem find_prev_sibling_root_some {f : Forest} {t t' : MTree} {r : Nat}
    (hN : t.ids.Nodup) (hprev : prevIn f.rootIds t.rootId = some r)
    (ht' : f.findTree r = some t') :
    find_prev_sibling f.storeOf t t.rootId = .ok true (t', r) := by
  rw [find_prev_sibling, (sibling_root hN).2, parentOf_root hN]
  simp [Forest.storeOf, hprev, ht']

/-- `find_next_sibling` over the concrete store fails exactly when
`nextSibId` is `none`. -/
theorem find_next_sibling_eval_none {f : Forest} {t : MTree} {c : Nat}
    (hN : t.ids.Nodup) (hc : c ∈ t.ids)
    (h : f.nextSibId t c = none) :
    find_next_sibling f.storeOf t c = .ok false (t, c) := by
  rw [Forest.nextSibId] at h
  cases hs : t.next_sibling c with
  | some n => rw [hs] at h; cases h
  | none =>
    rw [hs] at h
    by_cases hr : c = t.rootId
    · rw [if_pos hr] at h
      subst hr
      exact find_next_sibling_root_none hN h
    · exact find_next_sibling_of_mid hN hc hr hs

/-- `find_prev_sibling` over the concrete store fails exactly when
`prevSibId` is `none`. -/
theorem find_prev_sibling_eval_none {f : Forest} {t : MTree} {c : Nat}
    (hN : t.ids.Nodup) (hc : c ∈ t.ids)
    (h : f.prevSibId t c = none) :
    find_prev_sibling f.storeOf t c = .ok false (t, c) := by
  rw [Forest.prevSibId] at h
  cases hs : t.prev_sibling c with
  | some n => rw [hs] at h; cases h
  | none =>
    rw [hs] at h
    by_cases hr : c = t.rootId
    · rw [if_pos hr] at h
      subst hr
      exact find_prev_sibling_root_none hN h
    · exact find_prev_sibling_of_mid hN hc hr hs

/-- `find_next_sibling` over the concrete store succeeds exactly on
`nextSibId`, staying in the tree for a sibling and fetching the next root
tree otherwise. -/
theorem find_next_sibling_eval_some {f : Forest} {t : MTree} {c n : Nat}
    (hWF : f.WF) (hN : t.ids.Nodup)
    (h : f.nextSibId t c = some n) :
    ∃ t', find_next_sibling f.storeOf t c = .ok true (t', n) ∧
      ((t.next_sibling c = some n → t' = t) ∧
       (t.next_sibling c = none →
         f.findTree n = some t' ∧ t'.rootId = n)) := by
  rw [Forest.nextSibId] at h
  cases hs : t.next_sibling c with
  | some m =>
    rw [hs] at h
    cases h
    exact ⟨t, find_next_sibling_of_sib hs, ⟨fun hh => rfl,
      fun hh => by cases hh⟩⟩
  | none =>
    rw [hs] at h
    by_cases hr : c = t.rootId
    · rw [if_pos hr] at h
      subst hr
      have hmem : n ∈ f.rootIds := (nextIn_mem h).2
      obtain ⟨t', ht', hroot, -⟩ := findTree_of_root hWF hmem
      refine ⟨t', find_next_sibling_root_some hN h ht', ?_, ?_⟩
      · intro hh
        cases hh
      · intro hh
        exact ⟨ht', hroot⟩
    · rw [if_neg hr] at h
      cases h

/-- `find_prev_sibling` over the concrete store succeeds exactly on
`prevSibId`. -/
theorem find_prev_sibling_eval_some {f : Forest} {t : MTree} {c n : Nat}
    (hWF : f.WF) (hN : t.ids.Nodup)
    (h : f.prevSibId t c = some n) :
    ∃ t', find_prev_sibling f.storeOf t c = .ok true (t', n) ∧
      ((t.prev_sibling c = some n → t' = t) ∧
       (t.prev_sibling c = none →
         f.findTree n = some t' ∧ t'.rootId = n)) := by
  rw [Forest.prevSibId] at h
  cases hs : t.prev_sibling c with
  | some m =>
    rw [hs] at h
    cases h
    exact ⟨t, find_prev_sibling_of_sib hs, ⟨fun hh => rfl,
      fun hh => by cases hh⟩⟩
  | none =>
    rw [hs] at h
    by_cases hr : c = t.rootId
    · rw [if_pos hr] at h
      subst hr
      have hmem : n ∈ f.rootIds := (prevIn_mem h).2
      obtain ⟨t', ht', hroot, -⟩ := findTree_of_root hWF hmem
      refine ⟨t', find_prev_sibling_root_some hN h ht', ?_, ?_⟩
      · intro hh
        cases hh
      · intro hh
        exact ⟨ht', hroot⟩
    · rw [if_neg hr] at h
      cases h

/-- `descLastAux` descends into the last child, if any. -/
theorem descLastAux_eq (folded : List Nat) (i : Nat) (cs : List MTree) :
    MTree.descLastAux folded i cs
      = match cs.getLast? with
        | none => i
        | some c => MTree.descLast folded c := by
  induction cs with
  | nil => rfl
  | cons a cs ih =>
    cases cs with
    | nil => rfl
    | cons b cs' =>
      rw [MTree.descLastAux, ih, List.getLast?_cons_cons]

/-- `descLast` at a folded or childless node stays put. -/
theorem descLast_stop {folded : List Nat} {u : MTree}
    (h : u.rootId ∈ folded ∨ u.childTrees = []) :
    MTree.descLast folded u = u.rootId := by
  cases u with
  | node i cs =>
    rw [MTree.descLast]
    rcases h with h | h
    · rw [if_pos (by rwa [MTree.rootId] at h), MTree.rootId]
    · rw [MTree.childTrees] at h
      subst h
      by_cases hm : i ∈ folded
      · rw [if_pos hm, MTree.rootId]
      · rw [if_neg hm, MTree.rootId]
        rfl

/-- `descLast` at an unfolded node with a last child descends into it. -/
theorem descLast_child {folded : List Nat} {u ct : MTree}
    (hm : u.rootId ∉ folded) (h : u.childTrees.getLast? = some ct) :
    MTree.descLast folded u = MTree.descLast folded ct := by
  cases u with
  | node i cs =>
    rw [MTree.rootId] at hm
    rw [MTree.childTrees] at h
    rw [MTree.descLast, if_neg hm, descLastAux_eq, h]

/-- A tree has at least one node. -/
theorem size_pos (t : MTree) : 0 < t.size := by
  rw [MTree.size]
  exact List.length_pos_of_mem (rootId_mem t)

/-- A child subtree is smaller than its parent. -/
theorem size_child_lt {u ct : MTree} (h : ct ∈ u.childTrees) :
    ct.size < u.size := by
  cases u with
  | node i cs =>
    rw [MTree.childTrees] at h
    have hinf := mem_infix_ids h
    have := hinf.sublist.length_le
    rw [MTree.size, MTree.size, MTree.ids]
    simp only [List.length_cons]
    omega

/-- The `while find_last_child` loop computes `descLast` of the subtree,
given enough fuel. -/
theorem last_child_loop_eval {folded : List Nat} {t u : MTree}
    {c fuel : Nat} (hN : t.ids.Nodup) (hf : t.findNode c = some u)
    (hfuel : u.size ≤ fuel) :
    last_child_loop folded t fuel c = MTree.descLast folded u := by
  induction fuel generalizing c u with
  | zero =>
    have := size_pos u
    omega
  | succ fuel ih =>
    have hroot : u.rootId = c := findNode_rootId hf
    rw [last_child_loop, find_last_child]
    by_cases hm : c ∈ folded
    · rw [if_pos hm]
      show c = MTree.descLast folded u
      rw [descLast_stop (Or.inl (hroot ▸ hm)), hroot]
    · rw [if_neg hm]
      rw [MTree.childrenIds, hf, Option.map_some', Option.some_bind]
      cases hlast : u.childTrees.getLast? with
      | none =>
        have : (u.childTrees.map MTree.rootId).getLast? = none := by
          rw [List.getLast?_map, hlast]
          rfl
        rw [this]
        have hcs : u.childTrees = [] := by
          cases hu : u.childTrees with
          | nil => rfl
          | cons a l =>
            rw [hu] at hlast
            rcases List.getLast?_eq_none_iff.mp hlast
        show c = MTree.descLast folded u
        rw [descLast_stop (Or.inr hcs), hroot]
      | some ct =>
        have hmap : (u.childTrees.map MTree.rootId).getLast?
            = some ct.rootId := by
          rw [List.getLast?_map, hlast]
          rfl
        rw [hmap]
        have hctmem : ct ∈ u.childTrees :=
          List.mem_of_getLast?_eq_some hlast
        have hNu : u.ids.Nodup := nodup_findNode hN hf
        have hfc : t.findNode ct.rootId = some ct :=
          findNode_trans hN hf (findNode_child hNu hctmem)
        have hsize : ct.size ≤ fuel :=
          Nat.le_of_lt_succ (Nat.lt_of_lt_of_le (size_child_lt hctmem)
            hfuel)
        show last_child_loop folded t fuel ct.rootId
            = MTree.descLast folded u
        rw [ih hfc hsize]
        exact (descLast_child (hroot ▸ hm) hlast).symm

/-- One step of the descent: if `c` is the last child of `p` and `p` is
unfolded, `descLast` at `p` equals `descLast` at `c`. -/
theorem descLast_step {folded : List Nat} {t up uc : MTree} {c p : Nat}
    (hN : t.ids.Nodup) (hpar : t.parentOf c = some p)
    (hfp : t.findNode p = some up) (hfc : t.findNode c = some uc)
    (hsib : t.next_sibling c = none) (hpf : p ∉ folded) :
    MTree.descLast folded up = MTree.descLast folded uc := by
  obtain ⟨u', hu', hcm⟩ := parentOf_children hN hpar
  rw [hfp] at hu'
  cases hu'
  have hsl := siblingList_eq hpar hfp
  have hnext : nextIn (up.childTrees.map MTree.rootId) c = none := by
    rw [MTree.next_sibling, hsl, Option.some_bind] at hsib
    exact hsib
  have hlast := getLast?_of_nextIn_none hcm hnext
  rw [List.getLast?_map] at hlast
  cases hct : up.childTrees.getLast? with
  | none => rw [hct] at hlast; cases hlast
  | some ct =>
    rw [hct] at hlast
    have hcr : ct.rootId = c := Option.some_inj.mp hlast
    have hctmem : ct ∈ up.childTrees :=
      List.mem_of_getLast?_eq_some hct
    have hNu : up.ids.Nodup := nodup_findNode hN hfp
    have hfc' : t.findNode c = some ct :=
      hcr ▸ findNode_trans hN hfp (findNode_child hNu hctmem)
    rw [hfc] at hfc'
    cases hfc'
    exact descLast_child
      (by rwa [findNode_rootId hfp]) hct

/-- Descending from an ancestor along a chain of unfolded last children
reaches down to the descendant's subtree. -/
theorem descLast_reaches {folded : List Nat} {t : MTree} :
    ∀ (ys : List Nat) {c a : Nat} {rest : List Nat} {ua uc : MTree},
    t.ids.Nodup → t.findNode a = some ua → t.findNode c = some uc →
    t.ancChain c = ys ++ a :: rest →
    (∀ x ∈ c :: ys, t.next_sibling x = none) →
    (∀ x ∈ ys, x ∉ folded) → a ∉ folded →
    MTree.descLast folded ua = MTree.descLast folded uc := by
  intro ys
  induction ys with
  | nil =>
    intro c a rest ua uc hN hfa hfc hch hsib hunf hauf
    have hc : c ∈ t.ids := findNode_mem hfc
    have hpar : t.parentOf c = some a := by
      cases hp : t.parentOf c with
      | none =>
        rw [eq_root_of_parentOf_none hN hc hp] at hch
        rw [ancChain_root] at hch
        cases hch
      | some p =>
        rw [ancChain_parent hN hp] at hch
        cases hch
        rfl
    exact descLast_step hN hpar hfa hfc
      (hsib c (List.mem_cons_self ..)) hauf
  | cons y ys ih =>
    intro c a rest ua uc hN hfa hfc hch hsib hunf hauf
    have hc : c ∈ t.ids := findNode_mem hfc
    have hpar : t.parentOf c = some y := by
      cases hp : t.parentOf c with
      | none =>
        rw [eq_root_of_parentOf_none hN hc hp, ancChain_root] at hch
        cases hch
      | some p =>
        rw [ancChain_parent hN hp] at hch
        have he : p = y := (List.cons.injEq .. ▸ hch).1
        rw [he]
    have hchy : t.ancChain y = ys ++ a :: rest := by
      rw [ancChain_parent hN hpar] at hch
      exact (List.cons.injEq .. ▸ hch).2
    have hy : y ∈ t.ids := (parentOf_mem hpar).1
    obtain ⟨uy, hfy⟩ :=
      Option.isSome_iff_exists.mp (findNode_isSome hy)
    have h1 : MTree.descLast folded ua = MTree.descLast folded uy :=
      ih hN hfa hfy hchy
        (fun x hx => hsib x (List.mem_cons_of_mem _ hx))
        (fun x hx => hunf x (List.mem_cons_of_mem _ hx)) hauf
    have h2 : MTree.descLast folded uy = MTree.descLast folded uc :=
      descLast_step hN hpar hfy hfc (hsib c (List.mem_cons_self ..))
        (hunf y (List.mem_cons_self ..))
    exact h1.trans h2

/-- A subtree is no larger than the whole tree. -/
theorem size_findNode_le {t u : MTree} {j : Nat}
    (h : t.findNode j = some u) : u.size ≤ t.size :=
  (findNode_infix_ids h).sublist.length_le

/-- The ancestor loop reports no movement when no ancestor (nor root
crossing) yields a successor. -/
theorem next_msg_loop_none {f : Forest} {t : MTree} {c id0 fuel : Nat}
    (hN : t.ids.Nodup) (hc : c ∈ t.ids)
    (h : (t.ancChain c).findSome? (fun a => f.nextSibId t a) = none) :
    next_msg_loop f.storeOf fuel t id0 c = .ok false (t, id0) := by
  induction fuel generalizing c with
  | zero => rfl
  | succ fuel ih =>
    cases hp : t.parentOf c with
    | none => simp only [next_msg_loop, find_parent, hp]
    | some p =>
      have hch := ancChain_parent hN hp
      rw [hch, List.findSome?_cons] at h
      cases hns : f.nextSibId t p with
      | some m => rw [hns] at h; cases h
      | none =>
        rw [hns] at h
        have hpm : p ∈ t.ids := (parentOf_mem hp).1
        simp only [next_msg_loop, find_parent, hp,
          find_next_sibling_eval_none hN hpm hns]
        exact ih hpm h

/-- The ancestor loop finds the successor produced by the nearest
ancestor with one, given enough fuel. -/
theorem next_msg_loop_some {f : Forest} {t : MTree} {c n fuel : Nat}
    (id0 : Nat) (hWF : f.WF) (hN : t.ids.Nodup) (hc : c ∈ t.ids)
    (hfuel : (t.ancChain c).length ≤ fuel)
    (h : (t.ancChain c).findSome? (fun a => f.nextSibId t a) = some n) :
    ∃ t', next_msg_loop f.storeOf fuel t id0 c = .ok true (t', n) := by
  induction fuel generalizing c with
  | zero =>
    have : t.ancChain c = [] := List.length_eq_zero.mp (by omega)
    rw [this] at h
    cases h
  | succ fuel ih =>
    cases hp : t.parentOf c with
    | none =>
      rw [eq_root_of_parentOf_none hN hc hp, ancChain_root] at h
      cases h
    | some p =>
      have hch := ancChain_parent hN hp
      rw [hch, List.findSome?_cons] at h
      rw [hch] at hfuel
      have hpm : p ∈ t.ids := (parentOf_mem hp).1
      cases hns : f.nextSibId t p with
      | some m =>
        rw [hns] at h
        cases h
        obtain ⟨t', ht', -⟩ := find_next_sibling_eval_some hWF hN hns
        refine ⟨t', ?_⟩
        simp only [next_msg_loop, find_parent, hp, ht']
      | none =>
        rw [hns] at h
        simp only [next_msg_loop, find_parent, hp,
          find_next_sibling_eval_none hN hpm hns]
        exact ih hpm (by simpa using hfuel) h

/-- `find_next_msg` fails exactly when the raw successor is `none`. -/
theorem find_next_msg_eval_none {f : Forest} {folded : List Nat}
    {t : MTree} {c : Nat} (hN : t.ids.Nodup) (hc : c ∈ t.ids)
    (h : Forest.specSuccRaw f folded t c = none) :
    find_next_msg f.storeOf folded t c = .ok false (t, c) := by
  rw [Forest.specSuccRaw] at h
  cases hfc : Forest.firstChildV folded t c with
  | some d => rw [hfc] at h; cases h
  | none =>
    rw [hfc] at h
    rw [List.findSome?_cons] at h
    cases hns : f.nextSibId t c with
    | some m => rw [hns] at h; cases h
    | none =>
      rw [hns] at h
      simp only [find_next_msg, find_first_child_eval, hfc,
        find_next_sibling_eval_none hN hc hns]
      exact next_msg_loop_none hN hc h

/-- `find_next_msg` moves exactly to the raw successor. -/
theorem find_next_msg_eval_some {f : Forest} {folded : List Nat}
    {t : MTree} {c n : Nat} (hWF : f.WF) (hN : t.ids.Nodup)
    (hc : c ∈ t.ids)
    (h : Forest.specSuccRaw f folded t c = some n) :
    ∃ t', find_next_msg f.storeOf folded t c = .ok true (t', n) := by
  rw [Forest.specSuccRaw] at h
  cases hfc : Forest.firstChildV folded t c with
  | some d =>
    rw [hfc] at h
    cases h
    refine ⟨t, ?_⟩
    simp only [find_next_msg, find_first_child_eval, hfc]
  | none =>
    rw [hfc] at h
    rw [List.findSome?_cons] at h
    cases hns : f.nextSibId t c with
    | some m =>
      rw [hns] at h
      cases h
      obtain ⟨t', ht', -⟩ := find_next_sibling_eval_some hWF hN hns
      refine ⟨t', ?_⟩
      simp only [find_next_msg, find_first_child_eval, hfc, ht']
    | none =>
      rw [hns] at h
      have hlen : (t.ancChain c).length ≤ t.size :=
        Nat.le_of_lt (ancChain_length hc)
      obtain ⟨t', ht'⟩ := next_msg_loop_some c hWF hN hc hlen h
      refine ⟨t', ?_⟩
      simp only [find_next_msg, find_first_child_eval, hfc,
        find_next_sibling_eval_none hN hc hns]
      exact ht'

/-- `find_prev_msg` with an in-tree previous sibling: move there and
descend to its deepest last unfolded descendant. -/
theorem find_prev_msg_sib {f : Forest} {folded : List Nat} {t ups : MTree}
    {c ps : Nat} (hN : t.ids.Nodup)
    (hsib : t.prev_sibling c = some ps)
    (hfp : t.findNode ps = some ups) :
    find_prev_msg f.storeOf folded t c
      = .ok true (t, MTree.descLast folded ups) := by
  simp only [find_prev_msg, find_prev_sibling_of_sib hsib,
    last_child_loop_eval hN hfp (size_findNode_le hfp)]

/-- `find_prev_msg` at a root with a previous root: cross to the previous
root tree and descend to its deepest last unfolded descendant. -/
theorem find_prev_msg_cross {f : Forest} {folded : List Nat}
    {t t' : MTree} {r : Nat} (hWF : f.WF) (hN : t.ids.Nodup)
    (hprev : prevIn f.rootIds t.rootId = some r)
    (ht' : f.findTree r = some t') (hr : t'.rootId = r) :
    find_prev_msg f.storeOf folded t t.rootId
      = .ok true (t', MTree.descLast folded t') := by
  have hN' : t'.ids.Nodup := findTree_nodup hWF ht'
  simp only [find_prev_msg, find_prev_sibling_root_some hN hprev ht',
    last_child_loop_eval hN' (hr ▸ findNode_self t') (le_refl _)]

/-- `find_prev_msg` with no previous sibling at a non-root: move to the
parent. -/
theorem find_prev_msg_parent (f : Forest) (folded : List Nat) {t : MTree}
    {c p : Nat} (hN : t.ids.Nodup) (hc : c ∈ t.ids)
    (hr : c ≠ t.rootId) (hsib : t.prev_sibling c = none)
    (hp : t.parentOf c = some p) :
    find_prev_msg f.storeOf folded t c = .ok true (t, p) := by
  simp only [find_prev_msg, find_prev_sibling_of_mid hN hc hr hsib,
    find_parent, hp]

/-- `find_prev_msg` at the first root of the forest: no movement. -/
theorem find_prev_msg_stuck (f : Forest) (folded : List Nat) {t : MTree}
    (hN : t.ids.Nodup) (hprev : prevIn f.rootIds t.rootId = none) :
    find_prev_msg f.storeOf folded t t.rootId
      = .ok false (t, t.rootId) := by
  simp only [find_prev_msg, find_prev_sibling_root_none hN hprev,
    find_parent, parentOf_root hN]

/-- The tree fetched for the first element of a path is the containing
tree itself. -/
theorem storeOf_tree_root {f : Forest} {t : MTree} {c : Nat}
    (hWF : f.WF) (hft : f.findTree c = some t) :
    f.storeOf.tree t.rootId = .ok t :=
  storeOf_tree (findTree_of_mem hWF (findTree_mem hft).2 (rootId_mem t))

/-- `move_cursor_down` from a message moves to the raw pre-order
successor, or to `Bottom` when there is none. -/
theorem move_cursor_down_eval {f : Forest} {folded : List Nat}
    {t : MTree} {c : Nat} {sc : Int} {co : Option Correction}
    (hWF : f.WF) (hft : f.findTree c = some t) :
    move_cursor_down ⟨f.storeOf, .Msg c, folded, sc, co⟩
      = .ok () ⟨f.storeOf,
          (match Forest.specSuccRaw f folded t c with
           | some n => .Msg n
           | none => .Bottom), folded, sc,
          some .MakeCursorVisible⟩ := by
  obtain ⟨rest, hpath⟩ := storeOf_path hft
  have htr := storeOf_tree_root hWF hft
  have hN := findTree_nodup hWF hft
  have hc : c ∈ t.ids := (findTree_mem hft).1
  cases hs : Forest.specSuccRaw f folded t c with
  | none =>
    simp only [move_cursor_down, hpath, htr,
      find_next_msg_eval_none hN hc hs]
  | some n =>
    obtain ⟨t', ht'⟩ := find_next_msg_eval_some hWF hN hc hs
    simp only [move_cursor_down, hpath, htr, ht']

/-- `move_cursor_up` from a message with an in-tree previous sibling:
moves to the sibling's deepest last unfolded descendant. -/
theorem move_cursor_up_eval_sib {f : Forest} {folded : List Nat}
    {t ups : MTree} {c ps : Nat} {sc : Int} {co : Option Correction}
    (hWF : f.WF) (hft : f.findTree c = some t)
    (hsib : t.prev_sibling c = some ps)
    (hfp : t.findNode ps = some ups) :
    move_cursor_up ⟨f.storeOf, .Msg c, folded, sc, co⟩
      = .ok () ⟨f.storeOf, .Msg (MTree.descLast folded ups), folded, sc,
          some .MakeCursorVisible⟩ := by
  obtain ⟨rest, hpath⟩ := storeOf_path hft
  have htr := storeOf_tree_root hWF hft
  have hN := findTree_nodup hWF hft
  simp only [move_cursor_up, hpath, htr,
    find_prev_msg_sib (f := f) hN hsib hfp]

/-- `move_cursor_up` from a root with a previous root: crosses to the
previous root tree's deepest last unfolded descendant. -/
theorem move_cursor_up_eval_cross {f : Forest} {folded : List Nat}
    {t t' : MTree} {r : Nat} {sc : Int} {co : Option Correction}
    (hWF : f.WF) (hft : f.findTree t.rootId = some t)
    (hprev : prevIn f.rootIds t.rootId = some r)
    (ht' : f.findTree r = some t') (hr : t'.rootId = r) :
    move_cursor_up ⟨f.storeOf, .Msg t.rootId, folded, sc, co⟩
      = .ok () ⟨f.storeOf, .Msg (MTree.descLast folded t'), folded, sc,
          some .MakeCursorVisible⟩ := by
  obtain ⟨rest, hpath⟩ := storeOf_path hft
  have htr := storeOf_tree_root hWF hft
  have hN := findTree_nodup hWF hft
  simp only [move_cursor_up, hpath, htr,
    find_prev_msg_cross hWF hN hprev ht' hr]

/-- `move_cursor_up` from a message with no previous sibling: moves to
the parent. -/
theorem move_cursor_up_eval_parent {f : Forest} {folded : List Nat}
    {t : MTree} {c p : Nat} {sc : Int} {co : Option Correction}
    (hWF : f.WF) (hft : f.findTree c = some t) (hr : c ≠ t.rootId)
    (hsib : t.prev_sibling c = none) (hp : t.parentOf c = some p) :
    move_cursor_up ⟨f.storeOf, .Msg c, folded, sc, co⟩
      = .ok () ⟨f.storeOf, .Msg p, folded, sc,
          some .MakeCursorVisible⟩ := by
  obtain ⟨rest, hpath⟩ := storeOf_path hft
  have htr := storeOf_tree_root hWF hft
  have hN := findTree_nodup hWF hft
  have hc : c ∈ t.ids := (findTree_mem hft).1
  simp only [move_cursor_up, hpath, htr,
    find_prev_msg_parent f folded hN hc hr hsib hp]

/-- `move_cursor_up` at the very first root: stays put. -/
theorem move_cursor_up_eval_stuck {f : Forest} {folded : List Nat}
    {t : MTree} {sc : Int} {co : Option Correction}
    (hWF : f.WF) (hft : f.findTree t.rootId = some t)
    (hprev : prevIn f.rootIds t.rootId = none) :
    move_cursor_up ⟨f.storeOf, .Msg t.rootId, folded, sc, co⟩
      = .ok () ⟨f.storeOf, .Msg t.rootId, folded, sc,
          some .MakeCursorVisible⟩ := by
  obtain ⟨rest, hpath⟩ := storeOf_path hft
  have htr := storeOf_tree_root hWF hft
  have hN := findTree_nodup hWF hft
  simp only [move_cursor_up, hpath, htr,
    find_prev_msg_stuck f folded hN hprev]

/-- `move_cursor_up` from `Bottom`: moves to the deepest last unfolded
descendant of the last root tree. -/
theorem move_cursor_up_eval_bottom {f : Forest} {folded : List Nat}
    {t : MTree} {r : Nat} {sc : Int} {co : Option Correction}
    (hWF : f.WF) (hlast : f.rootIds.getLast? = some r)
    (ht : f.findTree r = some t) (hr : t.rootId = r) :
    move_cursor_up ⟨f.storeOf, .Bottom, folded, sc, co⟩
      = .ok () ⟨f.storeOf, .Msg (MTree.descLast folded t), folded, sc,
          some .MakeCursorVisible⟩ := by
  have hN := findTree_nodup hWF ht
  have hloop : last_child_loop folded t t.size r = MTree.descLast folded t :=
    last_child_loop_eval hN (hr ▸ findNode_self t) (le_refl t.size)
  simp only [move_cursor_up, Forest.storeOf, hlast, ht, hloop]

instance visible_decidable (folded : List Nat) (t : MTree) (c : Nat) :
    Decidable (Forest.visible folded t c) :=
  inferInstanceAs (Decidable (∀ a ∈ t.ancChain c, a ∉ folded))

/-- Depth of the root is zero. -/
theorem depthIn_root (t : MTree) : t.depthIn t.rootId = 0 := by
  rw [MTree.depthIn, ancChain_root]
  rfl

/-- Depth of a child is one more than its parent's. -/
theorem depthIn_parent {t : MTree} {c p : Nat} (hN : t.ids.Nodup)
    (h : t.parentOf c = some p) :
    t.depthIn c = t.depthIn p + 1 := by
  rw [MTree.depthIn, MTree.depthIn, ancChain_parent hN h]
  rfl

/-- A previous sibling has the same parent. -/
theorem prev_sibling_parentOf {t : MTree} {c ps : Nat}
    (hN : t.ids.Nodup) (h : t.prev_sibling c = some ps) :
    t.parentOf ps = t.parentOf c := by
  rw [MTree.prev_sibling, MTree.siblingList] at h
  cases hp : t.parentOf c with
  | none => rw [hp] at h; cases h
  | some p =>
    rw [hp, Option.some_bind] at h
    rw [MTree.childrenIds] at h
    cases hfp : t.findNode p with
    | none => rw [hfp] at h; cases h
    | some u =>
      rw [hfp, Option.map_some', Option.some_bind] at h
      have hmem := (prevIn_mem h).2
      exact (children_parentOf hN hfp hmem).1

/-- A next sibling has the same parent. -/
theorem next_sibling_parentOf {t : MTree} {c ns : Nat}
    (hN : t.ids.Nodup) (h : t.next_sibling c = some ns) :
    t.parentOf ns = t.parentOf c := by
  rw [MTree.next_sibling, MTree.siblingList] at h
  cases hp : t.parentOf c with
  | none => rw [hp] at h; cases h
  | some p =>
    rw [hp, Option.some_bind] at h
    rw [MTree.childrenIds] at h
    cases hfp : t.findNode p with
    | none => rw [hfp] at h; cases h
    | some u =>
      rw [hfp, Option.map_some', Option.some_bind] at h
      have hmem := (nextIn_mem h).2
      exact (children_parentOf hN hfp hmem).1

/-- Members of a found tree get their depth from it. -/
theorem depthOf_eq {f : Forest} {t : MTree} {c : Nat}
    (h : f.findTree c = some t) : f.depthOf c = some (t.depthIn c) := by
  rw [Forest.depthOf, h, Option.map_some']

/-- Siblings sit at the same depth. -/
theorem depthIn_prev_sibling {t : MTree} {c ps : Nat}
    (hN : t.ids.Nodup) (h : t.prev_sibling c = some ps) :
    t.depthIn ps = t.depthIn c := by
  have hpar := prev_sibling_parentOf hN h
  cases hp : t.parentOf c with
  | none =>
    rw [MTree.prev_sibling, MTree.siblingList, hp] at h
    cases h
  | some p =>
    rw [hp] at hpar
    rw [depthIn_parent hN hpar, depthIn_parent hN hp]

/-- Siblings sit at the same depth (next direction). -/
theorem depthIn_next_sibling {t : MTree} {c ns : Nat}
    (hN : t.ids.Nodup) (h : t.next_sibling c = some ns) :
    t.depthIn ns = t.depthIn c := by
  have hpar := next_sibling_parentOf hN h
  cases hp : t.parentOf c with
  | none =>
    rw [MTree.next_sibling, MTree.siblingList, hp] at h
    cases h
  | some p =>
    rw [hp] at hpar
    rw [depthIn_parent hN hpar, depthIn_parent hN hp]

/-- `specSucc` and `specSuccRaw` agree on visible positions. -/
theorem specSucc_eq_raw {f : Forest} {folded : List Nat} {t : MTree}
    {c : Nat} (hv : Forest.visible folded t c) :
    Forest.specSucc f folded t c = Forest.specSuccRaw f folded t c := by
  rw [Forest.specSucc, Forest.specSuccRaw]
  have hfe : (t.ancChain c).filter (fun a => decide (¬ a ∈ folded))
      = t.ancChain c :=
    List.filter_eq_self.mpr (fun a ha => decide_eq_true (hv a ha))
  rw [hfe]

/-- C1: from a message cursor on a visible message `c`, `move_cursor_down`
moves to the pre-order successor of `c` over the folded forest — the
first unfolded child of `c` if one exists, else the next sibling of `c`,
else the next sibling of the nearest unfolded ancestor, crossing from a
root with no next sibling to the root of the next root tree — and to
`Bottom` when no such position exists anywhere. -/
theorem c1_move_down_preorder_successor (f : Forest) (folded : List Nat)
    (t : MTree) (c : Nat) (sc : Int) (co : Option Correction)
    (hWF : f.WF) (hft : f.findTree c = some t)
    (hv : Forest.visible folded t c) :
    move_cursor_down ⟨f.storeOf, .Msg c, folded, sc, co⟩
      = .ok () ⟨f.storeOf,
          (match Forest.specSucc f folded t c with
           | some n => .Msg n
           | none => .Bottom), folded, sc,
          some .MakeCursorVisible⟩ := by
  rw [specSucc_eq_raw hv]
  exact move_cursor_down_eval hWF hft

/-- Witness for C1 on the forest `1 → [2 → [4], 3]` with 2 folded: the
successor of the visible message 2 skips its hidden child 4 and is its
next sibling 3, and `move_cursor_down` moves there. -/
theorem c1_witness :
    Forest.specSucc ⟨[.node 1 [.node 2 [.node 4 []], .node 3 []]],
        [1, 2, 4, 3], []⟩ [2]
        (.node 1 [.node 2 [.node 4 []], .node 3 []]) 2 = some 3 ∧
    ((move_cursor_down ⟨(Forest.storeOf
        ⟨[.node 1 [.node 2 [.node 4 []], .node 3 []]], [1, 2, 4, 3], []⟩),
        .Msg 2, [2], 0, none⟩).stateOf).cursor = .Msg 3 := by
  have h := c1_move_down_preorder_successor
      ⟨[.node 1 [.node 2 [.node 4 []], .node 3 []]], [1, 2, 4, 3], []⟩
      [2] (.node 1 [.node 2 [.node 4 []], .node 3 []]) 2 0 none
      (by decide) rfl (by decide)
  exact ⟨rfl, by rw [h]; rfl⟩

/-- A previous sibling implies a parent. -/
theorem prev_sibling_parent_isSome {t : MTree} {c ps : Nat}
    (h : t.prev_sibling c = some ps) : ∃ p, t.parentOf c = some p := by
  rw [MTree.prev_sibling, MTree.siblingList] at h
  cases hp : t.parentOf c with
  | none => rw [hp] at h; cases h
  | some p => exact ⟨p, rfl⟩

/-- A next sibling implies a parent. -/
theorem next_sibling_parent_isSome {t : MTree} {c ns : Nat}
    (h : t.next_sibling c = some ns) : ∃ p, t.parentOf c = some p := by
  rw [MTree.next_sibling, MTree.siblingList] at h
  cases hp : t.parentOf c with
  | none => rw [hp] at h; cases h
  | some p => exact ⟨p, rfl⟩

/-- Siblings are members of the tree. -/
theorem prev_sibling_mem {t : MTree} {c ps : Nat} (hN : t.ids.Nodup)
    (h : t.prev_sibling c = some ps) : ps ∈ t.ids := by
  obtain ⟨p, hp⟩ := prev_sibling_parent_isSome h
  have := prev_sibling_parentOf hN h
  rw [hp] at this
  exact (parentOf_mem this).2

/-- Siblings are members of the tree (next direction). -/
theorem next_sibling_mem {t : MTree} {c ns : Nat} (hN : t.ids.Nodup)
    (h : t.next_sibling c = some ns) : ns ∈ t.ids := by
  obtain ⟨p, hp⟩ := next_sibling_parent_isSome h
  have := next_sibling_parentOf hN h
  rw [hp] at this
  exact (parentOf_mem this).2

/-- The depth of a message in the forest, via its containing tree. -/
theorem depthOf_mem {f : Forest} {t : MTree} {c : Nat} (hWF : f.WF)
    (hft : f.findTree c = some t) {x : Nat} (hx : x ∈ t.ids) :
    f.depthOf x = some (t.depthIn x) :=
  depthOf_eq (findTree_of_mem hWF (findTree_mem hft).2 hx)

/-- Roots of the root sequence have forest depth zero. -/
theorem depthOf_root {f : Forest} {r : Nat} (hWF : f.WF)
    (hr : r ∈ f.rootIds) : f.depthOf r = some 0 := by
  obtain ⟨t, ht, hroot, -⟩ := findTree_of_root hWF hr
  rw [depthOf_eq ht, ← hroot, depthIn_root]

/-- C6: `move_cursor_up_sibling` and `move_cursor_down_sibling` keep the
cursor at the same depth `d` (possibly in an adjacent root tree when
`d = 0`) or leave it unchanged — they never change the depth. -/
theorem c6_sibling_moves_preserve_depth (f : Forest) (folded : List Nat)
    (sc : Int) (co : Option Correction) (cur : Cursor Nat) (d : Nat)
    (hWF : f.WF) (hd : Forest.cursorDepth f cur = some d) :
    (∀ v s', move_cursor_up_sibling ⟨f.storeOf, cur, folded, sc, co⟩
        = .ok v s' → Forest.cursorDepth f s'.cursor = some d) ∧
    (∀ v s', move_cursor_down_sibling ⟨f.storeOf, cur, folded, sc, co⟩
        = .ok v s' → Forest.cursorDepth f s'.cursor = some d) := by
  constructor
  · intro v s' h
    rcases cur with _ | c | ⟨cf, pa⟩ | ⟨cf, pa⟩
    · -- Bottom
      have hd0 : d = 0 := by
        rw [Forest.cursorDepth] at hd
        exact (Option.some_inj.mp hd).symm
      cases hg : f.rootIds.getLast? with
      | none =>
        simp only [move_cursor_up_sibling, Forest.storeOf, hg] at h
        cases h
        rw [Forest.cursorDepth, hd0]
      | some r =>
        simp only [move_cursor_up_sibling, Forest.storeOf, hg] at h
        cases h
        have hr : r ∈ f.rootIds := List.mem_of_getLast?_eq_some hg
        rw [Forest.cursorDepth, depthOf_root hWF hr, hd0]
    · -- Msg c
      rw [Forest.cursorDepth] at hd
      cases hft : f.findTree c with
      | none => rw [Forest.depthOf, hft] at hd; cases hd
      | some t =>
        have hdd : t.depthIn c = d :=
          Option.some_inj.mp ((depthOf_eq hft).symm.trans hd)
        obtain ⟨rest, hpath⟩ := storeOf_path hft
        have htr := storeOf_tree_root hWF hft
        have hN := findTree_nodup hWF hft
        have hc : c ∈ t.ids := (findTree_mem hft).1
        cases hps : t.prev_sibling c with
        | some ps =>
          simp only [move_cursor_up_sibling, hpath, htr,
            find_prev_sibling_of_sib hps] at h
          cases h
          have hpm := prev_sibling_mem hN hps
          rw [Forest.cursorDepth, depthOf_mem hWF hft hpm,
            depthIn_prev_sibling hN hps, hdd]
        | none =>
          by_cases hr : c = t.rootId
          · subst hr
            have hd0 : d = 0 := by rw [depthIn_root] at hdd; omega
            cases hpv : prevIn f.rootIds t.rootId with
            | none =>
              simp only [move_cursor_up_sibling, hpath, htr,
                find_prev_sibling_root_none hN hpv] at h
              cases h
              rw [Forest.cursorDepth, depthOf_root hWF
                (findTree_root_mem hft), hd0]
            | some r =>
              obtain ⟨t', ht', hroot', -⟩ :=
                findTree_of_root hWF (prevIn_mem hpv).2
              simp only [move_cursor_up_sibling, hpath, htr,
                find_prev_sibling_root_some hN hpv ht'] at h
              cases h
              rw [Forest.cursorDepth, depthOf_root hWF
                (prevIn_mem hpv).2, hd0]
          · simp only [move_cursor_up_sibling, hpath, htr,
              find_prev_sibling_of_mid hN hc hr hps] at h
            cases h
            rw [Forest.cursorDepth, depthOf_eq hft, hdd]
    · -- Editor
      simp only [move_cursor_up_sibling] at h
      cases h
      exact hd
    · -- Pseudo
      cases pa with
      | none =>
        have hd0 : d = 0 := by
          rw [Forest.cursorDepth] at hd
          exact (Option.some_inj.mp hd).symm
        cases hg : f.rootIds.getLast? with
        | none =>
          simp only [move_cursor_up_sibling, Forest.storeOf, hg] at h
          cases h
          rw [Forest.cursorDepth, hd0]
        | some r =>
          simp only [move_cursor_up_sibling, Forest.storeOf, hg] at h
          cases h
          have hr : r ∈ f.rootIds := List.mem_of_getLast?_eq_some hg
          rw [Forest.cursorDepth, depthOf_root hWF hr, hd0]
      | some p =>
        rw [Forest.cursorDepth] at hd
        cases hft : f.findTree p with
        | none => rw [Forest.depthOf, hft] at hd; cases hd
        | some tp =>
          have hdd : tp.depthIn p + 1 = d := by
            rw [depthOf_eq hft] at hd
            simpa using hd
          obtain ⟨rest, hpath⟩ := storeOf_path hft
          have htr := storeOf_tree_root hWF hft
          have hN := findTree_nodup hWF hft
          have hp : p ∈ tp.ids := (findTree_mem hft).1
          obtain ⟨up, hfp⟩ :=
            Option.isSome_iff_exists.mp (findNode_isSome hp)
          have hch : tp.childrenIds p
              = some (up.childTrees.map MTree.rootId) := by
            rw [MTree.childrenIds, hfp, Option.map_some']
          cases hlast : (up.childTrees.map MTree.rootId).getLast? with
          | none =>
            simp only [move_cursor_up_sibling, hpath, htr, hch,
              hlast] at h
            cases h
            rw [Forest.cursorDepth, Forest.depthOf, hft,
              Option.map_some']
            rw [depthOf_eq hft] at hd
            simpa using hd
          | some lc =>
            simp only [move_cursor_up_sibling, hpath, htr, hch,
              hlast] at h
            cases h
            have hlm : lc ∈ up.childTrees.map MTree.rootId :=
              List.mem_of_getLast?_eq_some hlast
            obtain ⟨hpar, hlcm, -⟩ := children_parentOf hN hfp hlm
            rw [Forest.cursorDepth, depthOf_mem hWF hft hlcm,
              depthIn_parent hN hpar, hdd]
  · intro v s' h
    rcases cur with _ | c | ⟨cf, pa⟩ | ⟨cf, pa⟩
    · -- Bottom: no-op
      simp only [move_cursor_down_sibling] at h
      cases h
      exact hd
    · -- Msg c
      rw [Forest.cursorDepth] at hd
      cases hft : f.findTree c with
      | none => rw [Forest.depthOf, hft] at hd; cases hd
      | some t =>
        have hdd : t.depthIn c = d :=
          Option.some_inj.mp ((depthOf_eq hft).symm.trans hd)
        obtain ⟨rest, hpath⟩ := storeOf_path hft
        have htr := storeOf_tree_root hWF hft
        have hN := findTree_nodup hWF hft
        have hc : c ∈ t.ids := (findTree_mem hft).1
        cases hns : t.next_sibling c with
        | some ns =>
          simp only [move_cursor_down_sibling, hpath, htr,
            find_next_sibling_of_sib hns, Bool.not_true,
            Bool.false_and, Bool.false_eq_true, if_false] at h
          cases h
          have hnm := next_sibling_mem hN hns
          rw [Forest.cursorDepth, depthOf_mem hWF hft hnm,
            depthIn_next_sibling hN hns, hdd]
        | none =>
          by_cases hr : c = t.rootId
          · subst hr
            have hd0 : d = 0 := by rw [depthIn_root] at hdd; omega
            cases hnv : nextIn f.rootIds t.rootId with
            | none =>
              simp only [move_cursor_down_sibling, hpath, htr,
                find_next_sibling_root_none hN hnv, Bool.not_false,
                Bool.true_and, parentOf_root hN, Option.isNone_none,
                if_true] at h
              cases h
              rw [Forest.cursorDepth, hd0]
            | some r =>
              obtain ⟨t', ht', hroot', -⟩ :=
                findTree_of_root hWF (nextIn_mem hnv).2
              simp only [move_cursor_down_sibling, hpath, htr,
                find_next_sibling_root_some hN hnv ht', Bool.not_true,
                Bool.false_and, Bool.false_eq_true, if_false] at h
              cases h
              rw [Forest.cursorDepth, depthOf_root hWF
                (nextIn_mem hnv).2, hd0]
          · obtain ⟨p, hp⟩ :=
              Option.isSome_iff_exists.mp (parentOf_isSome hN hc hr)
            simp only [move_cursor_down_sibling, hpath, htr,
              find_next_sibling_of_mid hN hc hr hns, Bool.not_false,
              Bool.true_and, hp, Option.isNone_some,
              Bool.false_eq_true, if_false] at h
            cases h
            rw [Forest.cursorDepth, depthOf_eq hft, hdd]
    · -- Editor: no-op
      simp only [move_cursor_down_sibling] at h
      cases h
      exact hd
    · -- Pseudo
      cases pa with
      | none =>
        have hd0 : d = 0 := by
          rw [Forest.cursorDepth] at hd
          exact (Option.some_inj.mp hd).symm
        simp only [move_cursor_down_sibling] at h
        cases h
        rw [Forest.cursorDepth, hd0]
      | some p =>
        simp only [move_cursor_down_sibling] at h
        cases h
        exact hd

/-- Witness for C6 on the two-root forest `1 → [2]`, `5 → [6]`: from
message 2 (depth 1) the sibling moves stay at depth 1, and from root 1
`move_cursor_down_sibling` crosses to root 5 at depth 0. -/
theorem c6_witness :
    Forest.cursorDepth ⟨[.node 1 [.node 2 []], .node 5 [.node 6 []]],
        [1, 2, 5, 6], []⟩ (.Msg 2) = some 1 ∧
    ((move_cursor_down_sibling ⟨(Forest.storeOf
        ⟨[.node 1 [.node 2 []], .node 5 [.node 6 []]], [1, 2, 5, 6],
          []⟩), .Msg 1, [], 0, none⟩).stateOf).cursor = .Msg 5 ∧
    Forest.cursorDepth ⟨[.node 1 [.node 2 []], .node 5 [.node 6 []]],
        [1, 2, 5, 6], []⟩ (.Msg 5) = some 0 := by
  have h := (c6_sibling_moves_preserve_depth
      ⟨[.node 1 [.node 2 []], .node 5 [.node 6 []]], [1, 2, 5, 6], []⟩
      [] 0 none (.Msg 1) 0 (by decide) (by rfl)).2 ()
      ((move_cursor_down_sibling ⟨(Forest.storeOf
        ⟨[.node 1 [.node 2 []], .node 5 [.node 6 []]], [1, 2, 5, 6],
          []⟩), .Msg 1, [], 0, none⟩).stateOf) rfl
  exact ⟨rfl, rfl, h.symm.trans rfl ▸ rfl⟩

/-- Splitting a successful `findSome?` at its first hit. -/
theorem findSome?_split {α β : Type} {g : α → Option β} {l : List α}
    {b : β} (h : l.findSome? g = some b) :
    ∃ l1 a l2, l = l1 ++ a :: l2 ∧ (∀ x ∈ l1, g x = none) ∧
      g a = some b := by
  induction l with
  | nil => simp at h
  | cons x l ih =>
    rw [List.findSome?_cons] at h
    cases hx : g x with
    | some y =>
      rw [hx] at h
      cases h
      exact ⟨[], x, l, rfl, by simp, hx⟩
    | none =>
      rw [hx] at h
      obtain ⟨l1, a, l2, he, h1, h2⟩ := ih h
      refine ⟨x :: l1, a, l2, by rw [he]; rfl, ?_, h2⟩
      intro z hz
      rcases List.mem_cons.mp hz with he' | hm
      · exact he' ▸ hx
      · exact h1 z hm

/-- A `none` successor has no in-tree next sibling. -/
theorem nextSibId_none_sib {f : Forest} {t : MTree} {a : Nat}
    (h : f.nextSibId t a = none) : t.next_sibling a = none := by
  rw [Forest.nextSibId] at h
  cases hs : t.next_sibling a with
  | none => rfl
  | some m => rw [hs] at h; cases h

/-- A `none` successor at the root means no next root either. -/
theorem nextSibId_none_root {f : Forest} {t : MTree}
    (hN : t.ids.Nodup) (h : f.nextSibId t t.rootId = none) :
    nextIn f.rootIds t.rootId = none := by
  rw [Forest.nextSibId, (sibling_root hN).1, if_pos rfl] at h
  exact h

/-- A failing `firstChildV` means the node is folded or childless. -/
theorem firstChildV_none_stop {folded : List Nat} {t u : MTree}
    {c : Nat} (hf : t.findNode c = some u)
    (h : Forest.firstChildV folded t c = none) :
    u.rootId ∈ folded ∨ u.childTrees = [] := by
  rw [Forest.firstChildV] at h
  by_cases hm : c ∈ folded
  · exact Or.inl ((findNode_rootId hf).symm ▸ hm)
  · rw [if_neg hm, MTree.childrenIds, hf, Option.map_some',
      Option.some_bind] at h
    right
    cases hct : u.childTrees with
    | nil => rfl
    | cons w ws =>
      rw [hct] at h
      simp at h

/-- A successful `firstChildV` names the head of the children list. -/
theorem firstChildV_some {folded : List Nat} {t u : MTree} {c n : Nat}
    (hf : t.findNode c = some u)
    (h : Forest.firstChildV folded t c = some n) :
    c ∉ folded ∧ (u.childTrees.map MTree.rootId).head? = some n := by
  rw [Forest.firstChildV] at h
  by_cases hm : c ∈ folded
  · rw [if_pos hm] at h; cases h
  · rw [if_neg hm, MTree.childrenIds, hf, Option.map_some',
      Option.some_bind] at h
    exact ⟨hm, h⟩

/-- The children ids of a node are duplicate-free. -/
theorem childrenIds_nodup {t u : MTree} {c : Nat} (hN : t.ids.Nodup)
    (hf : t.findNode c = some u) :
    (u.childTrees.map MTree.rootId).Nodup := by
  have hNu : u.ids.Nodup := nodup_findNode hN hf
  cases u with
  | node i cs =>
    rw [MTree.childTrees]
    exact rootIds_nodup (nodup_node hNu).2

/-- Sibling queries through a known parent. -/
theorem prev_sibling_eq {t u : MTree} {n p : Nat}
    (hpar : t.parentOf n = some p) (hfp : t.findNode p = some u) :
    t.prev_sibling n = prevIn (u.childTrees.map MTree.rootId) n := by
  rw [MTree.prev_sibling, siblingList_eq hpar hfp, Option.some_bind]

/-- Sibling queries through a known parent (next direction). -/
theorem next_sibling_eq {t u : MTree} {n p : Nat}
    (hpar : t.parentOf n = some p) (hfp : t.findNode p = some u) :
    t.next_sibling n = nextIn (u.childTrees.map MTree.rootId) n := by
  rw [MTree.next_sibling, siblingList_eq hpar hfp, Option.some_bind]

/-- Sibling steps invert in a duplicate-free tree. -/
theorem prev_sibling_of_next {t : MTree} {a n : Nat} (hN : t.ids.Nodup)
    (h : t.next_sibling a = some n) : t.prev_sibling n = some a := by
  obtain ⟨p, hp⟩ := next_sibling_parent_isSome h
  have hpn : t.parentOf n = some p := by
    rw [next_sibling_parentOf hN h, hp]
  obtain ⟨u, hfp⟩ :=
    Option.isSome_iff_exists.mp (findNode_isSome (parentOf_mem hp).1)
  rw [next_sibling_eq hp hfp] at h
  rw [prev_sibling_eq hpn hfp]
  exact prevIn_of_nextIn (childrenIds_nodup hN hfp) h

/-- C2 (amended): for a message cursor on a visible message,
`move_cursor_down` followed immediately by `move_cursor_up`, with no
store mutation in between, returns the cursor to exactly the same id —
including when the down step crossed a root-tree boundary or degraded to
`Bottom`. -/
theorem c2_down_up_roundtrip (f : Forest) (folded : List Nat) (t : MTree)
    (c : Nat) (sc : Int) (co : Option Correction)
    (s1 : InnerTreeViewState Unit) (hWF : f.WF)
    (hft : f.findTree c = some t) (hv : Forest.visible folded t c)
    (hdown : move_cursor_down ⟨f.storeOf, .Msg c, folded, sc, co⟩
      = .ok () s1) :
    ∃ s2 : InnerTreeViewState Unit, move_cursor_up s1 = .ok () s2 ∧
      s2.cursor = .Msg c := by
  rw [move_cursor_down_eval hWF hft] at hdown
  have hs1 : s1 = ⟨f.storeOf,
      (match Forest.specSuccRaw f folded t c with
       | some n => .Msg n | none => .Bottom), folded, sc,
      some .MakeCursorVisible⟩ := by
    cases hdown
    rfl
  subst hs1
  have hN := findTree_nodup hWF hft
  have hc : c ∈ t.ids := (findTree_mem hft).1
  obtain ⟨uc, hfc⟩ := Option.isSome_iff_exists.mp (findNode_isSome hc)
  have hucr : uc.rootId = c := findNode_rootId hfc
  cases hs : Forest.specSuccRaw f folded t c with
  | some n =>
    rw [Forest.specSuccRaw] at hs
    cases hfv : Forest.firstChildV folded t c with
    | some d =>
      rw [hfv] at hs
      cases hs
      obtain ⟨hnf, hhead⟩ := firstChildV_some hfc hfv
      have hnm : n ∈ uc.childTrees.map MTree.rootId := by
        obtain ⟨ys, hys⟩ := List.head?_eq_some_iff.mp hhead
        rw [hys]
        exact List.mem_cons_self ..
      obtain ⟨hpar, hnmem, -⟩ := children_parentOf hN hfc hnm
      have hftn : f.findTree n = some t :=
        findTree_of_mem hWF (findTree_mem hft).2 hnmem
      have hnr : n ≠ t.rootId := by
        intro he
        rw [he, parentOf_root hN] at hpar
        cases hpar
      have hps : t.prev_sibling n = none := by
        rw [prev_sibling_eq hpar hfc]
        exact prevIn_head (childrenIds_nodup hN hfc) hhead
      exact ⟨_, move_cursor_up_eval_parent hWF hftn hnr hps hpar, rfl⟩
    | none =>
      rw [hfv] at hs
      have hstopc : MTree.descLast folded uc = c :=
        (descLast_stop (firstChildV_none_stop hfc hfv)).trans hucr
      obtain ⟨l1, a, l2, he, hnone, ha⟩ := findSome?_split hs
      cases l1 with
      | nil =>
        obtain ⟨hac, hl2⟩ := List.cons.injEq .. ▸ he
        subst hac
        rw [Forest.nextSibId] at ha
        cases hsib : t.next_sibling c with
        | some m =>
          rw [hsib] at ha
          cases ha
          have hpsn : t.prev_sibling n = some c :=
            prev_sibling_of_next hN hsib
          have hftn : f.findTree n = some t :=
            findTree_of_mem hWF (findTree_mem hft).2
              (next_sibling_mem hN hsib)
          refine ⟨_, move_cursor_up_eval_sib hWF hftn hpsn hfc, ?_⟩
          rw [hstopc]
        | none =>
          rw [hsib] at ha
          by_cases hr : c = t.rootId
          · rw [if_pos hr] at ha
            have hmem : n ∈ f.rootIds := (nextIn_mem ha).2
            obtain ⟨tn, htn, hroot, -⟩ := findTree_of_root hWF hmem
            have haroot : nextIn f.rootIds t.rootId = some n := hr ▸ ha
            have hprev : prevIn f.rootIds tn.rootId = some t.rootId := by
              rw [hroot]
              exact prevIn_of_nextIn (forest_rootIds_nodup hWF) haroot
            have hftr : f.findTree t.rootId = some t :=
              findTree_of_mem hWF (findTree_mem hft).2 (rootId_mem t)
            have huc : uc = t := by
              have h1 : t.findNode c = some t := by
                rw [hr]
                exact findNode_self t
              rw [hfc] at h1
              exact Option.some_inj.mp h1
            have hup := @move_cursor_up_eval_cross f folded tn t
              t.rootId sc (some .MakeCursorVisible) hWF
              (hroot.symm ▸ htn) hprev hftr rfl
            rw [hroot] at hup
            refine ⟨_, hup, ?_⟩
            rw [huc] at hstopc
            rw [hstopc]
          · rw [if_neg hr] at ha
            cases ha
      | cons c0 ys =>
        obtain ⟨hcc0, hch⟩ := List.cons.injEq .. ▸ he
        subst hcc0
        have hsibs : ∀ x ∈ c :: ys, t.next_sibling x = none := by
          intro x hx
          exact nextSibId_none_sib (hnone x hx)
        have hunf : ∀ x ∈ ys, x ∉ folded := by
          intro x hx
          exact hv x (hch ▸ List.mem_append_left _ hx)
        have hamem : a ∈ t.ancChain c := by
          rw [hch]
          exact List.mem_append_right _ (List.mem_cons_self ..)
        have hauf : a ∉ folded := hv a hamem
        obtain ⟨ua, hfa⟩ := Option.isSome_iff_exists.mp
          (findNode_isSome (ancChain_mem hamem))
        have hreach : MTree.descLast folded ua = c :=
          (descLast_reaches ys hN hfa hfc hch hsibs hunf hauf).trans
            hstopc
        rw [Forest.nextSibId] at ha
        cases hsibA : t.next_sibling a with
        | some m =>
          rw [hsibA] at ha
          cases ha
          have hpsn : t.prev_sibling n = some a :=
            prev_sibling_of_next hN hsibA
          have hftn : f.findTree n = some t :=
            findTree_of_mem hWF (findTree_mem hft).2
              (next_sibling_mem hN hsibA)
          refine ⟨_, move_cursor_up_eval_sib hWF hftn hpsn hfa, ?_⟩
          rw [hreach]
        | none =>
          rw [hsibA] at ha
          by_cases hr : a = t.rootId
          · rw [if_pos hr] at ha
            have hmem : n ∈ f.rootIds := (nextIn_mem ha).2
            obtain ⟨tn, htn, hroot, -⟩ := findTree_of_root hWF hmem
            have haroot : nextIn f.rootIds t.rootId = some n := hr ▸ ha
            have hprev : prevIn f.rootIds tn.rootId = some t.rootId := by
              rw [hroot]
              exact prevIn_of_nextIn (forest_rootIds_nodup hWF) haroot
            have hftr : f.findTree t.rootId = some t :=
              findTree_of_mem hWF (findTree_mem hft).2 (rootId_mem t)
            have hua : ua = t := by
              have h1 : t.findNode a = some t := by
                rw [hr]
                exact findNode_self t
              rw [hfa] at h1
              exact Option.some_inj.mp h1
            have hup := @move_cursor_up_eval_cross f folded tn t
              t.rootId sc (some .MakeCursorVisible) hWF
              (hroot.symm ▸ htn) hprev hftr rfl
            rw [hroot] at hup
            refine ⟨_, hup, ?_⟩
            rw [hua] at hreach
            rw [hreach]
          · rw [if_neg hr] at ha
            cases ha
  | none =>
    rw [Forest.specSuccRaw] at hs
    cases hfv : Forest.firstChildV folded t c with
    | some d =>
      rw [hfv] at hs
      cases hs
    | none =>
      rw [hfv] at hs
      have hstopc : MTree.descLast folded uc = c :=
        (descLast_stop (firstChildV_none_stop hfc hfv)).trans hucr
      have hall : ∀ x ∈ c :: t.ancChain c, f.nextSibId t x = none :=
        List.findSome?_eq_none_iff.mp hs
      have hrmem : t.rootId ∈ c :: t.ancChain c := by
        by_cases hr : c = t.rootId
        · rw [hr]
          exact List.mem_cons_self ..
        · obtain ⟨ys, hch⟩ := ancChain_getLast hc hr
          refine List.mem_cons_of_mem _ ?_
          rw [hch]
          exact List.mem_append_right _ (List.mem_cons_self ..)
      have hnext : nextIn f.rootIds t.rootId = none :=
        nextSibId_none_root hN (hall t.rootId hrmem)
      have hlast : f.rootIds.getLast? = some t.rootId :=
        getLast?_of_nextIn_none (findTree_root_mem hft) hnext
      have hftr : f.findTree t.rootId = some t :=
        findTree_of_mem hWF (findTree_mem hft).2 (rootId_mem t)
      have hdesc : MTree.descLast folded t = c := by
        by_cases hr : c = t.rootId
        · have huc : uc = t := by
            have h1 : t.findNode c = some t := by
              rw [hr]
              exact findNode_self t
            rw [hfc] at h1
            exact Option.some_inj.mp h1
          rw [← huc]
          exact hstopc
        · obtain ⟨ys, hch⟩ := ancChain_getLast hc hr
          have hsibs : ∀ x ∈ c :: ys, t.next_sibling x = none := by
            intro x hx
            refine nextSibId_none_sib (hall x ?_)
            rcases List.mem_cons.mp hx with hx0 | hx1
            · rw [hx0]
              exact List.mem_cons_self ..
            · refine List.mem_cons_of_mem _ ?_
              rw [hch]
              exact List.mem_append_left _ hx1
          have hunf : ∀ x ∈ ys, x ∉ folded := by
            intro x hx
            exact hv x (hch ▸ List.mem_append_left _ hx)
          have hruf : t.rootId ∉ folded := by
            refine hv t.rootId ?_
            rw [hch]
            exact List.mem_append_right _ (List.mem_cons_self ..)
          exact (descLast_reaches ys hN (findNode_self t) hfc hch
            hsibs hunf hruf).trans hstopc
      refine ⟨_, move_cursor_up_eval_bottom hWF hlast hftr rfl, ?_⟩
      rw [hdesc]

/-- C2 counterexample to the unrestricted claim: over the forest
`1 → [2 → [4]]` with message 2 folded, the (invisible) cursor `Msg 4`
moves down to `Bottom`, and moving up from there lands on `Msg 2`,
not back on `Msg 4` — both moves succeeding. -/
theorem c2_counterexample :
    (move_cursor_down (mkState
        (Forest.storeOf ⟨[.node 1 [.node 2 [.node 4 []]]], [1, 2, 4], []⟩)
        (.Msg 4) [2])).isOk = true ∧
    ((move_cursor_down (mkState
        (Forest.storeOf ⟨[.node 1 [.node 2 [.node 4 []]]], [1, 2, 4], []⟩)
        (.Msg 4) [2])).stateOf).cursor = .Bottom ∧
    (move_cursor_up ((move_cursor_down (mkState
        (Forest.storeOf ⟨[.node 1 [.node 2 [.node 4 []]]], [1, 2, 4], []⟩)
        (.Msg 4) [2])).stateOf)).isOk = true ∧
    ((move_cursor_up ((move_cursor_down (mkState
        (Forest.storeOf ⟨[.node 1 [.node 2 [.node 4 []]]], [1, 2, 4], []⟩)
        (.Msg 4) [2])).stateOf)).stateOf).cursor = .Msg 2 ∧
    (Cursor.Msg 2 : Cursor Nat) ≠ .Msg 4 :=
  ⟨rfl, rfl, rfl, rfl, by decide⟩

/-- Witness for C2 (amended) at a concrete forest `1 → [2]` with nothing
folded: from the visible `Msg 2`, down reaches `Bottom` and up returns to
`Msg 2`. -/
theorem c2_witness :
    ∃ s2 : InnerTreeViewState Unit,
      move_cursor_up ⟨(Forest.storeOf
          ⟨[.node 1 [.node 2 []]], [1, 2], []⟩),
        .Bottom, [], 0, some .MakeCursorVisible⟩ = .ok () s2 ∧
      s2.cursor = .Msg 2 :=
  c2_down_up_roundtrip ⟨[.node 1 [.node 2 []]], [1, 2], []⟩ []
    (.node 1 [.node 2 []]) 2 0 none
    ⟨(Forest.storeOf ⟨[.node 1 [.node 2 []]], [1, 2], []⟩),
      .Bottom, [], 0, some .MakeCursorVisible⟩
    (by decide) rfl (by decide) rfl

/-- No node is its own strict ancestor (duplicate-free tree). -/
theorem not_mem_ancChain_self {t : MTree} {x : Nat} (hN : t.ids.Nodup) :
    x ∉ t.ancChain x := by
  cases hp : t.pathTo x with
  | none =>
    rw [MTree.ancChain, hp]
    simp
  | some l =>
    have hne : l ≠ [] := (pathTo_mem hp).2.1
    have hlast := (pathTo_mem hp).2.2
    rw [List.getLast?_eq_getLast _ hne] at hlast
    have hdecomp : l.dropLast ++ [x] = l := by
      have h1 := List.dropLast_append_getLast hne
      rw [Option.some_inj.mp hlast] at h1
      exact h1
    have hNl : l.Nodup := hN.sublist (pathTo_sublist hp)
    rw [← hdecomp] at hNl
    obtain ⟨-, -, hdisj⟩ := List.nodup_append.mp hNl
    rw [MTree.ancChain, hp]
    simp only [Option.getD_some, List.mem_reverse]
    intro hmm
    exact hdisj hmm (List.mem_singleton.mpr rfl)

/-- Inverting a nonempty ancestor chain: its head is the parent. -/
theorem ancChain_inv {t : MTree} {d p : Nat} {l : List Nat}
    (hN : t.ids.Nodup) (h : t.ancChain d = p :: l) :
    t.parentOf d = some p ∧ t.ancChain p = l := by
  have hd : d ∈ t.ids := by
    by_contra hdn
    rw [MTree.ancChain, pathTo_none hdn] at h
    simp at h
  have hne : d ≠ t.rootId := by
    intro he
    rw [he, ancChain_root] at h
    cases h
  obtain ⟨q, hq⟩ := Option.isSome_iff_exists.mp (parentOf_isSome hN hd hne)
  rw [ancChain_parent hN hq] at h
  obtain ⟨h1, h2⟩ := List.cons.injEq .. ▸ h
  exact ⟨h1 ▸ hq, h1 ▸ h2⟩

/-- The chain of a node splits at any of its ancestors, continuing with
that ancestor's own chain. -/
theorem ancChain_mem_split {t : MTree} {d a : Nat} (hN : t.ids.Nodup)
    (ha : a ∈ t.ancChain d) :
    ∃ ys, t.ancChain d = ys ++ a :: t.ancChain a := by
  have H : ∀ (l : List Nat) (d : Nat), t.ancChain d = l → a ∈ l →
      ∃ ys, t.ancChain d = ys ++ a :: t.ancChain a := by
    intro l
    induction l with
    | nil =>
      intro d hl hm
      cases hm
    | cons p l' ih =>
      intro d hl hm
      obtain ⟨hp, hcp⟩ := ancChain_inv hN hl
      rcases List.mem_cons.mp hm with he | hm'
      · refine ⟨[], ?_⟩
        rw [hl, ← hcp, ← he]
        rfl
      · obtain ⟨ys, hys⟩ := ih p hcp hm'
        refine ⟨p :: ys, ?_⟩
        rw [ancChain_parent hN hp, hys]
        rfl
  exact H _ d rfl ha

/-- The full-tree chain of a subtree member is its subtree chain followed
by the chain of the subtree root. -/
theorem ancChain_localize {t u : MTree} {x : Nat} (hN : t.ids.Nodup)
    (hfx : t.findNode x = some u) :
    ∀ (l : List Nat) (d : Nat), u.ancChain d = l → d ∈ u.ids →
    t.ancChain d = l ++ t.ancChain x := by
  have hNu := nodup_findNode hN hfx
  intro l
  induction l with
  | nil =>
    intro d hl hd
    have hroot : d = u.rootId := by
      by_contra hne
      obtain ⟨p, hp⟩ := Option.isSome_iff_exists.mp
        (parentOf_isSome hNu hd hne)
      rw [ancChain_parent hNu hp] at hl
      cases hl
    rw [hroot, findNode_rootId hfx]
    rfl
  | cons p l' ih =>
    intro d hl hd
    obtain ⟨hp, hcp⟩ := ancChain_inv hNu hl
    obtain ⟨w, hfw, hdw⟩ := parentOf_children hNu hp
    have hfwt : t.findNode p = some w := findNode_trans hN hfx hfw
    have htp : t.parentOf d = some p := (children_parentOf hN hfwt hdw).1
    have hpmem : p ∈ u.ids := (parentOf_mem hp).1
    rw [ancChain_parent hN htp, ih p hcp hpmem]
    rfl

/-- A proper subtree member has the subtree root among its ancestors. -/
theorem subtree_ancChain {t u : MTree} {x d : Nat} (hN : t.ids.Nodup)
    (hfx : t.findNode x = some u) (hd : d ∈ u.ids) (hne : d ≠ x) :
    x ∈ t.ancChain d := by
  have hNu := nodup_findNode hN hfx
  have hrx : u.rootId = x := findNode_rootId hfx
  obtain ⟨ys, hys⟩ := ancChain_getLast hd (by rw [hrx]; exact hne)
  have hloc := ancChain_localize hN hfx (u.ancChain d) d rfl hd
  rw [hloc, hys, hrx]
  exact List.mem_append_left _
    (List.mem_append_right _ (List.mem_cons_self ..))

/-- Conversely, a node with `x` among its ancestors lies properly inside
the subtree rooted at `x`. -/
theorem ancChain_descend {t u : MTree} {x d : Nat} (hN : t.ids.Nodup)
    (hfx : t.findNode x = some u) (hx : x ∈ t.ancChain d) :
    d ∈ u.ids ∧ d ≠ x := by
  have H : ∀ (l : List Nat) (d : Nat), t.ancChain d = l → x ∈ l →
      d ∈ u.ids ∧ d ≠ x := by
    intro l
    induction l with
    | nil =>
      intro d hl hm
      cases hm
    | cons p l' ih =>
      intro d hl hm
      obtain ⟨hp, hcp⟩ := ancChain_inv hN hl
      have hdne : d ≠ x := by
        intro he
        subst he
        rw [← hl] at hm
        exact absurd hm (not_mem_ancChain_self hN)
      refine ⟨?_, hdne⟩
      rcases List.mem_cons.mp hm with hxp | hxl'
      · rw [← hxp] at hp
        obtain ⟨w, hfw, hdw⟩ := parentOf_children hN hp
        rw [hfx] at hfw
        cases hfw
        obtain ⟨ct, hct, hctr⟩ := List.mem_map.mp hdw
        rw [← hctr]
        exact findNode_mem (findNode_child (nodup_findNode hN hfx) hct)
      · obtain ⟨hpu, -⟩ := ih p hcp hxl'
        obtain ⟨up, hup⟩ := Option.isSome_iff_exists.mp
          (findNode_isSome (t := u) hpu)
        have hupt : t.findNode p = some up := findNode_trans hN hfx hup
        obtain ⟨w, hfw, hdw⟩ := parentOf_children hN hp
        rw [hupt] at hfw
        cases hfw
        obtain ⟨ct, hct, hctr⟩ := List.mem_map.mp hdw
        have hdu : d ∈ up.ids := by
          rw [← hctr]
          exact findNode_mem (findNode_child (nodup_findNode hN hupt) hct)
        exact (findNode_infix_ids hup).subset hdu
  exact H _ d rfl hx

/-- Strict descendance over a well-formed forest is exactly ancestor-chain
membership within the containing tree. -/
theorem strictDesc_iff {f : Forest} {x d : Nat} (hWF : f.WF) :
    f.strictDesc x d ↔
      ∃ t, f.findTree d = some t ∧ x ∈ t.ancChain d := by
  constructor
  · intro h
    obtain ⟨tX, uX, hftx, hfx, hdm, hdne⟩ := h
    have hsub : d ∈ tX.ids := (findNode_infix_ids hfx).subset hdm
    have hftd : f.findTree d = some tX :=
      findTree_of_mem hWF (findTree_mem hftx).2 hsub
    exact ⟨tX, hftd,
      subtree_ancChain (findTree_nodup hWF hftx) hfx hdm hdne⟩
  · intro h
    obtain ⟨t, hftd, hx⟩ := h
    have hN := findTree_nodup hWF hftd
    have hxm : x ∈ t.ids := ancChain_mem hx
    have hftx : f.findTree x = some t :=
      findTree_of_mem hWF (findTree_mem hftd).2 hxm
    obtain ⟨u, hfx⟩ := Option.isSome_iff_exists.mp (findNode_isSome hxm)
    obtain ⟨hdm, hdne⟩ := ancChain_descend hN hfx hx
    exact ⟨t, u, hftx, hfx, hdm, hdne⟩

/-- Safety from chain non-membership. -/
theorem not_strictDesc_of_chain {f : Forest} {x c : Nat} {t : MTree}
    (hWF : f.WF) (hft : f.findTree c = some t)
    (hxc : x ∉ t.ancChain c) : ¬ f.strictDesc x c := by
  intro hmm
  obtain ⟨t', hft', hx'⟩ := (strictDesc_iff hWF).mp hmm
  rw [hft] at hft'
  cases hft'
  exact hxc hx'

/-- Chain non-membership from safety. -/
theorem chain_of_not_strictDesc {f : Forest} {x c : Nat} {t : MTree}
    (hWF : f.WF) (hft : f.findTree c = some t)
    (hsafe : ¬ f.strictDesc x c) : x ∉ t.ancChain c :=
  fun hmm => hsafe ((strictDesc_iff hWF).mpr ⟨t, hft, hmm⟩)

/-- Child subtree ids are among the parent subtree's ids. -/
theorem child_ids_subset {u ct : MTree} (h : ct ∈ u.childTrees) :
    ct.ids ⊆ u.ids := by
  cases u with
  | node i cs =>
    intro a ha
    rw [MTree.childTrees] at h
    rw [MTree.ids]
    exact List.mem_cons_of_mem _ ((mem_infix_ids h).subset ha)

/-- `descLast` lands inside the subtree it descends. -/
theorem descLast_mem (folded : List Nat) :
    ∀ (k : Nat) (u : MTree), u.size ≤ k →
    MTree.descLast folded u ∈ u.ids := by
  intro k
  induction k with
  | zero =>
    intro u hk
    have := size_pos u
    omega
  | succ k ih =>
    intro u hk
    by_cases hm : u.rootId ∈ folded
    · rw [descLast_stop (Or.inl hm)]
      exact rootId_mem u
    cases hct : u.childTrees with
    | nil =>
      rw [descLast_stop (Or.inr hct)]
      exact rootId_mem u
    | cons w ws =>
      have hne : u.childTrees ≠ [] := by
        rw [hct]
        exact List.cons_ne_nil w ws
      have hmem := List.getLast_mem hne
      rw [descLast_child hm (List.getLast?_eq_getLast _ hne)]
      refine child_ids_subset hmem (ih _ ?_)
      have := size_child_lt hmem
      omega

/-- Descending along unfolded last children never enters the subtree of a
folded node `x` from outside it: the landing node keeps `x` out of its
ancestor chain. -/
theorem descLast_safe {folded : List Nat} {t : MTree} {x : Nat}
    (hN : t.ids.Nodup) (hx : x ∈ folded) :
    ∀ (k : Nat) (u : MTree) (r : Nat), u.size ≤ k →
    t.findNode r = some u → x ∉ t.ancChain r →
    x ∉ t.ancChain (MTree.descLast folded u) := by
  intro k
  induction k with
  | zero =>
    intro u r hk _ _
    have := size_pos u
    omega
  | succ k ih =>
    intro u r hk hfr hxr
    by_cases hm : u.rootId ∈ folded
    · rw [descLast_stop (Or.inl hm), findNode_rootId hfr]
      exact hxr
    cases hct : u.childTrees with
    | nil =>
      rw [descLast_stop (Or.inr hct), findNode_rootId hfr]
      exact hxr
    | cons w ws =>
      have hne : u.childTrees ≠ [] := by
        rw [hct]
        exact List.cons_ne_nil w ws
      have hmem := List.getLast_mem hne
      have hNu := nodup_findNode hN hfr
      have hfct : t.findNode (u.childTrees.getLast hne).rootId
          = some (u.childTrees.getLast hne) :=
        findNode_trans hN hfr (findNode_child hNu hmem)
      have hpar : t.parentOf (u.childTrees.getLast hne).rootId = some r :=
        (children_parentOf hN hfr (List.mem_map_of_mem _ hmem)).1
      have hxch : x ∉ t.ancChain (u.childTrees.getLast hne).rootId := by
        rw [ancChain_parent hN hpar]
        intro hmm
        rcases List.mem_cons.mp hmm with he | hh
        · apply hm
          rw [findNode_rootId hfr, ← he]
          exact hx
        · exact hxr hh
      rw [descLast_child hm (List.getLast?_eq_getLast _ hne)]
      refine ih (u.childTrees.getLast hne)
        (u.childTrees.getLast hne).rootId ?_ hfct hxch
      have := size_child_lt hmem
      omega

/-- The deep-last-descendant landing of the cursor loops never sits on a
strict descendant of a folded node, starting from a safe node. -/
theorem descLast_not_strictDesc {f : Forest} {folded : List Nat}
    {t u : MTree} {x r : Nat} (hWF : f.WF) (hft : f.findTree r = some t)
    (hfr : t.findNode r = some u) (hx : x ∈ folded)
    (hxr : x ∉ t.ancChain r) :
    ¬ f.strictDesc x (MTree.descLast folded u) := by
  have hN := findTree_nodup hWF hft
  have hid_mem : MTree.descLast folded u ∈ t.ids :=
    (findNode_infix_ids hfr).subset (descLast_mem folded u.size u le_rfl)
  have hftid : f.findTree (MTree.descLast folded u) = some t :=
    findTree_of_mem hWF (findTree_mem hft).2 hid_mem
  exact not_strictDesc_of_chain hWF hftid
    (descLast_safe hN hx u.size u r le_rfl hfr hxr)

/-- The pre-order successor of a safe node is safe: it is never a strict
descendant of a folded node `x`. -/
theorem specSuccRaw_safe {f : Forest} {folded : List Nat} {t : MTree}
    {x c n : Nat} (hWF : f.WF) (hft : f.findTree c = some t)
    (hx : x ∈ folded) (hsafe : ¬ f.strictDesc x c)
    (hs : Forest.specSuccRaw f folded t c = some n) :
    ¬ f.strictDesc x n := by
  have hN := findTree_nodup hWF hft
  have hxc : x ∉ t.ancChain c := chain_of_not_strictDesc hWF hft hsafe
  intro hsd
  obtain ⟨tn, hftn, hxn⟩ := (strictDesc_iff hWF).mp hsd
  rw [Forest.specSuccRaw] at hs
  cases hfv : Forest.firstChildV folded t c with
  | some d =>
    rw [hfv] at hs
    cases hs
    obtain ⟨uc, hfc⟩ := Option.isSome_iff_exists.mp
      (findNode_isSome (findTree_mem hft).1)
    obtain ⟨hnf, hhead⟩ := firstChildV_some hfc hfv
    have hnm : n ∈ uc.childTrees.map MTree.rootId := by
      obtain ⟨ys, hys⟩ := List.head?_eq_some_iff.mp hhead
      rw [hys]
      exact List.mem_cons_self ..
    obtain ⟨hpar, hnmem, -⟩ := children_parentOf hN hfc hnm
    have hftn' : f.findTree n = some t :=
      findTree_of_mem hWF (findTree_mem hft).2 hnmem
    rw [hftn'] at hftn
    cases hftn
    rw [ancChain_parent hN hpar] at hxn
    rcases List.mem_cons.mp hxn with he | hh
    · exact hnf (he ▸ hx)
    · exact hxc hh
  | none =>
    rw [hfv] at hs
    obtain ⟨l1, a, l2, he, -, ha⟩ := findSome?_split hs
    have hamem : a ∈ c :: t.ancChain c := by
      rw [he]
      exact List.mem_append_right _ (List.mem_cons_self ..)
    have hxa : x ∉ t.ancChain a := by
      rcases List.mem_cons.mp hamem with hac | ham
      · rw [hac]
        exact hxc
      · obtain ⟨ys, hys⟩ := ancChain_mem_split hN ham
        intro hmm
        apply hxc
        rw [hys]
        exact List.mem_append_right _ (List.mem_cons_of_mem _ hmm)
    rw [Forest.nextSibId] at ha
    cases hsib : t.next_sibling a with
    | some m =>
      rw [hsib] at ha
      cases ha
      obtain ⟨p, hpa⟩ := next_sibling_parent_isSome hsib
      have hpn : t.parentOf n = some p := by
        rw [next_sibling_parentOf hN hsib, hpa]
      have hnmem : n ∈ t.ids := next_sibling_mem hN hsib
      have hftn' : f.findTree n = some t :=
        findTree_of_mem hWF (findTree_mem hft).2 hnmem
      rw [hftn'] at hftn
      cases hftn
      rw [ancChain_parent hN hpn, ← ancChain_parent hN hpa] at hxn
      exact hxa hxn
    | none =>
      rw [hsib] at ha
      by_cases hr : a = t.rootId
      · rw [if_pos hr] at ha
        have hmemn : n ∈ f.rootIds := (nextIn_mem ha).2
        obtain ⟨tn', htn', hroot', -⟩ := findTree_of_root hWF hmemn
        rw [htn'] at hftn
        cases hftn
        rw [← hroot', ancChain_root] at hxn
        cases hxn
      · rw [if_neg hr] at ha
        cases ha

/-- The concrete store's `last_root_id` query. -/
theorem storeOf_last_root (f : Forest) :
    (f.storeOf).last_root_id = .ok f.rootIds.getLast? := rfl

/-- The concrete store's `tree` query at a miss. -/
theorem storeOf_tree_none {f : Forest} {c : Nat}
    (h : f.findTree c = none) : (f.storeOf).tree c = .error () := by
  simp [Forest.storeOf, h]

/-- A single `move_cursor_down` keeps the store and fold set and preserves
cursor safety with respect to any folded node `x`. -/
theorem down_step_safe {f : Forest} {x : Nat} (hWF : f.WF) :
    ∀ (s s' : InnerTreeViewState Unit), s.store = f.storeOf →
    x ∈ s.folded → cursorSafe f x s.cursor →
    move_cursor_down s = .ok () s' →
    s'.store = f.storeOf ∧ s'.folded = s.folded ∧
      cursorSafe f x s'.cursor := by
  intro s s' hst hx hsafe h
  obtain ⟨store, cursor, folded, sc, co⟩ := s
  have hst' : store = f.storeOf := hst
  subst hst'
  have hx' : x ∈ folded := hx
  cases cursor with
  | Bottom =>
    simp only [move_cursor_down] at h
    cases h
    exact ⟨rfl, rfl, trivial⟩
  | Editor a b =>
    simp only [move_cursor_down] at h
    cases h
    exact ⟨rfl, rfl, trivial⟩
  | Msg c =>
    cases hftc : f.findTree c with
    | none =>
      simp only [move_cursor_down, Forest.storeOf, hftc] at h
      cases h
    | some t =>
      rw [move_cursor_down_eval hWF hftc] at h
      cases h
      refine ⟨rfl, rfl, ?_⟩
      have hsafe' : ¬ f.strictDesc x c := hsafe
      cases hs : Forest.specSuccRaw f folded t c with
      | none => exact trivial
      | some n => exact specSuccRaw_safe hWF hftc hx' hsafe' hs
  | Pseudo a pb =>
    cases pb with
    | none =>
      simp only [move_cursor_down] at h
      cases h
      exact ⟨rfl, rfl, trivial⟩
    | some p =>
      cases hftp : f.findTree p with
      | none =>
        simp only [move_cursor_down, Forest.storeOf, hftp] at h
        cases h
      | some tp =>
        have hNp := findTree_nodup hWF hftp
        have hpm : p ∈ tp.ids := (findTree_mem hftp).1
        obtain ⟨up, hup⟩ := Option.isSome_iff_exists.mp
          (findNode_isSome hpm)
        have hloop : last_child_loop folded tp tp.size p
            = MTree.descLast folded up :=
          last_child_loop_eval hNp hup (size_findNode_le hup)
        have hsafep : ¬ f.strictDesc x p := hsafe
        have hxp : x ∉ tp.ancChain p :=
          chain_of_not_strictDesc hWF hftp hsafep
        have hid_mem : MTree.descLast folded up ∈ tp.ids :=
          (findNode_infix_ids hup).subset (descLast_mem folded up.size up le_rfl)
        have hftid : f.findTree (MTree.descLast folded up) = some tp :=
          findTree_of_mem hWF (findTree_mem hftp).2 hid_mem
        have hid_safe : ¬ f.strictDesc x (MTree.descLast folded up) :=
          descLast_not_strictDesc hWF hftp hup hx' hxp
        cases hs : Forest.specSuccRaw f folded tp
            (MTree.descLast folded up) with
        | none =>
          simp only [move_cursor_down, storeOf_tree hftp, hloop,
            find_next_msg_eval_none hNp hid_mem hs] at h
          cases h
          exact ⟨rfl, rfl, trivial⟩
        | some n =>
          obtain ⟨t', ht'⟩ := find_next_msg_eval_some hWF hNp hid_mem hs
          simp only [move_cursor_down, storeOf_tree hftp, hloop,
            ht'] at h
          cases h
          exact ⟨rfl, rfl, specSuccRaw_safe hWF hftid hx' hid_safe hs⟩

/-- A single `move_cursor_up` keeps the store and fold set and preserves
cursor safety with respect to any folded node `x`. -/
theorem up_step_safe {f : Forest} {x : Nat} (hWF : f.WF) :
    ∀ (s s' : InnerTreeViewState Unit), s.store = f.storeOf →
    x ∈ s.folded → cursorSafe f x s.cursor →
    move_cursor_up s = .ok () s' →
    s'.store = f.storeOf ∧ s'.folded = s.folded ∧
      cursorSafe f x s'.cursor := by
  intro s s' hst hx hsafe h
  obtain ⟨store, cursor, folded, sc, co⟩ := s
  have hst' : store = f.storeOf := hst
  subst hst'
  have hx' : x ∈ folded := hx
  cases cursor with
  | Editor a b =>
    simp only [move_cursor_up] at h
    cases h
    exact ⟨rfl, rfl, trivial⟩
  | Bottom =>
    cases hlr : f.rootIds.getLast? with
    | none =>
      simp only [move_cursor_up, storeOf_last_root, hlr] at h
      cases h
      exact ⟨rfl, rfl, trivial⟩
    | some lr =>
      cases hftl : f.findTree lr with
      | none =>
        simp only [move_cursor_up, storeOf_last_root, hlr,
          storeOf_tree_none hftl] at h
        cases h
      | some tl =>
        have hmem : lr ∈ f.rootIds := List.mem_of_getLast?_eq_some hlr
        obtain ⟨t0, hft0, hroot0, -⟩ := findTree_of_root hWF hmem
        rw [hftl] at hft0
        cases hft0
        have hNl := findTree_nodup hWF hftl
        have hfself : tl.findNode lr = some tl := by
          rw [← hroot0]
          exact findNode_self tl
        have hloop : last_child_loop folded tl tl.size lr
            = MTree.descLast folded tl :=
          last_child_loop_eval hNl hfself le_rfl
        simp only [move_cursor_up, storeOf_last_root, hlr,
          storeOf_tree hftl, hloop] at h
        cases h
        refine ⟨rfl, rfl, ?_⟩
        refine descLast_not_strictDesc hWF hftl hfself hx' ?_
        rw [← hroot0, ancChain_root]
        exact List.not_mem_nil x
  | Pseudo a pb =>
    cases pb with
    | none =>
      cases hlr : f.rootIds.getLast? with
      | none =>
        simp only [move_cursor_up, storeOf_last_root, hlr] at h
        cases h
        exact ⟨rfl, rfl, trivial⟩
      | some lr =>
        cases hftl : f.findTree lr with
        | none =>
          simp only [move_cursor_up, storeOf_last_root, hlr,
          storeOf_tree_none hftl] at h
          cases h
        | some tl =>
          have hmem : lr ∈ f.rootIds := List.mem_of_getLast?_eq_some hlr
          obtain ⟨t0, hft0, hroot0, -⟩ := findTree_of_root hWF hmem
          rw [hftl] at hft0
          cases hft0
          have hNl := findTree_nodup hWF hftl
          have hfself : tl.findNode lr = some tl := by
            rw [← hroot0]
            exact findNode_self tl
          have hloop : last_child_loop folded tl tl.size lr
              = MTree.descLast folded tl :=
            last_child_loop_eval hNl hfself le_rfl
          simp only [move_cursor_up, storeOf_last_root, hlr,
          storeOf_tree hftl, hloop] at h
          cases h
          refine ⟨rfl, rfl, ?_⟩
          refine descLast_not_strictDesc hWF hftl hfself hx' ?_
          rw [← hroot0, ancChain_root]
          exact List.not_mem_nil x
    | some p =>
      cases hftp : f.findTree p with
      | none =>
        simp only [move_cursor_up, storeOf_tree_none hftp] at h
        cases h
      | some tp =>
        have hNp := findTree_nodup hWF hftp
        have hpm : p ∈ tp.ids := (findTree_mem hftp).1
        obtain ⟨up, hup⟩ := Option.isSome_iff_exists.mp
          (findNode_isSome hpm)
        have hloop : last_child_loop folded tp tp.size p
            = MTree.descLast folded up :=
          last_child_loop_eval hNp hup (size_findNode_le hup)
        have hsafep : ¬ f.strictDesc x p := hsafe
        simp only [move_cursor_up, storeOf_tree hftp, hloop] at h
        cases h
        refine ⟨rfl, rfl, ?_⟩
        exact descLast_not_strictDesc hWF hftp hup hx'
          (chain_of_not_strictDesc hWF hftp hsafep)
  | Msg c =>
    cases hftc : f.findTree c with
    | none =>
      simp only [move_cursor_up, Forest.storeOf, hftc] at h
      cases h
    | some t =>
      have hN := findTree_nodup hWF hftc
      have hc : c ∈ t.ids := (findTree_mem hftc).1
      have hsafe' : ¬ f.strictDesc x c := hsafe
      have hxc : x ∉ t.ancChain c :=
        chain_of_not_strictDesc hWF hftc hsafe'
      cases hps : t.prev_sibling c with
      | some ps =>
        have hpsm : ps ∈ t.ids := prev_sibling_mem hN hps
        obtain ⟨ups, hups⟩ := Option.isSome_iff_exists.mp
          (findNode_isSome hpsm)
        rw [move_cursor_up_eval_sib hWF hftc hps hups] at h
        cases h
        refine ⟨rfl, rfl, ?_⟩
        obtain ⟨q, hqc⟩ := prev_sibling_parent_isSome hps
        have hqps : t.parentOf ps = some q := by
          rw [prev_sibling_parentOf hN hps, hqc]
        have hxps : x ∉ t.ancChain ps := by
          rw [ancChain_parent hN hqps]
          intro hmm
          apply hxc
          rw [ancChain_parent hN hqc]
          exact hmm
        exact descLast_not_strictDesc hWF
          (findTree_of_mem hWF (findTree_mem hftc).2 hpsm) hups hx' hxps
      | none =>
        by_cases hr : c = t.rootId
        · subst hr
          cases hpv : prevIn f.rootIds t.rootId with
          | none =>
            rw [move_cursor_up_eval_stuck hWF hftc hpv] at h
            cases h
            exact ⟨rfl, rfl, hsafe⟩
          | some r =>
            obtain ⟨tr, hftr', hrootr, -⟩ :=
              findTree_of_root hWF (prevIn_mem hpv).2
            rw [move_cursor_up_eval_cross hWF hftc hpv hftr' hrootr] at h
            cases h
            refine ⟨rfl, rfl, ?_⟩
            have hfr : tr.findNode r = some tr := by
              rw [← hrootr]
              exact findNode_self tr
            refine descLast_not_strictDesc hWF hftr' hfr hx' ?_
            rw [← hrootr, ancChain_root]
            exact List.not_mem_nil x
        · obtain ⟨p, hp⟩ := Option.isSome_iff_exists.mp
            (parentOf_isSome hN hc hr)
          rw [move_cursor_up_eval_parent hWF hftc hr hps hp] at h
          cases h
          refine ⟨rfl, rfl, ?_⟩
          have hftp : f.findTree p = some t :=
            findTree_of_mem hWF (findTree_mem hftc).2 (parentOf_mem hp).1
          refine not_strictDesc_of_chain hWF hftp ?_
          intro hmm
          apply hxc
          rw [ancChain_parent hN hp]
          exact List.mem_cons_of_mem _ hmm

/-- Iterated `move_cursor_down` preserves cursor safety with respect to
any folded node `x`. -/
theorem iterate_down_safe {f : Forest} {x : Nat} (hWF : f.WF) :
    ∀ (k : Nat) (s s' : InnerTreeViewState Unit), s.store = f.storeOf →
    x ∈ s.folded → cursorSafe f x s.cursor →
    iterate_down k s = .ok () s' → cursorSafe f x s'.cursor := by
  intro k
  induction k with
  | zero =>
    intro s s' hst hx hsafe h
    simp only [iterate_down] at h
    cases h
    exact hsafe
  | succ k ih =>
    intro s s' hst hx hsafe h
    cases hd : move_cursor_down s with
    | err e s1 =>
      simp only [iterate_down, hd] at h
      cases h
    | ok u s1 =>
      cases u
      simp only [iterate_down, hd] at h
      obtain ⟨h1, h2, h3⟩ := down_step_safe hWF s s1 hst hx hsafe hd
      refine ih s1 s' h1 ?_ h3 h
      rw [h2]
      exact hx

/-- C3: with `x` in the fold set and the cursor on (or under) a
non-strict-descendant of `x`, neither a `move_cursor_down` step, nor a
`move_cursor_up` step, nor any number of repeated `move_cursor_down`
steps ever places the cursor on a strict descendant of `x`. -/
theorem c3_fold_containment (f : Forest) (x : Nat)
    (s : InnerTreeViewState Unit) (hWF : f.WF)
    (hstore : s.store = f.storeOf) (hx : x ∈ s.folded)
    (hsafe : cursorSafe f x s.cursor) :
    (∀ s', move_cursor_down s = .ok () s' → cursorSafe f x s'.cursor) ∧
    (∀ s', move_cursor_up s = .ok () s' → cursorSafe f x s'.cursor) ∧
    (∀ k s', iterate_down k s = .ok () s' → cursorSafe f x s'.cursor) :=
  ⟨fun s' h => (down_step_safe hWF s s' hstore hx hsafe h).2.2,
   fun s' h => (up_step_safe hWF s s' hstore hx hsafe h).2.2,
   fun k s' h => iterate_down_safe hWF k s s' hstore hx hsafe h⟩

/-- Witness for C3 at the forest `1 → [2 → [3]]` with message 2 folded:
moving up from `Bottom` lands on the folded message 2 itself — which is
not a strict descendant of 2 — and never on the hidden message 3. -/
theorem c3_witness :
    cursorSafe (⟨[.node 1 [.node 2 [.node 3 []]]], [1, 2, 3], []⟩ :
        Forest) 2
      ((⟨Forest.storeOf ⟨[.node 1 [.node 2 [.node 3 []]]], [1, 2, 3], []⟩,
          .Msg 2, [2], 0, some .MakeCursorVisible⟩ :
        InnerTreeViewState Unit).cursor) :=
  (c3_fold_containment ⟨[.node 1 [.node 2 [.node 3 []]]], [1, 2, 3], []⟩ 2
    (mkState (Forest.storeOf
      ⟨[.node 1 [.node 2 [.node 3 []]]], [1, 2, 3], []⟩) .Bottom [2])
    (by decide) rfl (by decide) True.intro).2.1
    ⟨Forest.storeOf ⟨[.node 1 [.node 2 [.node 3 []]]], [1, 2, 3], []⟩,
      .Msg 2, [2], 0, some .MakeCursorVisible⟩ rfl

end TreeView

end Cove
